import Mathlib

/-!
# Weighted round robin selector (`api/server/rr_weighted.go`)

A shallow embedding of the `RRW` selector of package `server` and proofs about it.

Conventions of the embedding.

* Go `int` is modelled by `Int`.  On every state the program can reach, the fields
  `gcd`, `maxW` and `cw` stay between `0` and the largest weight added, `i` stays
  between `-1` and `n`, and `n` is the length of the item slice, so no operation of the
  selector wraps around; `strconv.Atoi` is the one place where the width of `int`
  is observable, and there the 64-bit range is checked explicitly.
* Go `%` truncates towards zero: it is `Int.tmod`.
* A value of type `interface{}` is either `nil` or a dynamic value.  The type
  parameter `α` is the type of what the field `Item` holds.  `Add` does not look at
  its item, so `nil` can be stored: a selector whose items may be `nil` is an
  `RRW (Option β)`, with `none` for `nil`.  The result of `Next` is an `Option α`
  that tells the two `return` statements of the method apart: `none` is `return nil`
  and `some x` is the return of the item `x`.  The caller gets one value of type
  `interface{}` and cannot tell `return nil` from the return of an item that is
  `nil`: `RRW.NextValue` is that value.
* An item is a key of the map built by `All`.  A Go map panics on a key whose dynamic
  type is not hashable (a slice, a map, a function); which items are hashable is a
  parameter of `All`, and on hashable items `==` is taken to be equality.
* A method with a pointer receiver becomes a function from the state before the
  call to the state after it (and the result).
* `Exec` records how a call ends: it returns, it panics (index out of range,
  integer division by zero), or the model ran out of fuel.  The `for` loop of `Next`
  takes its fuel as an argument.
-/

set_option autoImplicit false

namespace Server

/-! ## Outcomes -/

/-- How a call ends: `ok b` is a normal return of `b`, `panic` a Go run-time panic,
`timeout` means that the fuel given to an unbounded loop was used up. -/
inductive Exec (β : Type) where
  | ok (b : β)
  | panic
  | timeout
  deriving DecidableEq, Repr

/-- Sequencing of calls: the continuation runs when the first call returns. -/
def Exec.bind {β γ : Type} : Exec β → (β → Exec γ) → Exec γ
  | .ok b, f => f b
  | .panic, _ => .panic
  | .timeout, _ => .timeout

/-- Indexing `l[i]` of a slice with a Go `int`: out of range panics. -/
def index {β : Type} (l : List β) (i : Int) : Exec β :=
  if i < 0 then .panic
  else match l.get? i.toNat with
    | some x => .ok x
    | none => .panic

/-! ## The helper `gcd` -/

/-- The loop of `gcd(x, y)`, run for at most `fuel` iterations:
`for { t = x % y; if t > 0 { x = y; y = t } else { return y } }`.
`x % y` panics when `y` is zero. -/
def gcdLoop : Nat → Int → Int → Exec Int
  | 0, _, _ => .timeout
  | fuel + 1, x, y =>
    if y = 0 then .panic
    else
      let t := x.tmod y
      if t > 0 then gcdLoop fuel y t else .ok y

/-- The function `gcd(x, y)` of the source.  Each iteration that does not return
replaces `y` by a `t` with `0 < t < |y|`, so the loop runs at most `|y|` times and
the fuel given here is never used up (`gcd_ne_timeout`). -/
def gcd (x y : Int) : Exec Int :=
  gcdLoop (y.natAbs + 1) x y

/-! ## The selector -/

/-- The struct `rrWeighted`: an item and its weight. -/
structure rrWeighted (α : Type) where
  Item : α
  Weight : Int
  deriving DecidableEq, Repr

/-- The struct `RRW`.  The field `items` is the slice, `n` the counter kept next to
it; `i` is the cursor, `cw` the current weight, `data` the raw configuration. -/
structure RRW (α : Type) where
  items : List (rrWeighted α)
  n : Int
  gcd : Int
  maxW : Int
  i : Int
  cw : Int
  data : String
  deriving DecidableEq, Repr

/-- The zero value of `RRW`, which is what `&RRW{}` and `new(RRW)` give: the package
has no constructor.  Note `i = 0`, not `-1`. -/
def RRW.zero (α : Type) : RRW α :=
  { items := [], n := 0, gcd := 0, maxW := 0, i := 0, cw := 0, data := "" }

/-- The method `Add(item, weight)`. -/
def RRW.Add {α : Type} (w : RRW α) (item : α) (weight : Int) : Exec (RRW α) :=
  let weighted : rrWeighted α := { Item := item, Weight := weight }
  let aggregates : Exec (RRW α) :=
    if weight > 0 then
      if w.gcd = 0 then
        .ok { w with gcd := weight, maxW := weight, i := -1, cw := 0 }
      else
        (Server.gcd w.gcd weight).bind fun g =>
          let w1 := { w with gcd := g }
          if w1.maxW < weight then .ok { w1 with maxW := weight } else .ok w1
    else .ok w
  aggregates.bind fun w2 =>
    .ok { w2 with items := w2.items ++ [weighted], n := w2.n + 1 }

/-- The method `RemoveAll()`. -/
def RRW.RemoveAll {α : Type} (w : RRW α) : RRW α :=
  { w with items := w.items.take 0, n := 0, gcd := 0, maxW := 0, i := -1, cw := 0 }

/-- The method `Reset()`. -/
def RRW.Reset {α : Type} (w : RRW α) : RRW α :=
  { w with i := -1, cw := 0 }

/-- What one run of the body of the `for` loop of `Next` does: it falls through to
the next iteration in state `w`, or it executes a `return`. -/
inductive LoopStep (α : Type) where
  | continue (w : RRW α)
  | ret (w : RRW α) (r : Option α)
  deriving DecidableEq, Repr

/-- The last statement of the loop body of `Next`:
`if w.items[w.i].Weight >= w.cw { return w.items[w.i].Item }`. -/
def RRW.probe {α : Type} (w : RRW α) : Exec (LoopStep α) :=
  (index w.items w.i).bind fun x =>
    if x.Weight ≥ w.cw then .ok (.ret w (some x.Item)) else .ok (.continue w)

/-- The body of the `for` loop of `Next`.  The divisor `w.n` is not `0` when the
loop is entered and the loop does not change it. -/
def RRW.nextBody {α : Type} (w : RRW α) : Exec (LoopStep α) :=
  if w.n = 0 then .panic
  else
    let w1 := { w with i := (w.i + 1).tmod w.n }
    if w1.i = 0 then
      let w2 := { w1 with cw := w1.cw - w1.gcd }
      if w2.cw ≤ 0 then
        let w3 := { w2 with cw := w2.maxW }
        if w3.cw = 0 then .ok (.ret w3 none)
        else w3.probe
      else w2.probe
    else w1.probe

/-- The `for` loop of `Next`, run for at most `fuel` iterations. -/
def RRW.nextLoop {α : Type} : Nat → RRW α → Exec (RRW α × Option α)
  | 0, _ => .timeout
  | fuel + 1, w =>
    match w.nextBody with
    | .ok (.continue w1) => RRW.nextLoop fuel w1
    | .ok (.ret w1 r) => .ok (w1, r)
    | .panic => .panic
    | .timeout => .timeout

/-- The method `Next()`: the state after the call and the value returned.  `fuel`
bounds the number of iterations of the loop. -/
def RRW.Next {α : Type} (fuel : Nat) (w : RRW α) : Exec (RRW α × Option α) :=
  if w.n = 0 then .ok (w, none)
  else if w.n = 1 then
    (index w.items 0).bind fun x => .ok (w, some x.Item)
  else w.nextLoop fuel

/-- The method `Next()` on a selector whose items are values of type `interface{}`,
`nil` (`none`) or a dynamic value: the state after the call and the one value of type
`interface{}` that the caller gets, which is `nil` after `return nil` and also after
the return of an item that is `nil`. -/
def RRW.NextValue {β : Type} (fuel : Nat) (w : RRW (Option β)) :
    Exec (RRW (Option β) × Option β) :=
  (w.Next fuel).bind fun r =>
    match r.2 with
    | none => .ok (r.1, none)
    | some item => .ok (r.1, item)

/-- The method `Add(item, weight)` together with a record of the calls of `gcd` that
it makes: the outcome of the call, computed as in `RRW.Add`, and the arguments
`(x, y)` of each call `gcd(x, y)`, in the order of the calls. -/
def RRW.AddTraced {α : Type} (w : RRW α) (item : α) (weight : Int) :
    Exec (RRW α) × List (Int × Int) :=
  let weighted : rrWeighted α := { Item := item, Weight := weight }
  let aggregates : Exec (RRW α) × List (Int × Int) :=
    if weight > 0 then
      if w.gcd = 0 then
        (.ok { w with gcd := weight, maxW := weight, i := -1, cw := 0 }, [])
      else
        ((Server.gcd w.gcd weight).bind fun g =>
            let w1 := { w with gcd := g }
            if w1.maxW < weight then .ok { w1 with maxW := weight } else .ok w1,
          [(w.gcd, weight)])
    else (.ok w, [])
  (aggregates.1.bind fun w2 =>
      .ok { w2 with items := w2.items ++ [weighted], n := w2.n + 1 },
    aggregates.2)

/-! ## Parsing a configuration: `AddFrom`

A Go string is a sequence of bytes read as UTF-8; the model works on the list of
its characters.  The separators `,` and `=`, the sign and the digits are ASCII, so
splitting and parsing by characters agrees with splitting and parsing by bytes. -/

/-- The function `strings.Split(s, sep)` for a separator of one character: the
pieces between the occurrences of `sep`, empty pieces included; never empty. -/
def split (sep : Char) : List Char → List (List Char)
  | [] => [[]]
  | c :: cs =>
    if c = sep then [] :: split sep cs
    else
      match split sep cs with
      | [] => [[c]]
      | piece :: pieces => (c :: piece) :: pieces

/-- The predicate `unicode.IsSpace`: the characters with the White_Space property. -/
def isSpace (c : Char) : Bool :=
  let u := c.toNat
  (9 ≤ u && u ≤ 13) || u == 32 || u == 0x85 || u == 0xA0 || u == 0x1680 ||
    (0x2000 ≤ u && u ≤ 0x200A) || u == 0x2028 || u == 0x2029 || u == 0x202F ||
    u == 0x205F || u == 0x3000

/-- The function `strings.TrimSpace`: leading and trailing white space removed. -/
def TrimSpace (s : List Char) : List Char :=
  ((s.dropWhile isSpace).reverse.dropWhile isSpace).reverse

/-- The value of a decimal digit, `none` for any other character. -/
def digit (c : Char) : Option Nat :=
  if 48 ≤ c.toNat ∧ c.toNat ≤ 57 then some (c.toNat - 48) else none

/-- The value of a sequence of decimal digits read after the value `acc`. -/
def digits : List Char → Nat → Option Nat
  | [], acc => some acc
  | c :: cs, acc =>
    match digit c with
    | some d => digits cs (acc * 10 + d)
    | none => none

/-- The function `strconv.Atoi` for a 64-bit `int`: an optional sign, then at least
one decimal digit and nothing else, with a value in the range of `int`; `none`
stands for a returned error (syntax or range). -/
def Atoi (s : List Char) : Option Int :=
  let negative : Bool := s.head? = some '-'
  let body : List Char :=
    if s.head? = some '-' ∨ s.head? = some '+' then s.tail else s
  if body = [] then none
  else
    match digits body 0 with
    | none => none
    | some v =>
      if negative then
        if v ≤ 2 ^ 63 then some (-(v : Int)) else none
      else
        if v < 2 ^ 63 then some (v : Int) else none

/-- How a call of `AddFrom` ends: it returns `nil`, it returns the error of
`strconv.Atoi`, or it panics. -/
inductive AddFromResult where
  | nil
  | parseError
  | panic
  deriving DecidableEq, Repr

/-- The `for ... range` loop of `AddFrom` over the entries still to be read.  `box`
converts the key, a `string`, to the `interface{}` that `Add` takes. -/
def RRW.addEntries {α : Type} (box : String → α) (w : RRW α) :
    List (List Char) → RRW α × AddFromResult
  | [] => (w, .nil)
  | entry :: rest =>
    let parts := split '=' entry
    match index parts 0 with
    | .ok p0 =>
      let key := String.mk (TrimSpace p0)
      match index parts 1 with
      | .ok p1 =>
        match Atoi (TrimSpace p1) with
        | none => (w, .parseError)
        | some val =>
          match w.Add (box key) val with
          | .ok w1 => RRW.addEntries box w1 rest
          | _ => (w, .panic)
      | _ => (w, .panic)
    | _ => (w, .panic)

/-- The method `AddFrom(source)`: the state after the call and how the call ends. -/
def RRW.AddFrom {α : Type} (box : String → α) (w : RRW α) (source : String) :
    RRW α × AddFromResult :=
  match RRW.addEntries box w (split ',' source.toList) with
  | (w1, .nil) => ({ w1 with data := source }, .nil)
  | r => r

/-! ## Sequences of calls -/

/-- The items of the list `l` added in order with `Add`. -/
def RRW.addAll {α : Type} (w : RRW α) : List (α × Int) → Exec (RRW α)
  | [] => .ok w
  | p :: ps => (w.Add p.1 p.2).bind fun w1 => RRW.addAll w1 ps

/-- The first `k` successive calls of `Next` from the state `w`, with nothing in
between: for each call the state after it and the value it returned. -/
def RRW.calls {α : Type} (fuel : Nat) : Nat → RRW α → Exec (List (RRW α × Option α))
  | 0, _ => .ok []
  | k + 1, w =>
    (w.Next fuel).bind fun r =>
      (RRW.calls fuel k r.1).bind fun rest => .ok (r :: rest)

/-- The values returned by the first `k` successive calls of `Next`. -/
def RRW.results {α : Type} (fuel : Nat) (k : Nat) (w : RRW α) : Exec (List (Option α)) :=
  (w.calls fuel k).bind fun l => .ok (l.map Prod.snd)

/-- A call of `Next` or of `Reset`. -/
inductive Call where
  | next
  | reset
  deriving DecidableEq, Repr

/-- A sequence of calls of `Next` and `Reset` run from the state `w`: the values
returned by the calls of `Next`, in order. -/
def RRW.run {α : Type} (fuel : Nat) : List Call → RRW α → Exec (List (Option α))
  | [], _ => .ok []
  | .next :: cs, w =>
    (w.Next fuel).bind fun r => (RRW.run fuel cs r.1).bind fun rest => .ok (r.2 :: rest)
  | .reset :: cs, w => RRW.run fuel cs w.Reset

/-- The states the selector can be in: those obtained from the zero value by calls
of `Add`, `AddFrom`, `Next`, `Reset` and `RemoveAll`.  The state left behind by a
call of `AddFrom` counts however the call ended. -/
inductive Reachable {α : Type} (box : String → α) : RRW α → Prop where
  | zero : Reachable box (RRW.zero α)
  | add {w w1 : RRW α} (item : α) (weight : Int) :
      Reachable box w → w.Add item weight = .ok w1 → Reachable box w1
  | addFrom {w : RRW α} (source : String) :
      Reachable box w → Reachable box (w.AddFrom box source).1
  | next {w w1 : RRW α} (fuel : Nat) (r : Option α) :
      Reachable box w → w.Next fuel = .ok (w1, r) → Reachable box w1
  | reset {w : RRW α} : Reachable box w → Reachable box w.Reset
  | removeAll {w : RRW α} : Reachable box w → Reachable box w.RemoveAll

/-! ## Definitions used in the statements and proofs -/

variable {α : Type}

/-- The invariant of the selector: the counter is the length of the slice, the
aggregates `gcd` and `maxW` are the greatest common divisor and the maximum of the
positive weights, and the cursor and the current weight are in range. -/
structure Inv (w : RRW α) : Prop where
  len : w.n = w.items.length
  gcd_nonneg : 0 ≤ w.gcd
  max_zero : w.gcd = 0 → w.maxW = 0
  max_pos : 0 < w.gcd → 0 < w.maxW
  gcd_dvd : ∀ x ∈ w.items, 0 < x.Weight → w.gcd ∣ x.Weight
  gcd_greatest : ∀ d : Int, (∀ x ∈ w.items, 0 < x.Weight → d ∣ x.Weight) → d ∣ w.gcd
  max_ge : ∀ x ∈ w.items, x.Weight ≤ w.maxW
  max_mem : 0 < w.gcd → ∃ x ∈ w.items, x.Weight = w.maxW
  i_lo : -1 ≤ w.i
  i_hi : w.i < w.n ∨ w.i ≤ 0
  cw_lo : 0 ≤ w.cw
  cw_hi : w.cw ≤ w.maxW
  cw_zero : 0 < w.gcd → w.cw = 0 → w.i = -1


/-- The state a run of the loop body ends in. -/
def LoopStep.state : LoopStep α → RRW α
  | .continue w => w
  | .ret w _ => w


/-- The current weight after the cursor wraps to position `0`. -/
def RRW.nextLevel (w : RRW α) : Int :=
  if w.cw - w.gcd ≤ 0 then w.maxW else w.cw - w.gcd

/-- The cursor has reached the end of a pass: it is before the first item, or no
item after it reaches the current weight. -/
def AtEnd (w : RRW α) : Prop :=
  w.i = -1 ∨ ∃ pre x post, w.items = pre ++ x :: post ∧ w.i = (pre.length : Int) ∧
    ∀ y ∈ post, y.Weight < w.cw

/-- The state after the calls of the trace `tr` made from the state `w`. -/
def endState (w : RRW α) (tr : List (RRW α × Option α)) : RRW α :=
  match tr.getLast? with
  | some p => p.1
  | none => w

/-- The positive weights in the slice, in order. -/
def RRW.positiveWeights (w : RRW α) : List Int :=
  (w.items.map fun x => x.Weight).filter fun v => 0 < v

/-- The greatest common divisor of a list of integers, `0` for the empty list. -/
def gcdOf (l : List Int) : Int :=
  l.foldr (fun a b => (Int.gcd a b : Int)) 0

/-- The largest of a list of positive integers, `0` for the empty list. -/
def maxOf (l : List Int) : Int :=
  l.foldr max 0

/-- The positions `k`, `k + 1`, ... of the items of `l` whose weight reaches `c`, in
order; `k` is the position of the head of `l`. -/
def hitsFrom (c : Int) : Nat → List (rrWeighted α) → List Nat
  | _, [] => []
  | k, x :: xs => if c ≤ x.Weight then k :: hitsFrom c (k + 1) xs else hitsFrom c (k + 1) xs

/-- The state after, and the value returned by, a call of `Next` that ends on slot `p`
with the current weight `c`. -/
def RRW.visit (w : RRW α) (c : Int) (p : Nat) : RRW α × Option α :=
  ({ w with i := (p : Int), cw := c }, (w.items.get? p).map fun x => x.Item)

/-- One pass over the slice at level `c`: the slots whose weight reaches `c`, in
order. -/
def RRW.pass (w : RRW α) (c : Int) : List (RRW α × Option α) :=
  (hitsFrom c 0 w.items).map (w.visit c)

/-- The passes at the levels `m * gcd`, `(m - 1) * gcd`, ..., `gcd`, in this order. -/
def RRW.descend (w : RRW α) : Nat → List (RRW α × Option α)
  | 0 => []
  | m + 1 => w.pass (((m : Int) + 1) * w.gcd) ++ RRW.descend w m

/-- The slots returned by the passes at the levels `m * gcd`, `(m - 1) * gcd`, ...,
`gcd`, in the order of the calls. -/
def RRW.slots (w : RRW α) : Nat → List Nat
  | 0 => []
  | m + 1 => hitsFrom (((m : Int) + 1) * w.gcd) 0 w.items ++ RRW.slots w m

/-- The number of the levels `g`, `2 * g`, ..., `m * g` that the weight `v` reaches. -/
def below (g : Int) : Nat → Int → Nat
  | 0, _ => 0
  | m + 1, v => (if ((m : Int) + 1) * g ≤ v then 1 else 0) + below g m v

/-- The list `l` repeated `q` times. -/
def repeatList {β : Type} : Nat → List β → List β
  | 0, _ => []
  | q + 1, l => l ++ repeatList q l

/-! ## The method `All` -/

/-- The assignment `m[k] = v` on a Go map from items to `int`, the map being given by
its lookup function, for a key `k` that is hashable.  Keys are compared with `==`,
which is equality on hashable values. -/
def setKey [DecidableEq α] (m : α → Option Int) (k : α) (v : Int) : α → Option Int :=
  fun a => if a = k then some v else m a

/-- The loop of `All`: `for _, i := range w.items { m[i.Item] = i.Weight }`, for the
items still to be read and the map built so far.  The assignment panics on an item
that is not hashable; `hashable` tells which items are. -/
def allLoop [DecidableEq α] (hashable : α → Bool) :
    List (rrWeighted α) → (α → Option Int) → Exec (α → Option Int)
  | [], m => .ok m
  | x :: xs, m =>
    if hashable x.Item then allLoop hashable xs (setKey m x.Item x.Weight) else .panic

/-- The method `All()`: the state after the call, which the method does not assign
to, and the map it returns, built by `m[i.Item] = i.Weight` over the slice in order,
from the empty map. -/
def RRW.All [DecidableEq α] (hashable : α → Bool) (w : RRW α) :
    Exec (RRW α × (α → Option Int)) :=
  (allLoop hashable w.items (fun _ => none)).bind fun m => .ok (w, m)

/-! ## The registry `SchedulerRRW`

A value of type `*RRW` is `nil` or a pointer: it is an `Option P`, for `P` the type of
the pointers.  The field `lock` is left out: calls are taken one at a time, and each
method releases the lock it takes before it returns. -/

/-- The struct `SchedulerRRW`: the map `entry`, given by its lookup function (`none`
for a key that is absent). -/
structure SchedulerRRW (P : Type) where
  entry : String → Option (Option P)

/-- The function `NewScheduler()`: the registry with the empty map. -/
def NewScheduler (P : Type) : SchedulerRRW P :=
  { entry := fun _ => none }

/-- The method `Get(key)`: the registry after the call and the pair `(rrw, ok)` of
`rrw, ok := s.entry[key]`, which is `(nil, false)` for a key that is absent. -/
def SchedulerRRW.Get {P : Type} (s : SchedulerRRW P) (key : String) :
    SchedulerRRW P × (Option P × Bool) :=
  match s.entry key with
  | some rrw => (s, (rrw, true))
  | none => (s, (none, false))

/-- The method `Set(key, rrw)`: `s.entry[key] = rrw`. -/
def SchedulerRRW.Set {P : Type} (s : SchedulerRRW P) (key : String) (rrw : Option P) :
    SchedulerRRW P :=
  { entry := fun k => if k = key then some rrw else s.entry k }

/-! ## The text of a configuration -/

/-- What one run of the body of the loop of `AddFrom` reads from an entry: the key and
the weight, `none` when `strconv.Atoi` returns an error; it panics when the entry has
no `=`, on `parts[1]`. -/
def parseEntry (entry : List Char) : Exec (Option (String × Int)) :=
  let parts := split '=' entry
  match index parts 0 with
  | .ok p0 =>
    match index parts 1 with
    | .ok p1 =>
      match Atoi (TrimSpace p1) with
      | none => .ok none
      | some val => .ok (some (String.mk (TrimSpace p0), val))
    | _ => .panic
  | _ => .panic

/-- The decimal digits of `n`, most significant first; `fuel` bounds the number of
digits, and `n + 1` is enough. -/
def natDigits : Nat → Nat → List Char
  | 0, _ => []
  | fuel + 1, n =>
    if n < 10 then [Char.ofNat (48 + n)]
    else natDigits fuel (n / 10) ++ [Char.ofNat (48 + n % 10)]

/-- The decimal text of an integer, as `strconv.Itoa` writes it. -/
def decimal (v : Int) : List Char :=
  if v < 0 then '-' :: natDigits (v.natAbs + 1) v.natAbs
  else natDigits (v.natAbs + 1) v.natAbs

/-- The values of a 64-bit `int`. -/
abbrev inInt (v : Int) : Prop :=
  -(2 ^ 63 : Int) ≤ v ∧ v < 2 ^ 63

/-- The pieces of `l` joined with the separator `sep`, as `strings.Join` does. -/
def joinWith (sep : Char) : List (List Char) → List Char
  | [] => []
  | [x] => x
  | x :: y :: rest => x ++ sep :: joinWith sep (y :: rest)

/-- An entry `key=weight` of a configuration, with the white space written around the
key and around the weight. -/
structure ConfigEntry where
  key : List Char
  weight : Int
  keyLeft : List Char
  keyRight : List Char
  weightLeft : List Char
  weightRight : List Char
  deriving DecidableEq, Repr

/-- The text of an entry. -/
def ConfigEntry.text (e : ConfigEntry) : List Char :=
  e.keyLeft ++ e.key ++ e.keyRight ++ '=' :: (e.weightLeft ++ decimal e.weight ++ e.weightRight)

/-- An entry is well formed when its key has no `,`, no `=` and no white space at its
ends, its weight is an `int`, and what is written around the key and the weight is
white space. -/
abbrev ConfigEntry.wellFormed (e : ConfigEntry) : Prop :=
  ',' ∉ e.key ∧ '=' ∉ e.key ∧ e.key.head?.map isSpace ≠ some true ∧
    e.key.getLast?.map isSpace ≠ some true ∧ inInt e.weight ∧
    (∀ c ∈ e.keyLeft, isSpace c = true) ∧ (∀ c ∈ e.keyRight, isSpace c = true) ∧
    (∀ c ∈ e.weightLeft, isSpace c = true) ∧ (∀ c ∈ e.weightRight, isSpace c = true)

/-! ## The levels of a cycle -/

/-- The levels `m * g`, `(m - 1) * g`, ..., `g`, in this order. -/
def levelsDown (g : Int) : Nat → List Int
  | 0 => []
  | m + 1 => ((m : Int) + 1) * g :: levelsDown g m

/-! ## Outcomes: elementary facts -/

@[simp] theorem Exec.bind_ok {β γ : Type} (b : β) (f : β → Exec γ) :
    (Exec.ok b).bind f = f b := rfl

@[simp] theorem Exec.bind_panic {β γ : Type} (f : β → Exec γ) :
    (Exec.panic : Exec β).bind f = .panic := rfl

@[simp] theorem Exec.bind_timeout {β γ : Type} (f : β → Exec γ) :
    (Exec.timeout : Exec β).bind f = .timeout := rfl

theorem Exec.bind_eq_ok {β γ : Type} {e : Exec β} {f : β → Exec γ} {c : γ}
    (h : e.bind f = .ok c) : ∃ b, e = .ok b ∧ f b = .ok c := by
  cases e with
  | ok b => exact ⟨b, rfl, h⟩
  | panic => simp at h
  | timeout => simp at h

/-! ## The helper `gcd` -/

theorem tmod_pos_imp {x y : Int} (h : 0 < x.tmod y) : 0 < x := by
  by_contra hx
  have hx' : 0 ≤ -x := by omega
  have h1 := Int.tmod_nonneg y hx'
  rw [Int.tmod_def, Int.neg_tdiv] at h1
  rw [Int.tmod_def] at h
  have h2 : y * -(x.tdiv y) = -(y * x.tdiv y) := by ring
  omega

/-- On a positive second argument the loop of `gcd` returns, given fuel above that
argument: a positive value, the greatest common divisor when the first argument is
positive too, and the second argument itself otherwise. -/
theorem gcdLoop_of_pos (fuel : Nat) : ∀ (x y : Int), 0 < y → y.natAbs < fuel →
    ∃ g, gcdLoop fuel x y = .ok g ∧ 0 < g ∧ (0 < x → g = (Int.gcd x y : Int)) ∧
      (x ≤ 0 → g = y) := by
  induction fuel with
  | zero => intro x y _ h; omega
  | succ fuel ih =>
    intro x y hy hf
    have hy0 : y ≠ 0 := by omega
    by_cases ht : x.tmod y > 0
    · have hx : 0 < x := tmod_pos_imp ht
      have hlt : x.tmod y < y := Int.tmod_lt_of_pos x hy
      obtain ⟨g, hg, hgpos, hg1, -⟩ := ih y (x.tmod y) ht (by omega)
      refine ⟨g, ?_, hgpos, fun _ => ?_, fun h => absurd hx (by omega)⟩
      · simp only [gcdLoop, if_neg hy0, if_pos ht]
        exact hg
      · rw [hg1 hy, Int.tmod_eq_emod (le_of_lt hx) (le_of_lt hy)]
        obtain ⟨a, rfl⟩ := Int.eq_ofNat_of_zero_le (le_of_lt hx)
        obtain ⟨b, rfl⟩ := Int.eq_ofNat_of_zero_le (le_of_lt hy)
        have h3 : Int.gcd (b : Int) ((a : Int) % (b : Int)) = Int.gcd (a : Int) (b : Int) := by
          rw [← Int.natCast_mod, Int.gcd_natCast_natCast, Int.gcd_natCast_natCast,
            Nat.gcd_comm b (a % b), ← Nat.gcd_rec, Nat.gcd_comm]
        exact_mod_cast h3
    · refine ⟨y, ?_, hy, fun hx => ?_, fun _ => rfl⟩
      · simp only [gcdLoop, if_neg hy0, if_neg ht]
      · have h0 : 0 ≤ x.tmod y := Int.tmod_nonneg y (le_of_lt hx)
        have hz : x.tmod y = 0 := by omega
        have hd : y ∣ x := Int.dvd_of_tmod_eq_zero hz
        have h4 : Int.gcd x y = y.natAbs := Int.gcd_eq_right hd
        rw [h4]
        omega

/-- Called with a positive second argument, as `Add` does, `gcd` returns. -/
theorem gcd_of_pos (x y : Int) (hy : 0 < y) :
    ∃ g, Server.gcd x y = .ok g ∧ 0 < g ∧ (0 < x → g = (Int.gcd x y : Int)) ∧
      (x ≤ 0 → g = y) :=
  gcdLoop_of_pos (y.natAbs + 1) x y hy (by omega)


/-! ## `Add` -/

theorem Add_nonpos (w : RRW α) (item : α) {weight : Int} (h : weight ≤ 0) :
    w.Add item weight =
      .ok { w with items := w.items ++ [⟨item, weight⟩], n := w.n + 1 } := by
  have h1 : ¬ weight > 0 := by omega
  simp [RRW.Add, h1]

theorem Add_first (w : RRW α) (item : α) {weight : Int} (h : 0 < weight) (hg : w.gcd = 0) :
    w.Add item weight =
      .ok { w with items := w.items ++ [⟨item, weight⟩], n := w.n + 1, gcd := weight,
                   maxW := weight, i := -1, cw := 0 } := by
  simp [RRW.Add, h, hg]

theorem Add_more (w : RRW α) (item : α) {weight : Int} (h : 0 < weight) (hg : w.gcd ≠ 0) :
    ∃ g, Server.gcd w.gcd weight = .ok g ∧ 0 < g ∧
      (0 < w.gcd → g = (Int.gcd w.gcd weight : Int)) ∧
      w.Add item weight =
        .ok { w with items := w.items ++ [⟨item, weight⟩], n := w.n + 1, gcd := g,
                     maxW := max w.maxW weight } := by
  obtain ⟨g, hgcd, hpos, hval, -⟩ := gcd_of_pos w.gcd weight h
  refine ⟨g, hgcd, hpos, hval, ?_⟩
  by_cases hm : w.maxW < weight
  · simp [RRW.Add, h, hg, hgcd, hm, max_eq_right (le_of_lt hm)]
  · simp [RRW.Add, h, hg, hgcd, hm, max_eq_left (not_lt.mp hm)]

/-- `Add` never panics. -/
theorem Add_total (w : RRW α) (item : α) (weight : Int) :
    ∃ w1, w.Add item weight = .ok w1 := by
  by_cases h : 0 < weight
  · by_cases hg : w.gcd = 0
    · exact ⟨_, Add_first w item h hg⟩
    · obtain ⟨g, -, -, -, hadd⟩ := Add_more w item h hg
      exact ⟨_, hadd⟩
  · exact ⟨_, Add_nonpos w item (not_lt.mp h)⟩

theorem Inv.no_pos {w : RRW α} (h : Inv w) (hg : w.gcd = 0) :
    ∀ x ∈ w.items, x.Weight ≤ 0 := by
  intro x hx
  by_contra hc
  have h1 := h.gcd_dvd x hx (by omega)
  rw [hg] at h1
  have := zero_dvd_iff.mp h1
  omega

theorem Inv.zero : Inv (RRW.zero α) := by
  constructor <;> simp [RRW.zero]

theorem Inv.add {w w1 : RRW α} {item : α} {weight : Int} (h : Inv w)
    (hadd : w.Add item weight = .ok w1) : Inv w1 := by
  by_cases hw : 0 < weight
  · by_cases hg : w.gcd = 0
    · rw [Add_first w item hw hg] at hadd
      cases hadd
      have hnp := h.no_pos hg
      constructor
      · simp [h.len]
      · show (0 : Int) ≤ weight
        omega
      · show weight = 0 → weight = 0
        exact id
      · intro _; exact hw
      · intro x hx hpos
        simp at hx
        rcases hx with hx | rfl
        · have := hnp x hx; omega
        · simp
      · intro d hd
        exact hd ⟨item, weight⟩ (by simp) hw
      · intro x hx
        simp at hx
        rcases hx with hx | rfl
        · have := hnp x hx; simp; omega
        · simp
      · intro _; exact ⟨⟨item, weight⟩, by simp, rfl⟩
      · show (-1 : Int) ≤ -1
        omega
      · right
        show (-1 : Int) ≤ 0
        omega
      · show (0 : Int) ≤ 0
        omega
      · show (0 : Int) ≤ weight
        omega
      · intro _ _; rfl
    · obtain ⟨g, -, hgpos, hgval, hadd'⟩ := Add_more w item hw hg
      rw [hadd'] at hadd
      cases hadd
      have hgp : 0 < w.gcd := lt_of_le_of_ne h.gcd_nonneg (Ne.symm hg)
      have hgv := hgval hgp
      have hmp := h.max_pos hgp
      constructor
      · simp [h.len]
      · show (0 : Int) ≤ g
        omega
      · show g = 0 → max w.maxW weight = 0
        intro; omega
      · intro _
        show 0 < max w.maxW weight
        exact lt_of_lt_of_le hmp (le_max_left _ _)
      · intro x hx hpos
        simp at hx
        show g ∣ x.Weight
        rw [hgv]
        rcases hx with hx | rfl
        · exact dvd_trans (Int.gcd_dvd_left) (h.gcd_dvd x hx hpos)
        · exact Int.gcd_dvd_right
      · intro d hd
        show d ∣ g
        rw [hgv]
        refine Int.dvd_gcd (h.gcd_greatest d ?_) (hd ⟨item, weight⟩ (by simp) hw)
        intro x hx hpos
        exact hd x (by simp [hx]) hpos
      · intro x hx
        simp at hx
        show x.Weight ≤ max w.maxW weight
        rcases hx with hx | rfl
        · exact le_trans (h.max_ge x hx) (le_max_left _ _)
        · exact le_max_right _ _
      · intro _
        show ∃ x ∈ w.items ++ [⟨item, weight⟩], x.Weight = max w.maxW weight
        rcases le_total w.maxW weight with hle | hle
        · exact ⟨⟨item, weight⟩, by simp, by simp [max_eq_right hle]⟩
        · obtain ⟨x, hx, hxw⟩ := h.max_mem hgp
          exact ⟨x, by simp [hx], by simp [max_eq_left hle, hxw]⟩
      · exact h.i_lo
      · show w.i < w.n + 1 ∨ w.i ≤ 0
        rcases h.i_hi with h1 | h1
        · left; omega
        · right; exact h1
      · exact h.cw_lo
      · show w.cw ≤ max w.maxW weight
        exact le_trans h.cw_hi (le_max_left _ _)
      · intro _ hc
        exact h.cw_zero hgp hc
  · rw [Add_nonpos w item (not_lt.mp hw)] at hadd
    cases hadd
    constructor
    · simp [h.len]
    · exact h.gcd_nonneg
    · exact h.max_zero
    · exact h.max_pos
    · intro x hx hpos
      simp at hx
      rcases hx with hx | rfl
      · exact h.gcd_dvd x hx hpos
      · simp at hpos; omega
    · intro d hd
      exact h.gcd_greatest d (fun x hx hpos => hd x (by simp [hx]) hpos)
    · intro x hx
      simp at hx
      rcases hx with hx | rfl
      · exact h.max_ge x hx
      · show weight ≤ w.maxW
        rcases eq_or_lt_of_le h.gcd_nonneg with h0 | h0
        · rw [h.max_zero h0.symm]; omega
        · have := h.max_pos h0; omega
    · intro hg
      obtain ⟨x, hx, hxw⟩ := h.max_mem hg
      exact ⟨x, by simp [hx], hxw⟩
    · exact h.i_lo
    · show w.i < w.n + 1 ∨ w.i ≤ 0
      rcases h.i_hi with h1 | h1
      · left; omega
      · right; exact h1
    · exact h.cw_lo
    · exact h.cw_hi
    · exact h.cw_zero

theorem Inv.reset {w : RRW α} (h : Inv w) : Inv w.Reset := by
  constructor
  · exact h.len
  · exact h.gcd_nonneg
  · exact h.max_zero
  · exact h.max_pos
  · exact h.gcd_dvd
  · exact h.gcd_greatest
  · exact h.max_ge
  · exact h.max_mem
  · simp [RRW.Reset]
  · right; simp [RRW.Reset]
  · simp [RRW.Reset]
  · show (0 : Int) ≤ w.maxW
    rcases eq_or_lt_of_le h.gcd_nonneg with h0 | h0
    · rw [h.max_zero h0.symm]
    · exact le_of_lt (h.max_pos h0)
  · intro _ _; rfl

theorem Inv.removeAll (w : RRW α) : Inv w.RemoveAll := by
  constructor <;> simp [RRW.RemoveAll]

/-! ## The loop of `Next`: what it keeps -/

theorem Inv.set_cursor {w : RRW α} (h : Inv w) {i c : Int} (hi : -1 ≤ i)
    (hi2 : i < w.n ∨ i ≤ 0) (hc : 0 ≤ c) (hc2 : c ≤ w.maxW)
    (hz : 0 < w.gcd → c = 0 → i = -1) : Inv { w with i := i, cw := c } :=
  ⟨h.len, h.gcd_nonneg, h.max_zero, h.max_pos, h.gcd_dvd, h.gcd_greatest, h.max_ge,
    h.max_mem, hi, hi2, hc, hc2, hz⟩

theorem probe_state {w : RRW α} {s : LoopStep α} (h : w.probe = .ok s) : s.state = w := by
  unfold RRW.probe at h
  obtain ⟨x, -, hx⟩ := Exec.bind_eq_ok h
  by_cases hc : x.Weight ≥ w.cw
  · rw [if_pos hc] at hx; cases hx; rfl
  · rw [if_neg hc] at hx; cases hx; rfl

/-- One run of the loop body from a state that satisfies the invariant and holds at
least two items: the invariant is kept, only the cursor and the current weight
change, the cursor ends inside the slice, and the current weight ends positive when
some weight is positive. -/
theorem nextBody_inv {w : RRW α} (h : Inv w) (hn : 2 ≤ w.n) {s : LoopStep α}
    (hs : w.nextBody = .ok s) :
    Inv s.state ∧ s.state = { w with i := s.state.i, cw := s.state.cw } ∧
      0 ≤ s.state.i ∧ s.state.i < w.n ∧ (0 < w.gcd → 0 < s.state.cw) := by
  have hn0 : w.n ≠ 0 := by omega
  have hi0 : 0 ≤ (w.i + 1).tmod w.n := Int.tmod_nonneg _ (by have := h.i_lo; omega)
  have hi1 : (w.i + 1).tmod w.n < w.n := Int.tmod_lt_of_pos _ (by omega)
  have hmax : 0 ≤ w.maxW := by
    rcases eq_or_lt_of_le h.gcd_nonneg with h0 | h0
    · rw [h.max_zero h0.symm]
    · exact le_of_lt (h.max_pos h0)
  have key : ∀ (i c : Int) (s : LoopStep α), 0 ≤ i → i < w.n → 0 ≤ c → c ≤ w.maxW →
      (0 < w.gcd → 0 < c) → s.state = { w with i := i, cw := c } →
      Inv s.state ∧ s.state = { w with i := s.state.i, cw := s.state.cw } ∧
        0 ≤ s.state.i ∧ s.state.i < w.n ∧ (0 < w.gcd → 0 < s.state.cw) := by
    intro i c s h1 h2 h3 h4 h5 h6
    rw [h6]
    exact ⟨h.set_cursor (by omega) (Or.inl h2) h3 h4 (fun hg hc => by have := h5 hg; omega),
      rfl, h1, h2, h5⟩
  unfold RRW.nextBody at hs
  rw [if_neg hn0] at hs
  by_cases hw : (w.i + 1).tmod w.n = 0
  · simp only [hw, if_true] at hs
    by_cases hc : w.cw - w.gcd ≤ 0
    · simp only [hc, if_true] at hs
      by_cases hm : w.maxW = 0
      · simp only [hm, if_true] at hs
        cases hs
        refine key 0 0 _ (le_refl _) (by omega) (le_refl _) (by omega) ?_ (by simp [LoopStep.state, hm])
        intro hg
        have := h.max_pos hg
        omega
      · simp only [hm, if_false] at hs
        have := probe_state hs
        exact key 0 w.maxW _ (le_refl _) (by omega) hmax (le_refl _) (fun _ => by omega) this
    · simp only [hc, if_false] at hs
      have := probe_state hs
      refine key 0 (w.cw - w.gcd) _ (le_refl _) (by omega) (by omega) ?_ (fun _ => by omega) this
      have := h.gcd_nonneg
      have := h.cw_hi
      omega
  · simp only [hw, if_false] at hs
    have := probe_state hs
    refine key _ w.cw _ hi0 hi1 h.cw_lo h.cw_hi ?_ this
    intro hg
    rcases eq_or_lt_of_le h.cw_lo with h0 | h0
    · exfalso
      have hi := h.cw_zero hg h0.symm
      apply hw
      rw [hi]
      simp
    · exact h0

/-- The loop of `Next` from a state that satisfies the invariant and holds at least two
items: when it returns, the invariant holds again and only the cursor and the
current weight have changed. -/
theorem nextLoop_inv (fuel : Nat) : ∀ {w w1 : RRW α} {r : Option α}, Inv w → 2 ≤ w.n →
    w.nextLoop fuel = .ok (w1, r) →
    Inv w1 ∧ w1 = { w with i := w1.i, cw := w1.cw } := by
  induction fuel with
  | zero => intro w w1 r _ _ h; simp [RRW.nextLoop] at h
  | succ fuel ih =>
    intro w w1 r h hn hl
    unfold RRW.nextLoop at hl
    cases hb : w.nextBody with
    | ok s =>
      obtain ⟨h1, h2, -, -, -⟩ := nextBody_inv h hn hb
      rw [hb] at hl
      cases s with
      | «continue» w2 =>
        simp only at hl
        simp only [LoopStep.state] at h1 h2
        have hn2 : 2 ≤ w2.n := by rw [h2]; exact hn
        obtain ⟨h3, h4⟩ := ih h1 hn2 hl
        refine ⟨h3, ?_⟩
        rw [h4, h2]
      | ret w2 r2 =>
        simp only at hl
        simp only [LoopStep.state] at h1 h2
        cases hl
        exact ⟨h1, h2⟩
    | panic => rw [hb] at hl; simp at hl
    | timeout => rw [hb] at hl; simp at hl

/-- A call of `Next` changes only the cursor and the current weight. -/
theorem Next_frame_inv {fuel : Nat} {w w1 : RRW α} {r : Option α} (h : Inv w)
    (hnext : w.Next fuel = .ok (w1, r)) :
    Inv w1 ∧ w1 = { w with i := w1.i, cw := w1.cw } := by
  unfold RRW.Next at hnext
  by_cases h0 : w.n = 0
  · rw [if_pos h0] at hnext; cases hnext; exact ⟨h, rfl⟩
  · rw [if_neg h0] at hnext
    by_cases h1 : w.n = 1
    · rw [if_pos h1] at hnext
      obtain ⟨x, -, hx⟩ := Exec.bind_eq_ok hnext
      cases hx
      exact ⟨h, rfl⟩
    · rw [if_neg h1] at hnext
      have hn : 2 ≤ w.n := by
        have := h.len
        omega
      exact nextLoop_inv fuel h hn hnext

theorem addEntries_inv (box : String → α) (entries : List (List Char)) :
    ∀ {w : RRW α}, Inv w → Inv (w.addEntries box entries).1 := by
  induction entries with
  | nil => intro w h; exact h
  | cons entry rest ih =>
    intro w h
    simp only [RRW.addEntries]
    split
    · split
      · split
        · exact h
        · split
          · next w1 hadd => exact ih (h.add hadd)
          · exact h
      · exact h
    · exact h

theorem Inv.set_data {w : RRW α} (h : Inv w) (d : String) : Inv { w with data := d } :=
  ⟨h.len, h.gcd_nonneg, h.max_zero, h.max_pos, h.gcd_dvd, h.gcd_greatest, h.max_ge,
    h.max_mem, h.i_lo, h.i_hi, h.cw_lo, h.cw_hi, h.cw_zero⟩

theorem AddFrom_inv (box : String → α) {w : RRW α} (h : Inv w) (source : String) :
    Inv (w.AddFrom box source).1 := by
  have h1 := addEntries_inv box (split ',' source.toList) h
  unfold RRW.AddFrom
  generalize w.addEntries box (split ',' source.toList) = res at h1
  obtain ⟨w1, st⟩ := res
  cases st with
  | nil => exact h1.set_data source
  | parseError => exact h1
  | panic => exact h1

/-- Every state the selector can reach satisfies the invariant. -/
theorem Reachable.inv {box : String → α} {w : RRW α} (h : Reachable box w) : Inv w := by
  induction h with
  | zero => exact Inv.zero
  | add item weight _ hadd ih => exact ih.add hadd
  | addFrom source _ ih => exact AddFrom_inv box ih source
  | next fuel r _ hnext ih => exact (Next_frame_inv ih hnext).1
  | reset _ ih => exact ih.reset
  | removeAll _ ih => exact Inv.removeAll _

/-! ## The loop of `Next`: scanning the slice -/

theorem index_append {β : Type} (pre : List β) (x : β) (post : List β) :
    index (pre ++ x :: post) (pre.length : Int) = .ok x := by
  unfold index
  rw [if_neg (by omega)]
  have h : (pre ++ x :: post).get? (pre.length : Int).toNat = some x := by
    rw [Int.toNat_natCast, List.get?_eq_getElem?, List.getElem?_append_right (le_refl _)]
    simp
  rw [h]

theorem probe_at (w : RRW α) (pre : List (rrWeighted α)) (x : rrWeighted α)
    (post : List (rrWeighted α)) (hit : w.items = pre ++ x :: post) (hi : w.i = pre.length) :
    w.probe = if x.Weight ≥ w.cw then .ok (.ret w (some x.Item)) else .ok (.continue w) := by
  unfold RRW.probe
  rw [hit, hi, index_append]
  rfl

theorem nextBody_step {w : RRW α} (h0 : 0 ≤ w.i) (h1 : w.i + 1 < w.n) :
    w.nextBody = ({ w with i := w.i + 1 } : RRW α).probe := by
  have hn0 : w.n ≠ 0 := by omega
  have ht : (w.i + 1).tmod w.n = w.i + 1 := Int.tmod_eq_of_lt (by omega) h1
  have hne : w.i + 1 ≠ 0 := by omega
  simp [RRW.nextBody, hn0, ht, hne]

theorem nextBody_wrap {w : RRW α} (hn0 : w.n ≠ 0) (ht : (w.i + 1).tmod w.n = 0) :
    w.nextBody =
      if w.nextLevel = 0 then .ok (.ret { w with i := 0, cw := w.nextLevel } none)
      else ({ w with i := 0, cw := w.nextLevel } : RRW α).probe := by
  unfold RRW.nextLevel
  by_cases hc : w.cw - w.gcd ≤ 0
  · by_cases hm : w.maxW = 0
    · simp [RRW.nextBody, hn0, ht, hc, hm]
    · simp [RRW.nextBody, hn0, ht, hc, hm]
  · have hne : w.cw - w.gcd ≠ 0 := by omega
    simp [RRW.nextBody, hn0, ht, hc, hne]

/-- The cursor is on `x` and no item after `x` reaches the current weight: the loop
runs to the end of the slice without returning. -/
theorem nextLoop_miss (post : List (rrWeighted α)) :
    ∀ (pre : List (rrWeighted α)) (x : rrWeighted α) (w : RRW α) (fuel : Nat),
      w.items = pre ++ x :: post → w.i = pre.length → w.n = w.items.length →
      (∀ y ∈ post, y.Weight < w.cw) → post.length ≤ fuel →
      w.nextLoop fuel = ({ w with i := w.n - 1 } : RRW α).nextLoop (fuel - post.length) := by
  induction post with
  | nil =>
    intro pre x w fuel hit hi hn _ _
    have : w.i = w.n - 1 := by rw [hi, hn, hit]; simp
    rw [← this]
    rfl
  | cons y post ih =>
    intro pre x w fuel hit hi hn hmiss hf
    obtain ⟨f, rfl⟩ : ∃ f, fuel = f + 1 := ⟨fuel - 1, by simp at hf; omega⟩
    have hlen : w.n = (pre.length : Int) + 1 + 1 + post.length := by
      rw [hn, hit]; simp; ring
    have hy : ¬ y.Weight ≥ w.cw := by
      have := hmiss y (by simp); omega
    have hb : w.nextBody = .ok (.continue { w with i := w.i + 1 }) := by
      rw [nextBody_step (by omega) (by omega),
        probe_at _ (pre ++ [x]) y post (by simp [hit]) (by simp [hi])]
      simp only [hy, if_false]
    have h2 := ih (pre ++ [x]) y { w with i := w.i + 1 } f (by simp [hit]) (by simp [hi])
      hn (fun z hz => hmiss z (by simp [hz])) (by simp at hf; omega)
    simp only [RRW.nextLoop, hb]
    rw [h2]
    simp

/-- The cursor is on `x`, the items of `mid` after it do not reach the current weight
and the next item `y` does: the loop returns `y`, with the cursor on it. -/
theorem nextLoop_hit (mid : List (rrWeighted α)) :
    ∀ (pre : List (rrWeighted α)) (x y : rrWeighted α) (post : List (rrWeighted α))
      (w : RRW α) (fuel : Nat),
      w.items = pre ++ x :: (mid ++ y :: post) → w.i = pre.length →
      w.n = w.items.length → (∀ z ∈ mid, z.Weight < w.cw) → w.cw ≤ y.Weight →
      mid.length + 1 ≤ fuel →
      w.nextLoop fuel =
        .ok ({ w with i := ((pre.length + 1 + mid.length : Nat) : Int) }, some y.Item) := by
  induction mid with
  | nil =>
    intro pre x y post w fuel hit hi hn _ hy hf
    obtain ⟨f, rfl⟩ : ∃ f, fuel = f + 1 := ⟨fuel - 1, by omega⟩
    have hlen : w.n = (pre.length : Int) + 1 + 1 + post.length := by
      rw [hn, hit]; simp; ring
    have hb : w.nextBody = .ok (.ret { w with i := w.i + 1 } (some y.Item)) := by
      rw [nextBody_step (by omega) (by omega),
        probe_at _ (pre ++ [x]) y post (by simp [hit]) (by simp [hi])]
      simp only [ge_iff_le, hy, if_true]
    simp only [RRW.nextLoop, hb, hi]
    simp
  | cons m mid ih =>
    intro pre x y post w fuel hit hi hn hmiss hy hf
    obtain ⟨f, rfl⟩ : ∃ f, fuel = f + 1 := ⟨fuel - 1, by omega⟩
    have hlen : w.n = (pre.length : Int) + 1 + 1 + (mid.length + 1 + post.length) := by
      rw [hn, hit]; simp; ring
    have hm : ¬ m.Weight ≥ w.cw := by
      have := hmiss m (by simp); omega
    have hb : w.nextBody = .ok (.continue { w with i := w.i + 1 }) := by
      rw [nextBody_step (by omega) (by omega),
        probe_at _ (pre ++ [x]) m (mid ++ y :: post) (by simp [hit])
          (by simp [hi])]
      simp only [hm, if_false]
    have h2 := ih (pre ++ [x]) m y post { w with i := w.i + 1 } f (by simp [hit])
      (by simp [hi]) hn (fun z hz => hmiss z (by simp [hz])) hy (by simp at hf; omega)
    simp only [RRW.nextLoop, hb]
    rw [h2]
    simp
    omega

/-- The cursor is about to wrap, the level after the wrap is not `0`, the items of
`mid` at the head of the slice do not reach it and the next item `y` does: the loop
returns `y`, with the cursor on it and the current weight at the new level. -/
theorem nextLoop_wrap (mid : List (rrWeighted α)) (y : rrWeighted α)
    (post : List (rrWeighted α)) (w : RRW α) (fuel : Nat)
    (hit : w.items = mid ++ y :: post) (hn : w.n = w.items.length)
    (ht : (w.i + 1).tmod w.n = 0) (hl : w.nextLevel ≠ 0)
    (hmiss : ∀ z ∈ mid, z.Weight < w.nextLevel) (hy : w.nextLevel ≤ y.Weight)
    (hf : mid.length + 1 ≤ fuel) :
    w.nextLoop fuel =
      .ok ({ w with i := (mid.length : Int), cw := w.nextLevel }, some y.Item) := by
  obtain ⟨f, rfl⟩ : ∃ f, fuel = f + 1 := ⟨fuel - 1, by omega⟩
  have hn0 : w.n ≠ 0 := by rw [hn, hit]; simp; omega
  cases mid with
  | nil =>
    have hb : w.nextBody = .ok (.ret { w with i := 0, cw := w.nextLevel } (some y.Item)) := by
      rw [nextBody_wrap hn0 ht, if_neg hl,
        probe_at _ [] y post (by simpa using hit) (by simp)]
      simp only [ge_iff_le, hy, if_true]
    simp only [RRW.nextLoop, hb]
    simp
  | cons m mid =>
    have hm : ¬ m.Weight ≥ w.nextLevel := by
      have := hmiss m (by simp); omega
    have hb : w.nextBody = .ok (.continue { w with i := 0, cw := w.nextLevel }) := by
      rw [nextBody_wrap hn0 ht, if_neg hl,
        probe_at _ [] m (mid ++ y :: post) (by simpa using hit)
          (by simp)]
      simp only [hm, if_false]
    have h2 := nextLoop_hit mid [] m y post { w with i := 0, cw := w.nextLevel } f
      (by simpa using hit) (by simp) hn (fun z hz => hmiss z (by simp [hz])) hy
      (by simp at hf; omega)
    simp only [RRW.nextLoop, hb]
    rw [h2]
    simp
    omega

/-! ## One call of `Next` on at least two items -/

theorem first_hit (c : Int) (l : List (rrWeighted α)) :
    (∀ y ∈ l, y.Weight < c) ∨
      ∃ mid y post, l = mid ++ y :: post ∧ (∀ z ∈ mid, z.Weight < c) ∧ c ≤ y.Weight := by
  induction l with
  | nil => left; simp
  | cons x l ih =>
    by_cases hx : c ≤ x.Weight
    · right; exact ⟨[], x, l, rfl, by simp, hx⟩
    · rcases ih with h | ⟨mid, y, post, rfl, hmid, hy⟩
      · left
        intro y hy
        simp at hy
        rcases hy with rfl | hy
        · omega
        · exact h y hy
      · right
        refine ⟨x :: mid, y, post, rfl, ?_, hy⟩
        intro z hz
        simp at hz
        rcases hz with rfl | hz
        · omega
        · exact hmid z hz

theorem split_at {β : Type} (l : List β) (k : Nat) (hk : k < l.length) :
    ∃ pre x post, l = pre ++ x :: post ∧ pre.length = k := by
  refine ⟨l.take k, l.get ⟨k, hk⟩, l.drop (k + 1), ?_, ?_⟩
  · rw [List.get_eq_getElem, ← List.drop_eq_getElem_cons hk, List.take_append_drop]
  · simp; omega

/-- A call of `Next` that finds an item reaching the current weight after the cursor. -/
theorem Next_hit {w : RRW α} {pre mid post : List (rrWeighted α)} {x y : rrWeighted α}
    {fuel : Nat} (hit : w.items = pre ++ x :: (mid ++ y :: post)) (hi : w.i = pre.length)
    (hn : w.n = w.items.length) (hmiss : ∀ z ∈ mid, z.Weight < w.cw) (hy : w.cw ≤ y.Weight)
    (hf : 2 * w.items.length ≤ fuel) :
    w.Next fuel =
      .ok ({ w with i := ((pre.length + 1 + mid.length : Nat) : Int) }, some y.Item) := by
  have hlen : w.items.length = pre.length + 1 + (mid.length + 1 + post.length) := by
    rw [hit]; simp; omega
  have h0 : w.n ≠ 0 := by omega
  have h1 : w.n ≠ 1 := by omega
  unfold RRW.Next
  rw [if_neg h0, if_neg h1]
  exact nextLoop_hit mid pre x y post w fuel hit hi hn hmiss hy (by omega)

theorem tmod_wrap {w : RRW α} (h : w.i = -1 ∨ w.i = w.n - 1) :
    (w.i + 1).tmod w.n = 0 := by
  rcases h with h | h
  · rw [h]; simp
  · rw [h]; simp

/-- A call of `Next` from the end of a pass, when the level after the wrap is `0`:
the call returns `nil`. -/
theorem Next_wrap_nil {w : RRW α} {fuel : Nat} (hn : w.n = w.items.length)
    (h2 : 2 ≤ w.n) (hend : AtEnd w) (hl : w.nextLevel = 0)
    (hf : 2 * w.items.length ≤ fuel) :
    w.Next fuel = .ok ({ w with i := 0, cw := 0 }, none) := by
  have h0 : w.n ≠ 0 := by omega
  have h1 : w.n ≠ 1 := by omega
  unfold RRW.Next
  rw [if_neg h0, if_neg h1]
  have fin : ∀ (v : RRW α) (f : Nat), v.n = w.n → v.nextLevel = 0 → (v.i = -1 ∨ v.i = v.n - 1) →
      1 ≤ f → v.nextLoop f = .ok ({ v with i := 0, cw := 0 }, none) := by
    intro v f hvn hvl hvi hf1
    obtain ⟨f, rfl⟩ : ∃ g, f = g + 1 := ⟨f - 1, by omega⟩
    have hb := nextBody_wrap (w := v) (by omega) (tmod_wrap hvi)
    rw [if_pos hvl, hvl] at hb
    simp only [RRW.nextLoop, hb]
  rcases hend with hi | ⟨pre, x, post, hit, hi, hmiss⟩
  · exact fin w fuel rfl hl (Or.inl hi) (by omega)
  · have hlen : w.items.length = pre.length + 1 + post.length := by rw [hit]; simp; omega
    rw [nextLoop_miss post pre x w fuel hit hi hn hmiss (by omega)]
    rw [fin { w with i := w.n - 1 } (fuel - post.length) rfl hl (Or.inr rfl) (by omega)]

/-- A call of `Next` from the end of a pass, when the level after the wrap is not
`0`: the call returns the first item of the slice that reaches the new level. -/
theorem Next_wrap {w : RRW α} {mid post : List (rrWeighted α)} {y : rrWeighted α}
    {fuel : Nat} (hn : w.n = w.items.length) (h2 : 2 ≤ w.n) (hend : AtEnd w)
    (hl : w.nextLevel ≠ 0) (hit : w.items = mid ++ y :: post)
    (hmiss : ∀ z ∈ mid, z.Weight < w.nextLevel) (hy : w.nextLevel ≤ y.Weight)
    (hf : 2 * w.items.length ≤ fuel) :
    w.Next fuel = .ok ({ w with i := (mid.length : Int), cw := w.nextLevel }, some y.Item) := by
  have h0 : w.n ≠ 0 := by omega
  have h1 : w.n ≠ 1 := by omega
  have hlen2 : w.items.length = mid.length + 1 + post.length := by rw [hit]; simp; omega
  unfold RRW.Next
  rw [if_neg h0, if_neg h1]
  rcases hend with hi | ⟨pre, x, post1, hit1, hi, hmiss1⟩
  · exact nextLoop_wrap mid y post w fuel hit hn (tmod_wrap (Or.inl hi)) hl hmiss hy
      (by omega)
  · have hlen : w.items.length = pre.length + 1 + post1.length := by rw [hit1]; simp; omega
    rw [nextLoop_miss post1 pre x w fuel hit1 hi hn hmiss1 (by omega)]
    rw [nextLoop_wrap mid y post { w with i := w.n - 1 } (fuel - post1.length) hit hn
      (tmod_wrap (w := { w with i := w.n - 1 }) (Or.inr rfl)) hl hmiss hy (by omega)]
    rfl

theorem Inv.max_nonneg {w : RRW α} (h : Inv w) : 0 ≤ w.maxW := by
  rcases eq_or_lt_of_le h.gcd_nonneg with h0 | h0
  · rw [h.max_zero h0.symm]
  · exact le_of_lt (h.max_pos h0)

theorem Inv.nextLevel_le {w : RRW α} (h : Inv w) : w.nextLevel ≤ w.maxW := by
  unfold RRW.nextLevel
  split
  · exact le_refl _
  · have := h.cw_hi
    have := h.gcd_nonneg
    omega

theorem Inv.nextLevel_pos {w : RRW α} (h : Inv w) (hg : 0 < w.gcd) : 0 < w.nextLevel := by
  unfold RRW.nextLevel
  split
  · exact h.max_pos hg
  · omega

theorem Inv.nextLevel_zero {w : RRW α} (h : Inv w) (hg : w.gcd = 0) : w.nextLevel = 0 := by
  have h1 := h.max_zero hg
  have h2 := h.cw_hi
  have h3 := h.cw_lo
  unfold RRW.nextLevel
  rw [hg, h1]
  split
  · rfl
  · omega

/-- In a state that satisfies the invariant and holds at least two items the cursor is
either on an item that is followed by one reaching the current weight, or at the end
of a pass. -/
theorem Inv.cursor_cases {w : RRW α} (h : Inv w) (h2 : 2 ≤ w.n) :
    (∃ pre x mid y post, w.items = pre ++ x :: (mid ++ y :: post) ∧
        w.i = (pre.length : Int) ∧ (∀ z ∈ mid, z.Weight < w.cw) ∧ w.cw ≤ y.Weight) ∨
      AtEnd w := by
  by_cases hi : w.i = -1
  · right; left; exact hi
  · have hlo := h.i_lo
    have hhi : w.i < w.n := by
      rcases h.i_hi with h1 | h1
      · exact h1
      · omega
    have hk : w.i.toNat < w.items.length := by
      have := h.len
      omega
    obtain ⟨pre, x, post, hit, hpre⟩ := split_at w.items w.i.toNat hk
    have hi2 : w.i = (pre.length : Int) := by omega
    rcases first_hit w.cw post with hmiss | ⟨mid, y, post1, rfl, hmid, hy⟩
    · right; right; exact ⟨pre, x, post, hit, hi2, hmiss⟩
    · left; exact ⟨pre, x, mid, y, post1, hit, hi2, hmid, hy⟩

/-- The three ways a call of `Next` on at least two items goes, from a state that
satisfies the invariant: an item after the cursor reaches the current weight and is
returned; the cursor wraps and the first item reaching the new level is returned;
the cursor wraps, no weight is positive and `nil` is returned. -/
theorem Next_cases {w : RRW α} (h : Inv w) (h2 : 2 ≤ w.n) {fuel : Nat}
    (hf : 2 * w.items.length ≤ fuel) :
    (∃ pre x mid y post, w.items = pre ++ x :: (mid ++ y :: post) ∧
        w.i = (pre.length : Int) ∧ (∀ z ∈ mid, z.Weight < w.cw) ∧ w.cw ≤ y.Weight ∧
        w.Next fuel =
          .ok ({ w with i := ((pre.length + 1 + mid.length : Nat) : Int) }, some y.Item)) ∨
      (AtEnd w ∧ 0 < w.gcd ∧ ∃ mid y post, w.items = mid ++ y :: post ∧
        (∀ z ∈ mid, z.Weight < w.nextLevel) ∧ w.nextLevel ≤ y.Weight ∧
        w.Next fuel =
          .ok ({ w with i := (mid.length : Int), cw := w.nextLevel }, some y.Item)) ∨
      (AtEnd w ∧ w.gcd = 0 ∧ w.Next fuel = .ok ({ w with i := 0, cw := 0 }, none)) := by
  rcases h.cursor_cases h2 with ⟨pre, x, mid, y, post, hit, hi, hmid, hy⟩ | hend
  · left
    exact ⟨pre, x, mid, y, post, hit, hi, hmid, hy, Next_hit hit hi h.len hmid hy hf⟩
  · right
    rcases eq_or_lt_of_le h.gcd_nonneg with hg | hg
    · right
      exact ⟨hend, hg.symm, Next_wrap_nil h.len h2 hend (h.nextLevel_zero hg.symm) hf⟩
    · left
      refine ⟨hend, hg, ?_⟩
      have hpos := h.nextLevel_pos hg
      rcases first_hit w.nextLevel w.items with hmiss | ⟨mid, y, post, hit, hmid, hy⟩
      · exfalso
        obtain ⟨x, hx, hxw⟩ := h.max_mem hg
        have := hmiss x hx
        have := h.nextLevel_le
        omega
      · exact ⟨mid, y, post, hit, hmid, hy,
          Next_wrap h.len h2 hend (by omega) hit hmid hy hf⟩

/-- From a state that satisfies the invariant every call of `Next` returns, within
`2 * n` iterations of its loop. -/
theorem Next_total {w : RRW α} (h : Inv w) {fuel : Nat} (hf : 2 * w.items.length ≤ fuel) :
    ∃ w1 r, w.Next fuel = .ok (w1, r) := by
  by_cases h0 : w.n = 0
  · exact ⟨w, none, by simp [RRW.Next, h0]⟩
  · by_cases h1 : w.n = 1
    · have hlen : w.items.length = 1 := by have := h.len; omega
      obtain ⟨x, hx⟩ : ∃ x, w.items = [x] := List.length_eq_one.mp hlen
      refine ⟨w, some x.Item, ?_⟩
      have hidx : index w.items 0 = .ok x := by rw [hx]; rfl
      simp [RRW.Next, h1, hidx]
    · have h2 : 2 ≤ w.n := by have := h.len; omega
      rcases Next_cases h h2 hf with ⟨_, _, _, _, _, _, _, _, _, hn⟩ | ⟨_, _, _, _, _, _, _, _, hn⟩ |
        ⟨_, _, hn⟩
      · exact ⟨_, _, hn⟩
      · exact ⟨_, _, hn⟩
      · exact ⟨_, _, hn⟩

/-! ## What `Next` leaves unchanged, in any state -/

theorem nextBody_frame {w : RRW α} {s : LoopStep α} (hs : w.nextBody = .ok s) :
    s.state = { w with i := s.state.i, cw := s.state.cw } := by
  simp only [RRW.nextBody] at hs
  split at hs
  · simp at hs
  · split at hs
    · split at hs
      · split at hs
        · cases hs; rfl
        · rw [probe_state hs]
      · rw [probe_state hs]
    · rw [probe_state hs]

theorem nextLoop_frame (fuel : Nat) : ∀ {w w1 : RRW α} {r : Option α},
    w.nextLoop fuel = .ok (w1, r) → w1 = { w with i := w1.i, cw := w1.cw } := by
  induction fuel with
  | zero => intro w w1 r h; simp [RRW.nextLoop] at h
  | succ fuel ih =>
    intro w w1 r hl
    unfold RRW.nextLoop at hl
    cases hb : w.nextBody with
    | ok s =>
      have h2 := nextBody_frame hb
      rw [hb] at hl
      cases s with
      | «continue» w2 =>
        simp only at hl
        simp only [LoopStep.state] at h2
        have h4 := ih hl
        rw [h4, h2]
      | ret w2 r2 =>
        simp only at hl
        simp only [LoopStep.state] at h2
        cases hl
        exact h2
    | panic => rw [hb] at hl; simp at hl
    | timeout => rw [hb] at hl; simp at hl

/-- In any state, a call of `Next` that returns has changed nothing but the cursor and
the current weight. -/
theorem Next_frame {fuel : Nat} {w w1 : RRW α} {r : Option α}
    (hnext : w.Next fuel = .ok (w1, r)) : w1 = { w with i := w1.i, cw := w1.cw } := by
  unfold RRW.Next at hnext
  split at hnext
  · cases hnext; rfl
  · split at hnext
    · obtain ⟨x, -, hx⟩ := Exec.bind_eq_ok hnext
      cases hx
      rfl
    · exact nextLoop_frame fuel hnext

theorem Next_reset {fuel : Nat} {w w1 : RRW α} {r : Option α}
    (hnext : w.Next fuel = .ok (w1, r)) : w1.Reset = w.Reset := by
  rw [Next_frame hnext]
  rfl

/-! ## Sequences of calls of `Next` -/

@[simp] theorem endState_nil (w : RRW α) : endState w [] = w := rfl

theorem endState_cons (w : RRW α) (p : RRW α × Option α) (tr : List (RRW α × Option α)) :
    endState w (p :: tr) = endState p.1 tr := by
  cases tr with
  | nil => rfl
  | cons q tr =>
    simp only [endState, List.getLast?_cons_cons]
    cases h : (q :: tr).getLast? with
    | none => simp at h
    | some v => rfl

theorem endState_append (w : RRW α) (tr1 tr2 : List (RRW α × Option α)) :
    endState w (tr1 ++ tr2) = endState (endState w tr1) tr2 := by
  induction tr1 generalizing w with
  | nil => rfl
  | cons p tr1 ih => rw [List.cons_append, endState_cons, endState_cons, ih]

theorem calls_succ_eq {fuel k : Nat} {w : RRW α} {p : RRW α × Option α}
    {tr : List (RRW α × Option α)} (h1 : w.Next fuel = .ok p)
    (h2 : p.1.calls fuel k = .ok tr) : w.calls fuel (k + 1) = .ok (p :: tr) := by
  simp [RRW.calls, h1, h2]

theorem calls_succ_inv {fuel k : Nat} {w : RRW α} {l : List (RRW α × Option α)}
    (h : w.calls fuel (k + 1) = .ok l) :
    ∃ p tr, w.Next fuel = .ok p ∧ p.1.calls fuel k = .ok tr ∧ l = p :: tr := by
  unfold RRW.calls at h
  obtain ⟨p, hp, h1⟩ := Exec.bind_eq_ok h
  obtain ⟨tr, htr, h2⟩ := Exec.bind_eq_ok h1
  cases h2
  exact ⟨p, tr, hp, htr, rfl⟩

theorem calls_length {fuel : Nat} (k : Nat) : ∀ {w : RRW α} {l : List (RRW α × Option α)},
    w.calls fuel k = .ok l → l.length = k := by
  induction k with
  | zero => intro w l h; cases h; rfl
  | succ k ih =>
    intro w l h
    obtain ⟨p, tr, -, htr, rfl⟩ := calls_succ_inv h
    simp [ih htr]

/-- Calls made one after the other: `a + b` calls are `a` calls followed by `b` calls
from the state reached. -/
theorem calls_append {fuel : Nat} (a : Nat) : ∀ {b : Nat} {w : RRW α}
    {l1 l2 : List (RRW α × Option α)}, w.calls fuel a = .ok l1 →
    (endState w l1).calls fuel b = .ok l2 → w.calls fuel (a + b) = .ok (l1 ++ l2) := by
  induction a with
  | zero =>
    intro b w l1 l2 h1 h2
    cases h1
    simpa using h2
  | succ a ih =>
    intro b w l1 l2 h1 h2
    obtain ⟨p, tr, hp, htr, rfl⟩ := calls_succ_inv h1
    rw [endState_cons] at h2
    have h3 := ih htr h2
    have : a + 1 + b = (a + b) + 1 := by omega
    rw [this]
    exact calls_succ_eq hp h3

/-- The first `a` of `a + b` calls. -/
theorem calls_take {fuel : Nat} (a : Nat) : ∀ {b : Nat} {w : RRW α}
    {l : List (RRW α × Option α)}, w.calls fuel (a + b) = .ok l →
    w.calls fuel a = .ok (l.take a) := by
  induction a with
  | zero => intro b w l _; rfl
  | succ a ih =>
    intro b w l h
    have : a + 1 + b = (a + b) + 1 := by omega
    rw [this] at h
    obtain ⟨p, tr, hp, htr, rfl⟩ := calls_succ_inv h
    exact calls_succ_eq hp (ih htr)

theorem calls_reset {fuel : Nat} (j : Nat) : ∀ {w : RRW α} {tr : List (RRW α × Option α)},
    w.calls fuel j = .ok tr → (endState w tr).Reset = w.Reset := by
  induction j with
  | zero => intro w tr h; cases h; rfl
  | succ j ih =>
    intro w tr h
    obtain ⟨p, tr1, hp, htr, rfl⟩ := calls_succ_inv h
    rw [endState_cons, ih htr]
    exact Next_reset (r := p.2) hp

theorem calls_inv {fuel : Nat} (j : Nat) : ∀ {w : RRW α} {tr : List (RRW α × Option α)},
    Inv w → w.calls fuel j = .ok tr → Inv (endState w tr) := by
  induction j with
  | zero => intro w tr hw h; cases h; exact hw
  | succ j ih =>
    intro w tr hw h
    obtain ⟨p, tr1, hp, htr, rfl⟩ := calls_succ_inv h
    rw [endState_cons]
    exact ih (Next_frame_inv (r := p.2) hw hp).1 htr

/-- From a state that satisfies the invariant any number of calls of `Next` return. -/
theorem calls_total {fuel : Nat} (j : Nat) : ∀ {w : RRW α}, Inv w →
    2 * w.items.length ≤ fuel → ∃ tr, w.calls fuel j = .ok tr := by
  induction j with
  | zero => intro w _ _; exact ⟨[], rfl⟩
  | succ j ih =>
    intro w hw hf
    obtain ⟨w1, r, hn⟩ := Next_total hw hf
    obtain ⟨hw1, hfr⟩ := Next_frame_inv hw hn
    have hf1 : 2 * w1.items.length ≤ fuel := by rw [hfr]; exact hf
    obtain ⟨tr, htr⟩ := ih hw1 hf1
    exact ⟨(w1, r) :: tr, calls_succ_eq hn htr⟩

/-! ## The aggregates -/

theorem gcdOf_nonneg (l : List Int) : 0 ≤ gcdOf l := by
  cases l with
  | nil => exact le_refl _
  | cons a l => exact Int.ofNat_nonneg _

theorem gcdOf_dvd (l : List Int) : ∀ x ∈ l, gcdOf l ∣ x := by
  induction l with
  | nil => intro x hx; simp at hx
  | cons a l ih =>
    intro x hx
    simp at hx
    rcases hx with rfl | hx
    · exact Int.gcd_dvd_left
    · exact dvd_trans Int.gcd_dvd_right (ih x hx)

theorem dvd_gcdOf (l : List Int) (d : Int) (h : ∀ x ∈ l, d ∣ x) : d ∣ gcdOf l := by
  induction l with
  | nil => exact dvd_zero d
  | cons a l ih =>
    exact Int.dvd_gcd (h a (by simp)) (ih fun x hx => h x (by simp [hx]))

theorem maxOf_ge (l : List Int) : ∀ x ∈ l, x ≤ maxOf l := by
  induction l with
  | nil => intro x hx; simp at hx
  | cons a l ih =>
    intro x hx
    simp at hx
    rcases hx with rfl | hx
    · exact le_max_left _ _
    · exact le_trans (ih x hx) (le_max_right _ _)

theorem maxOf_mem (l : List Int) : maxOf l = 0 ∨ maxOf l ∈ l := by
  induction l with
  | nil => left; rfl
  | cons a l ih =>
    show max a (maxOf l) = 0 ∨ max a (maxOf l) ∈ a :: l
    rcases le_total a (maxOf l) with h | h
    · rw [max_eq_right h]
      rcases ih with h1 | h1
      · left; exact h1
      · right; simp [h1]
    · rw [max_eq_left h]
      right; simp

theorem mem_positiveWeights {w : RRW α} {v : Int} :
    v ∈ w.positiveWeights ↔ 0 < v ∧ ∃ x ∈ w.items, x.Weight = v := by
  simp [RRW.positiveWeights]
  tauto

/-- Under the invariant the stored aggregates are the greatest common divisor and the
maximum of the positive weights in the slice. -/
theorem Inv.aggregates {w : RRW α} (h : Inv w) :
    w.gcd = gcdOf w.positiveWeights ∧ w.maxW = maxOf w.positiveWeights := by
  constructor
  · apply Int.dvd_antisymm h.gcd_nonneg (gcdOf_nonneg _)
    · apply dvd_gcdOf
      intro v hv
      obtain ⟨hpos, x, hx, rfl⟩ := mem_positiveWeights.mp hv
      exact h.gcd_dvd x hx hpos
    · apply h.gcd_greatest
      intro x hx hpos
      exact gcdOf_dvd _ _ (mem_positiveWeights.mpr ⟨hpos, x, hx, rfl⟩)
  · rcases eq_or_lt_of_le h.gcd_nonneg with hg | hg
    · have hnp := h.no_pos hg.symm
      have hnil : w.positiveWeights = [] := by
        apply List.eq_nil_iff_forall_not_mem.mpr
        intro v hv
        obtain ⟨hpos, x, hx, rfl⟩ := mem_positiveWeights.mp hv
        have := hnp x hx
        omega
      rw [hnil, h.max_zero hg.symm]
      rfl
    · have hmp := h.max_pos hg
      obtain ⟨x, hx, hxw⟩ := h.max_mem hg
      have hmem : w.maxW ∈ w.positiveWeights :=
        mem_positiveWeights.mpr ⟨hmp, x, hx, hxw⟩
      have h1 := maxOf_ge _ _ hmem
      rcases maxOf_mem w.positiveWeights with h0 | hm
      · omega
      · obtain ⟨-, y, hy, hyw⟩ := mem_positiveWeights.mp hm
        have := h.max_ge y hy
        omega

/-! ## A single item -/

theorem run_single (fuel : Nat) (x : rrWeighted α) (cs : List Call) :
    ∀ w : RRW α, w.n = 1 → w.items = [x] →
      w.run fuel cs = .ok (List.replicate (cs.count Call.next) (some x.Item)) := by
  induction cs with
  | nil => intro w _ _; rfl
  | cons c cs ih =>
    intro w hn hit
    cases c with
    | next =>
      have hnext : w.Next fuel = .ok (w, some x.Item) := by
        have hidx : index w.items 0 = .ok x := by rw [hit]; rfl
        simp [RRW.Next, hn, hidx]
      simp [RRW.run, hnext, ih w hn hit, List.replicate_succ]
    | reset =>
      have := ih w.Reset hn hit
      simpa [RRW.run] using this

/-! ## Consecutive calls that return the same slot -/

/-- A call of `Next` that leaves the cursor where it was, on at least two items with a
positive weight among them: the cursor wrapped; nothing after the cursor reaches the
old level and nothing before it reaches the new one. -/
theorem same_cursor_step {w w1 : RRW α} {r : Option α} {fuel : Nat} (h : Inv w)
    (h2 : 2 ≤ w.n) (hg : 0 < w.gcd) (hf : 2 * w.items.length ≤ fuel)
    (hnext : w.Next fuel = .ok (w1, r)) (hsame : w1.i = w.i) (hi : 0 ≤ w.i) :
    ∃ mid y post, w.items = mid ++ y :: post ∧ w.i = (mid.length : Int) ∧
      (∀ z ∈ post, z.Weight < w.cw) ∧ (∀ z ∈ mid, z.Weight < w.nextLevel) ∧
      w1.cw = w.nextLevel := by
  rcases Next_cases h h2 hf with ⟨pre, x, mid, y, post, -, hi1, -, -, hn⟩ |
    ⟨hend, -, mid, y, post, hit, hmid, -, hn⟩ | ⟨-, h0, -⟩
  · rw [hn] at hnext
    cases hnext
    simp only at hsame
    omega
  · rw [hn] at hnext
    cases hnext
    simp only at hsame
    rcases hend with hm | ⟨pre, x, post1, hit1, hi1, hpost⟩
    · omega
    · have hlen : pre.length = mid.length := by omega
      have heq : pre ++ x :: post1 = mid ++ y :: post := by rw [← hit1, hit]
      obtain ⟨h3, h4⟩ := List.append_inj heq hlen
      have h5 : post1 = post := by
        injection h4
      subst h5
      exact ⟨mid, y, post1, hit, hsame.symm, hpost, hmid, rfl⟩
  · omega

/-- A positive weight is at least the stored `gcd`. -/
theorem Inv.gcd_le {w : RRW α} (h : Inv w) {z : rrWeighted α} (hz : z ∈ w.items)
    (hpos : 0 < z.Weight) : w.gcd ≤ z.Weight :=
  Int.le_of_dvd hpos (h.gcd_dvd z hz hpos)

/-- A run of calls that all return the slot the cursor is on already, when a later slot
has a positive weight: the run is shorter than `cw / gcd`. -/
theorem run_after (fuel : Nat) (z : rrWeighted α) (m : Nat) :
    ∀ (w : RRW α) (tr : List (RRW α × Option α)) (pre : List (rrWeighted α))
      (x : rrWeighted α) (post : List (rrWeighted α)),
      Inv w → 2 ≤ w.n → 0 < w.gcd → 2 * w.items.length ≤ fuel →
      w.items = pre ++ x :: post → w.i = (pre.length : Int) → z ∈ post → 0 < z.Weight →
      w.calls fuel m = .ok tr → (∀ t ∈ tr, t.1.i = w.i) → (m : Int) * w.gcd < w.cw := by
  induction m with
  | zero =>
    intro w tr pre x post h _ hg _ _ hi _ _ _ _
    have hc : w.cw ≠ 0 := by
      intro hc
      have := h.cw_zero hg hc
      omega
    have := h.cw_lo
    simp
    omega
  | succ m ih =>
    intro w tr pre x post h h2 hg hf hit hi hz hzpos hcalls hall
    obtain ⟨p, tr1, hp, htr1, rfl⟩ := calls_succ_inv hcalls
    obtain ⟨w1, r⟩ := p
    have hsame : w1.i = w.i := hall (w1, r) (by simp)
    obtain ⟨hinv1, hfr⟩ := Next_frame_inv h hp
    obtain ⟨mid, y, post1, hit1, hi1, hpost, -, hcw⟩ :=
      same_cursor_step h h2 hg hf hp hsame (by omega)
    have hlen : pre.length = mid.length := by omega
    obtain ⟨-, h4⟩ := List.append_inj (by rw [← hit, hit1] : pre ++ x :: post = mid ++ y :: post1) hlen
    have h5 : post = post1 := by injection h4
    subst h5
    have hzm : z ∈ w.items := by rw [hit]; simp [hz]
    have hge := h.gcd_le hzm hzpos
    have hlt := hpost z hz
    have hnl : w.nextLevel = w.cw - w.gcd := by
      unfold RRW.nextLevel
      rw [if_neg (by omega)]
    have hit' : w1.items = pre ++ x :: post := by rw [hfr]; exact hit
    have hg1 : w1.gcd = w.gcd := by rw [hfr]
    have hn1 : w1.n = w.n := by rw [hfr]
    have hlen1 : w1.items.length = w.items.length := by rw [hit', hit]
    have := ih w1 tr1 pre x post hinv1 (by omega) (by omega) (by omega) hit' (by omega) hz hzpos
      htr1 (fun t ht => by rw [hsame]; exact hall t (by simp [ht]))
    rw [hg1, hcw, hnl] at this
    push_cast
    linarith

/-- A run of calls that all return the slot the cursor is on already, when an earlier
slot has a positive weight and the current weight exceeds `gcd`: the run is shorter
than `cw / gcd - 1`. -/
theorem run_before (fuel : Nat) (z : rrWeighted α) (m : Nat) :
    ∀ (w : RRW α) (tr : List (RRW α × Option α)) (pre : List (rrWeighted α))
      (x : rrWeighted α) (post : List (rrWeighted α)),
      Inv w → 2 ≤ w.n → 0 < w.gcd → 2 * w.items.length ≤ fuel →
      w.items = pre ++ x :: post → w.i = (pre.length : Int) → z ∈ pre → 0 < z.Weight →
      w.gcd < w.cw →
      w.calls fuel m = .ok tr → (∀ t ∈ tr, t.1.i = w.i) → ((m : Int) + 1) * w.gcd < w.cw := by
  induction m with
  | zero =>
    intro w tr pre x post h _ hg _ _ hi _ _ hcw _ _
    simp
    exact hcw
  | succ m ih =>
    intro w tr pre x post h h2 hg hf hit hi hz hzpos hgc hcalls hall
    obtain ⟨p, tr1, hp, htr1, rfl⟩ := calls_succ_inv hcalls
    obtain ⟨w1, r⟩ := p
    have hsame : w1.i = w.i := hall (w1, r) (by simp)
    obtain ⟨hinv1, hfr⟩ := Next_frame_inv h hp
    obtain ⟨mid, y, post1, hit1, hi1, -, hmid, hcw⟩ :=
      same_cursor_step h h2 hg hf hp hsame (by omega)
    have hlen : pre.length = mid.length := by omega
    obtain ⟨h3, -⟩ := List.append_inj (by rw [← hit, hit1] : pre ++ x :: post = mid ++ y :: post1) hlen
    subst h3
    have hzm : z ∈ w.items := by rw [hit]; simp [hz]
    have hge := h.gcd_le hzm hzpos
    have hlt := hmid z hz
    have hnl : w.nextLevel = w.cw - w.gcd := by
      unfold RRW.nextLevel
      rw [if_neg (by omega)]
    have hit' : w1.items = pre ++ x :: post := by rw [hfr]; exact hit
    have hg1 : w1.gcd = w.gcd := by rw [hfr]
    have hn1 : w1.n = w.n := by rw [hfr]
    have hlen1 : w1.items.length = w.items.length := by rw [hit', hit]
    have := ih w1 tr1 pre x post hinv1 (by omega) (by omega) (by omega) hit' (by omega) hz hzpos
      (by omega) htr1 (fun t ht => by rw [hsame]; exact hall t (by simp [ht]))
    rw [hg1, hcw, hnl] at this
    push_cast
    linarith

theorem positive_other {pre post : List (rrWeighted α)} {x : rrWeighted α}
    (h : 2 ≤ ((((pre ++ x :: post).map fun v => v.Weight).filter fun v => 0 < v)).length) :
    (∃ z ∈ pre, 0 < z.Weight) ∨ (∃ z ∈ post, 0 < z.Weight) := by
  by_contra hc
  push_neg at hc
  obtain ⟨h1, h2⟩ := hc
  have e1 : ((pre.map fun v => v.Weight).filter fun v => decide (0 < v)) = [] := by
    apply List.filter_eq_nil_iff.mpr
    intro v hv
    obtain ⟨z, hz, rfl⟩ := List.mem_map.mp hv
    have := h1 z hz
    simpa using this
  have e2 : ((post.map fun v => v.Weight).filter fun v => decide (0 < v)) = [] := by
    apply List.filter_eq_nil_iff.mpr
    intro v hv
    obtain ⟨z, hz, rfl⟩ := List.mem_map.mp hv
    have := h2 z hz
    simpa using this
  rw [List.map_append, List.filter_append, List.map_cons, List.filter_cons, e1, e2] at h
  split at h <;> simp at h

/-- Smoothness: from a state that satisfies the invariant and has at least two slots
of positive weight, a run of consecutive calls of `Next` that all end with the cursor
on the same slot is at most `ceil(maxW / gcd)` calls long. -/
theorem run_bound {w : RRW α} (h : Inv w) (hp : 2 ≤ w.positiveWeights.length) {fuel : Nat}
    (hf : 2 * w.items.length ≤ fuel) {L : Nat} {tr : List (RRW α × Option α)}
    (hcalls : w.calls fuel L = .ok tr) {p : Int} (hall : ∀ t ∈ tr, t.1.i = p) :
    (L : Int) ≤ (w.maxW + w.gcd - 1) / w.gcd := by
  have hlen2 : 2 ≤ w.items.length := by
    have h1 : w.positiveWeights.length ≤ (w.items.map fun x => x.Weight).length :=
      List.length_filter_le _ _
    simp at h1
    omega
  have h2 : 2 ≤ w.n := by have := h.len; omega
  have hg : 0 < w.gcd := by
    rcases eq_or_lt_of_le h.gcd_nonneg with h0 | h0
    · have hnp := h.no_pos h0.symm
      have hnil : w.positiveWeights = [] := by
        apply List.eq_nil_iff_forall_not_mem.mpr
        intro v hv
        obtain ⟨hpos, x, hx, rfl⟩ := mem_positiveWeights.mp hv
        have := hnp x hx
        omega
      rw [hnil] at hp
      simp at hp
    · exact h0
  have hM := h.max_pos hg
  cases L with
  | zero =>
    apply Int.ediv_nonneg <;> omega
  | succ m =>
    obtain ⟨q, tr1, hq, htr1, rfl⟩ := calls_succ_inv hcalls
    obtain ⟨w1, r⟩ := q
    have hw1p : w1.i = p := hall (w1, r) (by simp)
    obtain ⟨hinv1, hfr⟩ := Next_frame_inv h hq
    have hit1 : w1.items = w.items := by rw [hfr]
    have hg1 : w1.gcd = w.gcd := by rw [hfr]
    have hn1 : w1.n = w.n := by rw [hfr]
    have hM1 : w1.maxW = w.maxW := by rw [hfr]
    have hi0 : 0 ≤ w1.i := by
      rcases Next_cases h h2 hf with ⟨_, _, _, _, _, _, _, _, _, hn⟩ |
        ⟨_, _, _, _, _, _, _, _, hn⟩ | ⟨_, h0, _⟩
      · rw [hn] at hq; cases hq; exact Int.ofNat_nonneg _
      · rw [hn] at hq; cases hq; exact Int.ofNat_nonneg _
      · omega
    have hi1 : w1.i < w1.n := by
      rcases hinv1.i_hi with h3 | h3 <;> omega
    have hk : w1.i.toNat < w1.items.length := by have := hinv1.len; omega
    obtain ⟨pre, x, post, hit, hpre⟩ := split_at w1.items w1.i.toNat hk
    have hicur : w1.i = (pre.length : Int) := by omega
    have hall1 : ∀ t ∈ tr1, t.1.i = w1.i := fun t ht => by
      rw [hw1p]; exact hall t (by simp [ht])
    have hf1 : 2 * w1.items.length ≤ fuel := by rw [hit1]; exact hf
    have hpw : 2 ≤ (((pre ++ x :: post).map fun v => v.Weight).filter fun v => 0 < v).length := by
      rw [← hit, hit1]; exact hp
    have key : (m : Int) * w.gcd < w.maxW := by
      rcases positive_other hpw with ⟨z, hz, hzpos⟩ | ⟨z, hz, hzpos⟩
      · cases m with
        | zero => simpa using hM
        | succ m =>
          obtain ⟨q2, tr2, hq2, htr2, rfl⟩ := calls_succ_inv htr1
          obtain ⟨w2, r2⟩ := q2
          have hsame : w2.i = w1.i := hall1 (w2, r2) (by simp)
          obtain ⟨hinv2, hfr2⟩ := Next_frame_inv hinv1 hq2
          obtain ⟨mid, y, post1, hitm, him, -, hmid, hcw⟩ :=
            same_cursor_step hinv1 (by omega) (by omega) hf1 hq2 hsame hi0
          have hlen : pre.length = mid.length := by omega
          obtain ⟨h3, -⟩ := List.append_inj
            (by rw [← hit, hitm] : pre ++ x :: post = mid ++ y :: post1) hlen
          subst h3
          have hzm : z ∈ w1.items := by rw [hit]; simp [hz]
          have hge := hinv1.gcd_le hzm hzpos
          have hlt := hmid z hz
          have hit2 : w2.items = pre ++ x :: post := by rw [hfr2]; exact hit
          have hg2 : w2.gcd = w.gcd := by rw [hfr2]; exact hg1
          have hn2 : w2.n = w.n := by rw [hfr2]; exact hn1
          have hM2 : w2.maxW = w.maxW := by rw [hfr2]; exact hM1
          have hlen2 : w2.items.length = w1.items.length := by rw [hit2, hit]
          have hb := run_before fuel z m w2 tr2 pre x post hinv2 (by omega) (by omega)
            (by omega) hit2 (by omega) hz hzpos (by omega) htr2
            (fun t ht => by rw [hsame]; exact hall1 t (by simp [ht]))
          have := hinv2.cw_hi
          rw [hg2] at hb
          push_cast
          omega
      · have ha := run_after fuel z m w1 tr1 pre x post hinv1 (by omega) (by omega) hf1 hit
          hicur hz hzpos htr1 hall1
        have := hinv1.cw_hi
        rw [hg1] at ha
        omega
    apply (Int.le_ediv_iff_mul_le hg).mpr
    push_cast
    linarith

/-! ## One pass over the slice -/

theorem hitsFrom_miss (c : Int) (l : List (rrWeighted α)) :
    ∀ k : Nat, (∀ z ∈ l, z.Weight < c) → hitsFrom c k l = [] := by
  induction l with
  | nil => intro k _; rfl
  | cons x l ih =>
    intro k h
    have hx : ¬ c ≤ x.Weight := by have := h x (by simp); omega
    simp only [hitsFrom, if_neg hx]
    exact ih (k + 1) (fun z hz => h z (by simp [hz]))

theorem hitsFrom_hit (c : Int) (mid : List (rrWeighted α)) (y : rrWeighted α)
    (post : List (rrWeighted α)) :
    ∀ k : Nat, (∀ z ∈ mid, z.Weight < c) → c ≤ y.Weight →
      hitsFrom c k (mid ++ y :: post) =
        (k + mid.length) :: hitsFrom c (k + mid.length + 1) post := by
  induction mid with
  | nil =>
    intro k _ hy
    simp [hitsFrom, hy]
  | cons x mid ih =>
    intro k h hy
    have hx : ¬ c ≤ x.Weight := by have := h x (by simp); omega
    have e0 : hitsFrom c k (x :: mid ++ y :: post) = hitsFrom c (k + 1) (mid ++ y :: post) := by
      show hitsFrom c k (x :: (mid ++ y :: post)) = _
      simp only [hitsFrom, if_neg hx]
    rw [e0, ih (k + 1) (fun z hz => h z (by simp [hz])) hy]
    simp only [List.length_cons]
    have e1 : k + 1 + mid.length = k + (mid.length + 1) := by omega
    rw [e1]

theorem get?_mid {β : Type} (pre : List β) (y : β) (post : List β) :
    (pre ++ y :: post).get? pre.length = some y := by
  rw [List.get?_eq_getElem?, List.getElem?_append_right (le_refl _)]
  simp

/-- The calls of `Next` that finish a pass: from the cursor on `x`, the slots after it
whose weight reaches the current weight are returned one by one, and then the cursor
is at the end of the pass. -/
theorem calls_tail (fuel : Nat) (k : Nat) :
    ∀ (post pre : List (rrWeighted α)) (x : rrWeighted α) (w : RRW α),
      post.length ≤ k → w.items = pre ++ x :: post → w.i = (pre.length : Int) →
      w.n = w.items.length → 2 * w.items.length ≤ fuel →
      w.calls fuel ((hitsFrom w.cw (pre.length + 1) post).map (w.visit w.cw)).length =
          .ok ((hitsFrom w.cw (pre.length + 1) post).map (w.visit w.cw)) ∧
        ∃ p : Int, endState w ((hitsFrom w.cw (pre.length + 1) post).map (w.visit w.cw)) =
            { w with i := p } ∧ AtEnd ({ w with i := p } : RRW α) := by
  induction k with
  | zero =>
    intro post pre x w hk hit hi _ _
    have hp : post = [] := List.eq_nil_of_length_eq_zero (by omega)
    subst hp
    refine ⟨rfl, w.i, ?_, ?_⟩
    · simp [hitsFrom]
    · exact Or.inr ⟨pre, x, [], hit, hi, by simp⟩
  | succ k ih =>
    intro post pre x w hk hit hi hn hf
    rcases first_hit w.cw post with hmiss | ⟨mid, y, post1, rfl, hmid, hy⟩
    · rw [hitsFrom_miss _ _ _ hmiss]
      refine ⟨rfl, w.i, by simp, Or.inr ⟨pre, x, post, hit, hi, hmiss⟩⟩
    · rw [hitsFrom_hit _ _ _ _ _ hmid hy]
      have hnext := Next_hit hit hi hn hmid hy hf
      have hit1 : w.items = (pre ++ x :: mid) ++ y :: post1 := by simp [hit]
      have hlen1 : (pre ++ x :: mid).length = pre.length + 1 + mid.length := by
        simp; omega
      have hvis : w.visit w.cw (pre.length + 1 + mid.length) =
          ({ w with i := ((pre.length + 1 + mid.length : Nat) : Int) }, some y.Item) := by
        unfold RRW.visit
        rw [hit1, ← hlen1, get?_mid]
        rfl
      have hrec := ih post1 (pre ++ x :: mid) y
        { w with i := ((pre.length + 1 + mid.length : Nat) : Int) }
        (by simp at hk; omega) hit1 (by simp; omega) hn hf
      rw [hlen1] at hrec
      obtain ⟨hc, p, hp, hend⟩ := hrec
      simp only [List.map_cons, List.length_cons]
      rw [hvis]
      refine ⟨calls_succ_eq hnext hc, p, ?_, hend⟩
      rw [endState_cons]
      exact hp

/-- The calls of `Next` of one whole pass: from the end of a pass, when the level
after the wrap is `c`, positive and reached by some item, the slots whose weight reaches
`c` are returned one by one, and then the cursor is at the end of this pass. -/
theorem calls_pass {w : RRW α} {fuel : Nat} {c : Int} (hn : w.n = w.items.length)
    (h2 : 2 ≤ w.n) (hend : AtEnd w) (hc : w.nextLevel = c) (hpos : 0 < c)
    (hex : ∃ x ∈ w.items, c ≤ x.Weight) (hf : 2 * w.items.length ≤ fuel) :
    w.calls fuel (w.pass c).length = .ok (w.pass c) ∧
      ∃ p : Int, endState w (w.pass c) = { w with i := p, cw := c } ∧
        AtEnd ({ w with i := p, cw := c } : RRW α) := by
  rcases first_hit c w.items with hmiss | ⟨mid, y, post, hit, hmid, hy⟩
  · exfalso
    obtain ⟨x, hx, hxc⟩ := hex
    have := hmiss x hx
    omega
  · subst hc
    have hnext := Next_wrap hn h2 hend (by omega) hit hmid hy hf
    have hvis : w.visit w.nextLevel mid.length =
        ({ w with i := (mid.length : Int), cw := w.nextLevel }, some y.Item) := by
      unfold RRW.visit
      rw [hit, get?_mid]
      rfl
    have hrec := calls_tail fuel post.length post mid y
      { w with i := (mid.length : Int), cw := w.nextLevel } (le_refl _) hit rfl hn hf
    obtain ⟨hc, p, hp, hend1⟩ := hrec
    have hpass : w.pass w.nextLevel =
        w.visit w.nextLevel mid.length ::
          (hitsFrom w.nextLevel (mid.length + 1) post).map (w.visit w.nextLevel) := by
      unfold RRW.pass
      rw [hit, hitsFrom_hit _ _ _ _ _ hmid hy]
      simp
    rw [hpass, hvis]
    simp only [List.length_cons]
    refine ⟨calls_succ_eq hnext hc, p, ?_, hend1⟩
    rw [endState_cons]
    exact hp

/-! ## One cycle -/

theorem descend_frame (w : RRW α) (a b : Int) (m : Nat) :
    ({ w with i := a, cw := b } : RRW α).descend m = w.descend m := by
  induction m with
  | zero => rfl
  | succ m ih =>
    simp only [RRW.descend]
    rw [ih]
    rfl

theorem endState_of_ne_nil (w w1 : RRW α) {tr : List (RRW α × Option α)} (h : tr ≠ []) :
    endState w tr = endState w1 tr := by
  cases tr with
  | nil => exact absurd rfl h
  | cons p tr => rw [endState_cons, endState_cons]

/-- The calls of `Next` of the passes at the levels `m * gcd`, ..., `gcd`, from the end
of the pass at level `(m + 1) * gcd`. -/
theorem calls_descend (fuel : Nat) (m : Nat) :
    ∀ w : RRW α, w.n = w.items.length → 2 ≤ w.n → 0 < w.gcd → AtEnd w →
      w.cw = ((m : Int) + 1) * w.gcd → (∃ x ∈ w.items, (m : Int) * w.gcd ≤ x.Weight) →
      2 * w.items.length ≤ fuel →
      w.calls fuel (w.descend m).length = .ok (w.descend m) ∧
        ∃ p : Int, endState w (w.descend m) = { w with i := p, cw := w.gcd } ∧
          AtEnd ({ w with i := p, cw := w.gcd } : RRW α) := by
  induction m with
  | zero =>
    intro w _ _ _ hend hcw _ _
    have hw : ({ w with i := w.i, cw := w.gcd } : RRW α) = w := by
      have h1 : w.cw = w.gcd := by simpa using hcw
      cases w
      simp only at h1
      subst h1
      rfl
    refine ⟨rfl, w.i, ?_, ?_⟩
    · rw [hw]; rfl
    · rw [hw]; exact hend
  | succ m ih =>
    intro w hn h2 hg hend hcw hex hf
    have hlev : w.nextLevel = ((m : Int) + 1) * w.gcd := by
      unfold RRW.nextLevel
      have h1 : w.cw - w.gcd = ((m : Int) + 1) * w.gcd := by
        rw [hcw]; push_cast; ring
      have h3 : 0 < ((m : Int) + 1) * w.gcd := by positivity
      rw [if_neg (by omega), h1]
    have hex1 : ∃ x ∈ w.items, ((m : Int) + 1) * w.gcd ≤ x.Weight := by
      obtain ⟨x, hx, hxw⟩ := hex
      exact ⟨x, hx, by push_cast at hxw; exact hxw⟩
    obtain ⟨hc1, p1, hp1, hend1⟩ :=
      calls_pass hn h2 hend hlev (by positivity) hex1 hf
    have hex2 : ∃ x ∈ w.items, (m : Int) * w.gcd ≤ x.Weight := by
      obtain ⟨x, hx, hxw⟩ := hex1
      refine ⟨x, hx, ?_⟩
      have : (m : Int) * w.gcd ≤ ((m : Int) + 1) * w.gcd := by nlinarith
      omega
    obtain ⟨hc2, p2, hp2, hend2⟩ :=
      ih { w with i := p1, cw := ((m : Int) + 1) * w.gcd } hn h2 hg hend1 rfl hex2 hf
    rw [descend_frame] at hc2 hp2
    simp only [RRW.descend, List.length_append]
    refine ⟨calls_append _ hc1 (by rw [hp1]; exact hc2), p2, ?_, hend2⟩
    rw [endState_append, hp1]
    exact hp2

/-- The number of levels of a cycle: `maxW / gcd`. -/
theorem Inv.max_eq {w : RRW α} (h : Inv w) (hg : 0 < w.gcd) :
    ∃ K : Nat, (w.maxW / w.gcd).toNat = K + 1 ∧ w.maxW = ((K : Int) + 1) * w.gcd := by
  obtain ⟨x, hx, hxw⟩ := h.max_mem hg
  have hM := h.max_pos hg
  have hd : w.gcd ∣ w.maxW := by rw [← hxw]; exact h.gcd_dvd x hx (by omega)
  obtain ⟨q, hq⟩ := hd
  have hqpos : 0 < q := by
    by_contra hc
    have : w.gcd * q ≤ 0 := by
      have : q ≤ 0 := by omega
      nlinarith
    omega
  have hdiv : w.maxW / w.gcd = q := by
    rw [hq]; exact Int.mul_ediv_cancel_left q (by omega)
  refine ⟨q.toNat - 1, ?_, ?_⟩
  · rw [hdiv]; omega
  · rw [hq]
    have : ((q.toNat - 1 : Nat) : Int) + 1 = q := by omega
    rw [this]; ring

/-- One cycle: from the end of a pass, when the next level is `maxW` (as after `Reset`
and at the end of a cycle), the calls of `Next` go through the passes at the levels
`maxW`, `maxW - gcd`, ..., `gcd` and end at the end of the last pass. -/
theorem calls_cycle {w : RRW α} {fuel : Nat} (h : Inv w) (h2 : 2 ≤ w.n) (hg : 0 < w.gcd)
    (hend : AtEnd w) (hcw : w.cw - w.gcd ≤ 0) (hf : 2 * w.items.length ≤ fuel) :
    w.calls fuel (w.descend (w.maxW / w.gcd).toNat).length =
        .ok (w.descend (w.maxW / w.gcd).toNat) ∧
      ∃ p : Int, endState w (w.descend (w.maxW / w.gcd).toNat) =
          { w with i := p, cw := w.gcd } ∧
        AtEnd ({ w with i := p, cw := w.gcd } : RRW α) := by
  obtain ⟨K, hK, hM⟩ := h.max_eq hg
  rw [hK]
  have hlev : w.nextLevel = ((K : Int) + 1) * w.gcd := by
    unfold RRW.nextLevel
    rw [if_pos hcw, hM]
  obtain ⟨x, hx, hxw⟩ := h.max_mem hg
  have hex1 : ∃ x ∈ w.items, ((K : Int) + 1) * w.gcd ≤ x.Weight :=
    ⟨x, hx, by rw [hxw, hM]⟩
  obtain ⟨hc1, p1, hp1, hend1⟩ :=
    calls_pass h.len h2 hend hlev (by positivity) hex1 hf
  have hex2 : ∃ x ∈ w.items, (K : Int) * w.gcd ≤ x.Weight := by
    obtain ⟨x, hx, hxw⟩ := hex1
    refine ⟨x, hx, ?_⟩
    have : (K : Int) * w.gcd ≤ ((K : Int) + 1) * w.gcd := by nlinarith
    omega
  obtain ⟨hc2, p2, hp2, hend2⟩ :=
    calls_descend fuel K { w with i := p1, cw := ((K : Int) + 1) * w.gcd } h.len h2 hg hend1
      rfl hex2 hf
  rw [descend_frame] at hc2 hp2
  simp only [RRW.descend, List.length_append]
  refine ⟨calls_append _ hc1 (by rw [hp1]; exact hc2), p2, ?_, hend2⟩
  rw [endState_append, hp1]
  exact hp2

/-! ## Counting the calls of a cycle -/

theorem descend_results (w : RRW α) (m : Nat) :
    (w.descend m).map Prod.snd =
      (w.slots m).map fun p => (w.items.get? p).map fun x => x.Item := by
  induction m with
  | zero => rfl
  | succ m ih =>
    simp only [RRW.descend, RRW.slots, List.map_append, ih, RRW.pass, List.map_map]
    rfl

theorem descend_cursors (w : RRW α) (m : Nat) :
    (w.descend m).map (fun s => s.1.i) = (w.slots m).map fun (p : Nat) => (p : Int) := by
  induction m with
  | zero => rfl
  | succ m ih =>
    simp only [RRW.descend, RRW.slots, List.map_append, ih, RRW.pass, List.map_map]
    rfl

theorem descend_length (w : RRW α) (m : Nat) : (w.descend m).length = (w.slots m).length := by
  have := congrArg List.length (descend_cursors w m)
  simpa using this

theorem hitsFrom_append (c : Int) (a b : List (rrWeighted α)) :
    ∀ k : Nat, hitsFrom c k (a ++ b) = hitsFrom c k a ++ hitsFrom c (k + a.length) b := by
  induction a with
  | nil => intro k; simp [hitsFrom]
  | cons x a ih =>
    intro k
    have e : k + 1 + a.length = k + (x :: a).length := by simp; omega
    by_cases hx : c ≤ x.Weight
    · show hitsFrom c k (x :: (a ++ b)) = _
      simp only [hitsFrom, if_pos hx, ih (k + 1), e, List.cons_append]
    · show hitsFrom c k (x :: (a ++ b)) = _
      simp only [hitsFrom, if_neg hx, ih (k + 1), e]

theorem mem_hitsFrom (c : Int) (l : List (rrWeighted α)) :
    ∀ (k q : Nat), q ∈ hitsFrom c k l → k ≤ q ∧ q < k + l.length := by
  induction l with
  | nil => intro k q h; simp [hitsFrom] at h
  | cons x l ih =>
    intro k q h
    simp only [hitsFrom] at h
    split at h
    · simp at h
      rcases h with rfl | h
      · simp
      · have := ih (k + 1) q h
        simp; omega
    · have := ih (k + 1) q h
      simp; omega

theorem count_hitsFrom (c : Int) (pre : List (rrWeighted α)) (x : rrWeighted α)
    (post : List (rrWeighted α)) :
    (hitsFrom c 0 (pre ++ x :: post)).count pre.length = if c ≤ x.Weight then 1 else 0 := by
  have e : pre ++ x :: post = pre ++ ([x] ++ post) := by simp
  rw [e, hitsFrom_append, hitsFrom_append, List.count_append, List.count_append]
  have h1 : (hitsFrom c 0 pre).count pre.length = 0 := by
    apply List.count_eq_zero.mpr
    intro hm
    have := mem_hitsFrom c pre 0 _ hm
    omega
  have h2 : (hitsFrom c (0 + pre.length + [x].length) post).count pre.length = 0 := by
    apply List.count_eq_zero.mpr
    intro hm
    have := mem_hitsFrom c post _ _ hm
    simp at this
  rw [h1, h2]
  by_cases hx : c ≤ x.Weight
  · simp [hitsFrom, hx]
  · simp [hitsFrom, hx]

/-- In the passes at the levels `m * gcd`, ..., `gcd` a slot is returned once for each
level that its weight reaches. -/
theorem count_slots (w : RRW α) {pre post : List (rrWeighted α)} {x : rrWeighted α}
    (hit : w.items = pre ++ x :: post) (m : Nat) :
    (w.slots m).count pre.length = below w.gcd m x.Weight := by
  induction m with
  | zero => rfl
  | succ m ih =>
    simp only [RRW.slots, below, List.count_append, ih]
    rw [hit, count_hitsFrom]

theorem length_hitsFrom (c : Int) (l : List (rrWeighted α)) :
    ∀ k : Nat, (hitsFrom c k l).length =
      (l.map fun x => if c ≤ x.Weight then 1 else 0).sum := by
  induction l with
  | nil => intro k; rfl
  | cons x l ih =>
    intro k
    by_cases hx : c ≤ x.Weight
    · simp only [hitsFrom, if_pos hx, List.length_cons, ih (k + 1), List.map_cons,
        List.sum_cons]
      omega
    · simp only [hitsFrom, if_neg hx, ih (k + 1), List.map_cons, List.sum_cons]
      omega

theorem length_slots (w : RRW α) (m : Nat) :
    (w.slots m).length = (w.items.map fun x => below w.gcd m x.Weight).sum := by
  induction m with
  | zero => simp [RRW.slots, below]
  | succ m ih =>
    simp only [RRW.slots, below, List.length_append, ih, length_hitsFrom]
    rw [← List.sum_map_add]

theorem below_mul {g : Int} (hg : 0 < g) (q : Nat) :
    ∀ m : Nat, below g m ((q : Int) * g) = min m q := by
  intro m
  induction m with
  | zero => simp [below]
  | succ m ih =>
    simp only [below, ih]
    by_cases h : m + 1 ≤ q
    · have h1 : ((m : Int) + 1) * g ≤ (q : Int) * g := by
        have : ((m : Int) + 1) ≤ (q : Int) := by exact_mod_cast h
        nlinarith
      rw [if_pos h1]
      omega
    · have h1 : ¬ ((m : Int) + 1) * g ≤ (q : Int) * g := by
        intro hc
        have : (q : Int) + 1 ≤ (m : Int) + 1 := by
          have : q < m + 1 := by omega
          exact_mod_cast this
        nlinarith
      rw [if_neg h1]
      omega

/-- A positive multiple `v` of `g` that is at most `m * g` reaches `v / g` of the levels
`g`, ..., `m * g`. -/
theorem below_eq_div {g v : Int} (hg : 0 < g) (hd : g ∣ v) (hv : 0 < v) (m : Nat)
    (hm : v ≤ (m : Int) * g) : below g m v = (v / g).toNat := by
  obtain ⟨q, rfl⟩ := hd
  have hq : 0 < q := by
    by_contra hc
    have : q ≤ 0 := by omega
    nlinarith
  have hdiv : g * q / g = q := Int.mul_ediv_cancel_left q (by omega)
  rw [hdiv]
  have e : g * q = ((q.toNat : Nat) : Int) * g := by
    have : ((q.toNat : Nat) : Int) = q := by omega
    rw [this]; ring
  rw [e, below_mul hg]
  have : (q.toNat : Int) ≤ (m : Int) := by
    have h1 : ((q.toNat : Nat) : Int) = q := by omega
    rw [h1]
    by_contra hc
    have : (m : Int) + 1 ≤ q := by omega
    nlinarith
  omega

theorem sum_div_weights {g : Int} (hg : 0 < g) (l : List (rrWeighted α))
    (h : ∀ x ∈ l, g ∣ x.Weight ∧ 0 < x.Weight) :
    g ∣ (l.map fun x => x.Weight).sum ∧ 0 ≤ (l.map fun x => x.Weight).sum ∧
      (l.map fun x => (x.Weight / g).toNat).sum = ((l.map fun x => x.Weight).sum / g).toNat := by
  induction l with
  | nil => simp
  | cons x l ih =>
    obtain ⟨hd, hs, he⟩ := ih (fun y hy => h y (by simp [hy]))
    obtain ⟨hxd, hxp⟩ := h x (by simp)
    simp only [List.map_cons, List.sum_cons]
    refine ⟨dvd_add hxd hd, by omega, ?_⟩
    rw [Int.add_ediv_of_dvd_left hxd, Int.toNat_add (Int.ediv_nonneg (by omega) (by omega))
      (Int.ediv_nonneg hs (by omega)), he]

/-! ## Building a selector with `Add` -/

theorem Add_spec {w w1 : RRW α} {item : α} {weight : Int}
    (h : w.Add item weight = .ok w1) :
    w1.items = w.items ++ [⟨item, weight⟩] ∧
      (w.i = -1 ∧ w.cw = 0 → w1.i = -1 ∧ w1.cw = 0) ∧
      (0 < weight → w.gcd = 0 → w1.i = -1 ∧ w1.cw = 0) := by
  by_cases hw : 0 < weight
  · by_cases hg : w.gcd = 0
    · rw [Add_first w item hw hg] at h
      cases h
      exact ⟨rfl, fun _ => ⟨rfl, rfl⟩, fun _ _ => ⟨rfl, rfl⟩⟩
    · obtain ⟨g, -, -, -, hadd⟩ := Add_more w item hw hg
      rw [hadd] at h
      cases h
      exact ⟨rfl, fun hc => hc, fun _ h0 => absurd h0 hg⟩
  · rw [Add_nonpos w item (not_lt.mp hw)] at h
    cases h
    exact ⟨rfl, fun hc => hc, fun h0 _ => absurd h0 hw⟩

/-- Adding the pairs of a list: the call returns, the items are appended in order, the
invariant is kept, and a cursor at the start stays at the start. -/
theorem addAll_spec (l : List (α × Int)) :
    ∀ w : RRW α, ∃ w1, w.addAll l = .ok w1 ∧
      w1.items = w.items ++ l.map (fun p => ⟨p.1, p.2⟩) ∧ (Inv w → Inv w1) ∧
      (w.i = -1 ∧ w.cw = 0 → w1.i = -1 ∧ w1.cw = 0) := by
  induction l with
  | nil => intro w; exact ⟨w, rfl, by simp, id, id⟩
  | cons p l ih =>
    intro w
    obtain ⟨w2, hadd⟩ := Add_total w p.1 p.2
    obtain ⟨hit2, hc2, -⟩ := Add_spec hadd
    obtain ⟨w1, hall, hit1, hinv1, hc1⟩ := ih w2
    refine ⟨w1, ?_, ?_, fun h => hinv1 (h.add hadd), fun hc => hc1 (hc2 hc)⟩
    · simp [RRW.addAll, hadd, hall]
    · rw [hit1, hit2]; simp

/-- A selector built from the zero value with positive weights only: the cursor is at
the start. -/
theorem addAll_zero (l : List (α × Int)) (hne : l ≠ []) (hpos : ∀ p ∈ l, 0 < p.2) :
    ∃ w : RRW α, (RRW.zero α).addAll l = .ok w ∧
      w.items = l.map (fun p => ⟨p.1, p.2⟩) ∧ Inv w ∧ w.i = -1 ∧ w.cw = 0 := by
  cases l with
  | nil => exact absurd rfl hne
  | cons p l =>
    obtain ⟨w2, hadd⟩ := Add_total (RRW.zero α) p.1 p.2
    obtain ⟨hit2, -, hc2⟩ := Add_spec hadd
    obtain ⟨w1, hall, hit1, hinv1, hc1⟩ := addAll_spec l w2
    have hcur := hc1 (hc2 (hpos p (by simp)) rfl)
    refine ⟨w1, ?_, ?_, hinv1 (Inv.zero.add hadd), hcur.1, hcur.2⟩
    · simp [RRW.addAll, hadd, hall]
    · rw [hit1, hit2]; simp [RRW.zero]

theorem positiveWeights_of_pos {w : RRW α} (hpos : ∀ x ∈ w.items, 0 < x.Weight) :
    w.positiveWeights = w.items.map fun x => x.Weight := by
  unfold RRW.positiveWeights
  apply List.filter_eq_self.mpr
  intro v hv
  obtain ⟨x, hx, rfl⟩ := List.mem_map.mp hv
  simpa using hpos x hx

/-! ## The calls of one cycle, all weights positive -/

/-- With all weights positive a cycle has `sum of the weights / gcd` calls. -/
theorem length_cycle {w : RRW α} (h : Inv w) (hg : 0 < w.gcd)
    (hpos : ∀ x ∈ w.items, 0 < x.Weight) :
    (w.descend (w.maxW / w.gcd).toNat).length =
      ((w.items.map fun x => x.Weight).sum / w.gcd).toNat := by
  obtain ⟨K, hK, hM⟩ := h.max_eq hg
  rw [descend_length, length_slots, hK]
  have hsum := sum_div_weights hg w.items (fun x hx => ⟨h.gcd_dvd x hx (hpos x hx), hpos x hx⟩)
  rw [← hsum.2.2]
  congr 1
  apply List.map_congr_left
  intro x hx
  apply below_eq_div hg (h.gcd_dvd x hx (hpos x hx)) (hpos x hx)
  have := h.max_ge x hx
  push_cast
  rw [← hM]
  exact this

/-- With all weights positive the slot `p` is returned `weight / gcd` times in a
cycle. -/
theorem count_cycle {w : RRW α} (h : Inv w) (hg : 0 < w.gcd) {p : Nat} {x : rrWeighted α}
    (hx : w.items.get? p = some x) (hpos : 0 < x.Weight) :
    (w.slots (w.maxW / w.gcd).toNat).count p = (x.Weight / w.gcd).toNat := by
  obtain ⟨K, hK, hM⟩ := h.max_eq hg
  have hp : p < w.items.length := by
    by_contra hc
    rw [List.get?_eq_getElem?, List.getElem?_eq_none (by omega)] at hx
    simp at hx
  obtain ⟨pre, y, post, hit, hpre⟩ := split_at w.items p hp
  have hy : y = x := by
    have := get?_mid pre y post
    rw [← hit, hpre, hx] at this
    exact (Option.some.inj this).symm
  subst hy
  have hmem : y ∈ w.items := by rw [hit]; simp
  rw [← hpre, count_slots w hit, hK]
  apply below_eq_div hg (h.gcd_dvd y hmem hpos) hpos
  have := h.max_ge y hmem
  push_cast
  rw [← hM]
  exact this

theorem mem_descend (w : RRW α) (m : Nat) :
    ∀ s ∈ w.descend m, ∃ (c : Int) (p : Nat), s = w.visit c p := by
  induction m with
  | zero => intro s hs; simp [RRW.descend] at hs
  | succ m ih =>
    intro s hs
    simp only [RRW.descend, List.mem_append, RRW.pass, List.mem_map] at hs
    rcases hs with ⟨p, -, rfl⟩ | hs
    · exact ⟨_, p, rfl⟩
    · exact ih s hs

/-! ## Repeating a cycle -/

theorem length_repeatList {β : Type} (q : Nat) (l : List β) :
    (repeatList q l).length = q * l.length := by
  induction q with
  | zero => simp [repeatList]
  | succ q ih => simp [repeatList, ih]; ring

theorem repeatList_comm {β : Type} (q : Nat) (l : List β) :
    l ++ repeatList q l = repeatList q l ++ l := by
  induction q with
  | zero => simp [repeatList]
  | succ q ih =>
    simp only [repeatList, List.append_assoc]
    rw [ih]

/-- When a run of calls leads back to a state from which the same run starts again, the
calls from there repeat that run for ever. -/
theorem calls_periodic {fuel : Nat} {w : RRW α} {L : List (RRW α × Option α)}
    (hL : w.calls fuel L.length = .ok L) (hend : endState w L = w) (r : Nat)
    (hr : r ≤ L.length) :
    ∀ q : Nat, w.calls fuel (q * L.length + r) = .ok (repeatList q L ++ L.take r) := by
  intro q
  induction q with
  | zero =>
    have e : r + (L.length - r) = L.length := by omega
    rw [← e] at hL
    simpa [repeatList] using calls_take r hL
  | succ q ih =>
    have e : (q + 1) * L.length + r = L.length + (q * L.length + r) := by ring
    rw [e]
    have := calls_append L.length hL (by rw [hend]; exact ih)
    simpa [repeatList] using this

theorem visit_facts (w : RRW α) {s : RRW α × Option α}
    (hs : ∃ (c : Int) (p : Nat), s = w.visit c p) :
    s.2 = (w.items.get? s.1.i.toNat).map (fun x => x.Item) ∧ s.1.i = ((s.1.i.toNat : Nat) : Int) := by
  obtain ⟨c, p, rfl⟩ := hs
  simp [RRW.visit]

/-- Proportionality over every window, for a state with the cursor at the start, at
least two items and all weights positive: any `sum / gcd` consecutive calls of `Next`,
after any number `m` of calls, return each slot `weight / gcd` times. -/
theorem window_spec {w : RRW α} (h : Inv w) (h2 : 2 ≤ w.n)
    (hpos : ∀ x ∈ w.items, 0 < x.Weight) (hi : w.i = -1) (hcw : w.cw = 0) {fuel : Nat}
    (hf : 2 * w.items.length ≤ fuel) (m : Nat) :
    ∃ (tr : List (RRW α × Option α)) (ps : List Nat), w.calls fuel (m + ((w.items.map fun x => x.Weight).sum / w.gcd).toNat) = .ok tr ∧
      (tr.drop m).map Prod.snd = ps.map (fun p => (w.items.get? p).map fun x => x.Item) ∧
      (tr.drop m).map (fun s => s.1.i) = ps.map (fun (p : Nat) => (p : Int)) ∧
      ∀ p x, w.items.get? p = some x → ps.count p = (x.Weight / w.gcd).toNat := by
  have hg : 0 < w.gcd := by
    rcases eq_or_lt_of_le h.gcd_nonneg with h0 | h0
    · have hlen : 2 ≤ w.items.length := by have := h.len; omega
      obtain ⟨x, hx⟩ : ∃ x, x ∈ w.items := List.exists_mem_of_length_pos (by omega)
      have := h.no_pos h0.symm x hx
      have := hpos x hx
      omega
    · exact h0
  obtain ⟨hc, p0, hp0, hend0⟩ := calls_cycle h h2 hg (Or.inl hi) (by rw [hcw]; omega) hf
  rw [← length_cycle h hg hpos]
  generalize hL : w.descend (w.maxW / w.gcd).toNat = L at hc hp0
  have hLne : L ≠ [] := by
    intro hnil
    rw [hnil] at hp0
    have : w.cw = w.gcd := by
      have := congrArg RRW.cw hp0
      simpa using this
    omega
  have hLpos : 0 < L.length := List.length_pos.mpr hLne
  have hinvf : Inv ({ w with i := p0, cw := w.gcd } : RRW α) := by
    rw [← hp0]; exact calls_inv _ h hc
  obtain ⟨hcf, p1, hp1, -⟩ := calls_cycle hinvf h2 hg hend0 (by simp) hf
  rw [descend_frame] at hcf hp1
  have hKf : (({ w with i := p0, cw := w.gcd } : RRW α).maxW /
      ({ w with i := p0, cw := w.gcd } : RRW α).gcd).toNat = (w.maxW / w.gcd).toNat := rfl
  rw [hKf, hL] at hcf hp1
  have hendf : endState ({ w with i := p0, cw := w.gcd } : RRW α) L =
      { w with i := p0, cw := w.gcd } := by
    rw [endState_of_ne_nil _ w hLne, hp0]
  -- the window
  have hm : m = (m / L.length) * L.length + m % L.length := by
    rw [mul_comm]; exact (Nat.div_add_mod m L.length).symm
  have hr : m % L.length < L.length := Nat.mod_lt _ hLpos
  generalize m / L.length = q at hm
  generalize m % L.length = r at hm hr
  have hper := calls_periodic hcf hendf r (le_of_lt hr) q
  have hall := calls_append L.length hc (by rw [hp0]; exact hper)
  have e1 : m + L.length = L.length + (q * L.length + r) := by omega
  rw [e1]
  have hperm : (L.drop r ++ L.take r).Perm L := by
    have := @List.perm_append_comm _ (L.drop r) (L.take r)
    rwa [List.take_append_drop] at this
  have hmemL : ∀ s ∈ L.drop r ++ L.take r, ∃ (c : Int) (p : Nat), s = w.visit c p := by
    intro s hs
    have : s ∈ L := hperm.subset hs
    rw [← hL] at this
    exact mem_descend w _ s this
  have hdrop : (L ++ (repeatList q L ++ L.take r)).drop m = L.drop r ++ L.take r := by
    rw [← List.append_assoc, repeatList_comm, List.append_assoc, hm]
    have e2 : q * L.length = (repeatList q L).length := (length_repeatList q L).symm
    rw [e2, List.drop_append, List.drop_append_of_le_length (le_of_lt hr)]
  refine ⟨_, (L.drop r ++ L.take r).map (fun s => s.1.i.toNat), hall, ?_, ?_, ?_⟩
  · rw [hdrop, List.map_map]
    apply List.map_congr_left
    intro s hs
    exact (visit_facts w (hmemL s hs)).1
  · rw [hdrop, List.map_map]
    apply List.map_congr_left
    intro s hs
    exact (visit_facts w (hmemL s hs)).2
  · intro p x hx
    rw [(hperm.map _).count_eq, ← count_cycle h hg hx (hpos x (List.get?_mem hx))]
    congr 1
    have := descend_cursors w (w.maxW / w.gcd).toNat
    rw [hL] at this
    have h3 := congrArg (List.map Int.toNat) this
    simp only [List.map_map] at h3
    rw [show (fun s : RRW α × Option α => s.1.i.toNat) = (Int.toNat ∘ fun s => s.1.i) from rfl,
      h3]
    have e : (Int.toNat ∘ fun (p : Nat) => (p : Int)) = id := by
      funext p
      simp
    rw [e, List.map_id]

/-! ## The slot a call returns -/

theorem index_ok {β : Type} {l : List β} {i : Int} {y : β} (h : index l i = .ok y) :
    0 ≤ i ∧ l.get? i.toNat = some y := by
  unfold index at h
  split at h
  · simp at h
  · split at h
    · next x hx => cases h; exact ⟨by omega, hx⟩
    · simp at h

/-- In a slice of pairwise different items, two slots holding the same item are the
same slot. -/
theorem slot_inj {l : List (rrWeighted α)} (hnd : (l.map fun x => x.Item).Nodup) {i j : Int}
    {y z : rrWeighted α} (hi : index l i = .ok y) (hj : index l j = .ok z)
    (hyz : y.Item = z.Item) : i = j := by
  obtain ⟨hi0, hiy⟩ := index_ok hi
  obtain ⟨hj0, hjz⟩ := index_ok hj
  have h1 : (l.map fun x => x.Item).get? i.toNat = some y.Item := by
    rw [List.get?_eq_getElem?, List.getElem?_map, ← List.get?_eq_getElem?, hiy]; rfl
  have h2 : (l.map fun x => x.Item).get? j.toNat = some y.Item := by
    rw [List.get?_eq_getElem?, List.getElem?_map, ← List.get?_eq_getElem?, hjz, hyz]; rfl
  have hlt : ∀ a b : Nat, (l.map fun x => x.Item).get? a = some y.Item →
      (l.map fun x => x.Item).get? b = some y.Item → ¬ a < b := by
    intro a b ha hb hab
    have hb2 : b < (l.map fun x => x.Item).length := by
      by_contra hc
      rw [List.get?_eq_getElem?, List.getElem?_eq_none (by omega)] at hb
      simp at hb
    exact List.nodup_iff_get?_ne_get?.mp hnd a b hab hb2 (by rw [ha, hb])
  have := hlt _ _ h1 h2
  have := hlt _ _ h2 h1
  omega

/-- A call of `Next` on at least two items, one of positive weight: what is returned is
the item of the slot the cursor ends on, and the weight of that slot is positive. -/
theorem Next_slot {w w1 : RRW α} {r : Option α} {fuel : Nat} (h : Inv w) (h2 : 2 ≤ w.n)
    (hg : 0 < w.gcd) (hf : 2 * w.items.length ≤ fuel) (hnext : w.Next fuel = .ok (w1, r)) :
    ∃ y, index w.items w1.i = .ok y ∧ r = some y.Item ∧ 0 < y.Weight := by
  rcases Next_cases h h2 hf with ⟨pre, x1, mid, y, post, hit, hi, -, hy, hn⟩ |
    ⟨-, -, mid, y, post, hit, -, hy, hn⟩ | ⟨-, h0, -⟩
  · rw [hn] at hnext
    cases hnext
    refine ⟨y, ?_, rfl, ?_⟩
    · have hit2 : w.items = (pre ++ x1 :: mid) ++ y :: post := by simp [hit]
      have hlen : (pre ++ x1 :: mid).length = pre.length + 1 + mid.length := by simp; omega
      show index w.items ((pre.length + 1 + mid.length : Nat) : Int) = .ok y
      rw [hit2, ← hlen]
      exact index_append _ _ _
    · have hc : w.cw ≠ 0 := by
        intro hc
        have := h.cw_zero hg hc
        omega
      have := h.cw_lo
      omega
  · rw [hn] at hnext
    cases hnext
    refine ⟨y, ?_, rfl, ?_⟩
    · show index w.items (mid.length : Int) = .ok y
      rw [hit]
      exact index_append _ _ _
    · have := h.nextLevel_pos hg
      omega
  · omega

theorem calls_slot {fuel : Nat} (L : Nat) :
    ∀ {w : RRW α} {tr : List (RRW α × Option α)}, Inv w → 2 ≤ w.n → 0 < w.gcd →
      2 * w.items.length ≤ fuel → w.calls fuel L = .ok tr →
      ∀ t ∈ tr, ∃ y, index w.items t.1.i = .ok y ∧ t.2 = some y.Item ∧ 0 < y.Weight := by
  induction L with
  | zero => intro w tr _ _ _ _ h t ht; cases h; simp at ht
  | succ L ih =>
    intro w tr h h2 hg hf hcalls t ht
    obtain ⟨q, tr1, hq, htr1, rfl⟩ := calls_succ_inv hcalls
    obtain ⟨w1, r⟩ := q
    obtain ⟨hinv1, hfr⟩ := Next_frame_inv h hq
    simp at ht
    rcases ht with rfl | ht
    · exact Next_slot h h2 hg hf hq
    · have hit1 : w1.items = w.items := by rw [hfr]
      have hg1 : w1.gcd = w.gcd := by rw [hfr]
      have hn1 : w1.n = w.n := by rw [hfr]
      have := ih hinv1 (by omega) (by omega) (by rw [hit1]; exact hf) htr1 t ht
      rw [hit1] at this
      exact this

theorem gcd_pos_of_positive {w : RRW α} (h : Inv w) (hp : 1 ≤ w.positiveWeights.length) :
    0 < w.gcd := by
  rcases eq_or_lt_of_le h.gcd_nonneg with h0 | h0
  · have hnp := h.no_pos h0.symm
    have hnil : w.positiveWeights = [] := by
      apply List.eq_nil_iff_forall_not_mem.mpr
      intro v hv
      obtain ⟨hpos, x, hx, rfl⟩ := mem_positiveWeights.mp hv
      have := hnp x hx
      omega
    rw [hnil] at hp
    simp at hp
  · exact h0

/-- Smoothness for items: with at least two slots of positive weight and pairwise
different items, a run of consecutive calls of `Next` that all return the same item is
at most `ceil(maxW / gcd)` calls long. -/
theorem run_bound_item {w : RRW α} (h : Inv w) (hp : 2 ≤ w.positiveWeights.length)
    (hnd : (w.items.map fun x => x.Item).Nodup) {fuel : Nat}
    (hf : 2 * w.items.length ≤ fuel) {L : Nat} {tr : List (RRW α × Option α)}
    (hcalls : w.calls fuel L = .ok tr) {a : α} (hall : ∀ t ∈ tr, t.2 = some a) :
    (L : Int) ≤ (w.maxW + w.gcd - 1) / w.gcd := by
  have hg := gcd_pos_of_positive h (by omega)
  have hlen2 : 2 ≤ w.items.length := by
    have h1 : w.positiveWeights.length ≤ (w.items.map fun x => x.Weight).length :=
      List.length_filter_le _ _
    simp at h1
    omega
  have h2 : 2 ≤ w.n := by have := h.len; omega
  cases tr with
  | nil =>
    have := calls_length L hcalls
    simp at this
    subst this
    apply Int.ediv_nonneg <;> have := h.max_pos hg <;> omega
  | cons t0 tr =>
    apply run_bound h hp hf hcalls (p := t0.1.i)
    intro t ht
    obtain ⟨y, hy, hyr, -⟩ := calls_slot L h h2 hg hf hcalls t ht
    obtain ⟨z, hz, hzr, -⟩ := calls_slot L h h2 hg hf hcalls t0 (by simp)
    have e1 := hall t ht
    have e2 := hall t0 (by simp)
    rw [hyr] at e1
    rw [hzr] at e2
    have : y.Item = z.Item := by
      have := Option.some.inj e1
      have := Option.some.inj e2
      simp_all
    exact slot_inj hnd hy hz this

/-! ## Proportionality after `Reset` -/

theorem gcd_single {w : RRW α} (h : Inv w) {x : rrWeighted α} (hit : w.items = [x])
    (hpos : 0 < x.Weight) : w.gcd = x.Weight := by
  apply Int.dvd_antisymm h.gcd_nonneg (le_of_lt hpos)
  · exact h.gcd_dvd x (by simp [hit]) hpos
  · apply h.gcd_greatest
    intro y hy _
    rw [hit] at hy
    simp at hy
    rw [hy]

/-- Proportionality after `Reset`, for a state with at least one item and all weights
positive: the next `sum / gcd` calls of `Next` return each slot `weight / gcd` times. -/
theorem proportional_reset {w : RRW α} (h : Inv w) (hne : w.items ≠ [])
    (hpos : ∀ x ∈ w.items, 0 < x.Weight) {fuel : Nat} (hf : 2 * w.items.length ≤ fuel) :
    ∃ (tr : List (RRW α × Option α)) (ps : List Nat),
      w.Reset.calls fuel ((w.items.map fun x => x.Weight).sum / w.gcd).toNat = .ok tr ∧
      tr.map Prod.snd = ps.map (fun p => (w.items.get? p).map fun x => x.Item) ∧
      (2 ≤ w.items.length → tr.map (fun s => s.1.i) = ps.map (fun (p : Nat) => (p : Int))) ∧
      ∀ p x, w.items.get? p = some x → ps.count p = (x.Weight / w.gcd).toNat := by
  by_cases h1 : w.items.length = 1
  · obtain ⟨x, hx⟩ := List.length_eq_one.mp h1
    have hxpos := hpos x (by simp [hx])
    have hg := gcd_single h hx hxpos
    have hn : w.n = 1 := by rw [h.len, h1]; rfl
    have hT : ((w.items.map fun x => x.Weight).sum / w.gcd).toNat = 1 := by
      rw [hx, hg]
      simp
      rw [Int.ediv_self (by omega)]
      rfl
    have hnext : w.Reset.Next fuel = .ok (w.Reset, some x.Item) := by
      have hidx : index w.Reset.items 0 = .ok x := by
        show index w.items 0 = .ok x
        rw [hx]; rfl
      have hn1 : w.Reset.n = 1 := hn
      simp [RRW.Next, hn1, hidx]
    refine ⟨[(w.Reset, some x.Item)], [0], ?_, ?_, ?_, ?_⟩
    · rw [hT]
      exact calls_succ_eq hnext rfl
    · simp [hx]
    · intro hc; omega
    · intro p y hy
      rw [hx] at hy
      cases p with
      | zero =>
        simp at hy
        subst hy
        rw [hg, Int.ediv_self (by omega)]
        rfl
      | succ p => simp at hy
  · have hlen : 2 ≤ w.items.length := by
      have : w.items.length ≠ 0 := fun hc => hne (List.eq_nil_of_length_eq_zero hc)
      omega
    have h2 : 2 ≤ w.Reset.n := by
      show 2 ≤ w.n
      have := h.len
      omega
    obtain ⟨tr, ps, hc, hres, hcur, hcnt⟩ :=
      @window_spec _ w.Reset h.reset h2 hpos rfl rfl fuel hf 0
    refine ⟨tr, ps, ?_, hres, fun _ => hcur, hcnt⟩
    simpa using hc

theorem weights_of_list (l : List (α × Int)) :
    ((l.map fun p => (⟨p.1, p.2⟩ : rrWeighted α)).map fun x => x.Weight) = l.map Prod.snd := by
  simp [List.map_map, Function.comp_def]

/-- A selector built from the zero value with positive weights only: the stored `gcd` is
the greatest common divisor of the weights. -/
theorem gcd_of_list {w : RRW α} (h : Inv w) (l : List (α × Int))
    (hit : w.items = l.map fun p => ⟨p.1, p.2⟩) (hpos : ∀ p ∈ l, 0 < p.2) :
    w.gcd = gcdOf (l.map Prod.snd) ∧ ∀ x ∈ w.items, 0 < x.Weight := by
  have hp : ∀ x ∈ w.items, 0 < x.Weight := by
    intro x hx
    rw [hit] at hx
    obtain ⟨p, hp, rfl⟩ := List.mem_map.mp hx
    exact hpos p hp
  refine ⟨?_, hp⟩
  rw [h.aggregates.1, positiveWeights_of_pos hp, hit, weights_of_list]

/-- The example of the specification: with `a = 5`, `b = 1`, `c = 1` the first seven
calls of `Next` return `a` five times, then `b`, then `c`, and the next seven calls
return the same. -/
theorem seven_calls :
    ((RRW.zero String).addAll [("a", 5), ("b", 1), ("c", 1)]).bind
        (fun w => w.Reset.results 6 14) =
      .ok [some "a", some "a", some "a", some "a", some "a", some "b", some "c",
        some "a", some "a", some "a", some "a", some "a", some "b", some "c"] := by
  decide

/-! ## The map returned by `All` -/

theorem foldr_setKey [DecidableEq α] (r : List (rrWeighted α)) (a : α) :
    (r.foldr (fun x m => setKey m x.Item x.Weight) (fun _ => none)) a =
      (r.find? fun x => x.Item = a).map fun x => x.Weight := by
  induction r with
  | nil => rfl
  | cons x r ih =>
    simp only [List.foldr_cons, setKey, List.find?_cons]
    by_cases h : a = x.Item
    · subst h
      simp
    · have h2 : ¬ x.Item = a := fun hc => h hc.symm
      simp [h, h2, ih]

/-- On hashable items the loop of `All` returns, and what it returns is the map made
by the assignments in the order of the slice. -/
theorem allLoop_ok [DecidableEq α] (hashable : α → Bool) (l : List (rrWeighted α)) :
    ∀ m : α → Option Int, (∀ x ∈ l, hashable x.Item = true) →
      allLoop hashable l m = .ok (l.foldl (fun m x => setKey m x.Item x.Weight) m) := by
  induction l with
  | nil => intro m _; rfl
  | cons x l ih =>
    intro m h
    have hx : hashable x.Item = true := h x (by simp)
    simp only [allLoop, hx, if_true, List.foldl_cons]
    exact ih _ fun y hy => h y (by simp [hy])

/-- With an item that is not hashable in the slice the loop of `All` panics. -/
theorem allLoop_panic [DecidableEq α] (hashable : α → Bool) (l : List (rrWeighted α)) :
    ∀ m : α → Option Int, (∃ x ∈ l, hashable x.Item = false) →
      allLoop hashable l m = .panic := by
  induction l with
  | nil => intro m h; obtain ⟨x, hx, -⟩ := h; simp at hx
  | cons x l ih =>
    intro m h
    cases hx : hashable x.Item with
    | false => simp [allLoop, hx]
    | true =>
      simp only [allLoop, hx, if_true]
      obtain ⟨y, hy, hyh⟩ := h
      rcases List.mem_cons.mp hy with rfl | hy2
      · rw [hx] at hyh; cases hyh
      · exact ih _ ⟨y, hy2, hyh⟩

/-- On hashable items `All` returns the state as it was and a map that sends an item
to the weight of its last occurrence in the slice. -/
theorem All_lookup [DecidableEq α] (hashable : α → Bool) (w : RRW α)
    (h : ∀ x ∈ w.items, hashable x.Item = true) :
    ∃ m, w.All hashable = .ok (w, m) ∧
      ∀ a, m a = (w.items.reverse.find? fun x => x.Item = a).map fun x => x.Weight := by
  refine ⟨_, by rw [RRW.All, allLoop_ok hashable w.items _ h]; rfl, fun a => ?_⟩
  rw [← foldr_setKey, List.foldr_reverse]

/-! ## The loop of `Next` does not panic -/

/-- More fuel does not change what the loop of `Next` does once it has ended. -/
theorem nextLoop_mono (fuel : Nat) : ∀ (w : RRW α) (k : Nat),
    w.nextLoop fuel ≠ .timeout → w.nextLoop (fuel + k) = w.nextLoop fuel := by
  induction fuel with
  | zero => intro w k h; exact absurd rfl h
  | succ fuel ih =>
    intro w k h
    have e : fuel + 1 + k = (fuel + k) + 1 := by omega
    rw [e]
    unfold RRW.nextLoop
    unfold RRW.nextLoop at h
    cases hb : w.nextBody with
    | ok s =>
      cases s with
      | «continue» w1 =>
        rw [hb] at h
        simp only at h ⊢
        exact ih w1 k h
      | ret w1 r => rfl
    | panic => rfl
    | timeout => rfl

theorem Next_mono (fuel k : Nat) (w : RRW α) (h : w.Next fuel ≠ .timeout) :
    w.Next (fuel + k) = w.Next fuel := by
  unfold RRW.Next at h ⊢
  split
  · rfl
  · split
    · rfl
    · next h0 h1 =>
      rw [if_neg h0, if_neg h1] at h
      exact nextLoop_mono fuel w k h

/-- From a state that satisfies the invariant a call of `Next` does not panic, whatever
the fuel. -/
theorem Next_ne_panic {w : RRW α} (h : Inv w) (fuel : Nat) : w.Next fuel ≠ .panic := by
  intro hp
  obtain ⟨w1, r, hok⟩ := @Next_total _ w h (fuel + 2 * w.items.length) (by omega)
  rw [Next_mono fuel _ w (by rw [hp]; simp), hp] at hok
  simp at hok

/-! ## Splitting and trimming -/

theorem split_ne_nil (sep : Char) (l : List Char) : split sep l ≠ [] := by
  induction l with
  | nil => simp [split]
  | cons c l ih =>
    unfold split
    split
    · simp
    · split <;> simp

theorem split_nosep (sep : Char) (l : List Char) (h : sep ∉ l) : split sep l = [l] := by
  induction l with
  | nil => rfl
  | cons c l ih =>
    have hc : ¬ c = sep := fun hc => h (by simp [hc])
    have hl : sep ∉ l := fun hl => h (by simp [hl])
    simp only [split, if_neg hc, ih hl]

theorem split_append (sep : Char) (a b : List Char) (h : sep ∉ a) :
    split sep (a ++ sep :: b) = a :: split sep b := by
  induction a with
  | nil => simp [split]
  | cons c a ih =>
    have hc : ¬ c = sep := fun hc => h (by simp [hc])
    have hl : sep ∉ a := fun hl => h (by simp [hl])
    have e : split sep (c :: (a ++ sep :: b)) = (c :: a) :: split sep b := by
      simp only [split, if_neg hc, ih hl]
    simpa using e

theorem split_joinWith (sep : Char) (ps : List (List Char)) (hne : ps ≠ [])
    (h : ∀ p ∈ ps, sep ∉ p) : split sep (joinWith sep ps) = ps := by
  induction ps with
  | nil => exact absurd rfl hne
  | cons x ps ih =>
    cases ps with
    | nil => simpa [joinWith] using split_nosep sep x (h x (by simp))
    | cons y rest =>
      simp only [joinWith]
      rw [split_append sep x _ (h x (by simp)), ih (by simp) (fun p hp => h p (by simp [hp]))]

theorem dropWhile_all {β : Type} (p : β → Bool) (l : List β) (h : ∀ c ∈ l, p c = true) :
    l.dropWhile p = [] := by
  induction l with
  | nil => rfl
  | cons c l ih =>
    simp only [List.dropWhile, h c (by simp)]
    exact ih (fun d hd => h d (by simp [hd]))

theorem dropWhile_pad {β : Type} (p : β → Bool) (l t : List β) (h : ∀ c ∈ l, p c = true)
    (ht : t.head?.map p ≠ some true) : (l ++ t).dropWhile p = t := by
  induction l with
  | nil =>
    cases t with
    | nil => rfl
    | cons c t =>
      have hc : p c = false := by
        cases hp : p c with
        | false => rfl
        | true => simp [hp] at ht
      simp [List.dropWhile, hc]
  | cons c l ih =>
    simp only [List.cons_append, List.dropWhile, h c (by simp)]
    exact ih (fun d hd => h d (by simp [hd]))

/-- Trimming removes the white space written around a text that has none at its
ends. -/
theorem TrimSpace_pad (l s r : List Char) (hl : ∀ c ∈ l, isSpace c = true)
    (hr : ∀ c ∈ r, isSpace c = true) (h1 : s.head?.map isSpace ≠ some true)
    (h2 : s.getLast?.map isSpace ≠ some true) : TrimSpace (l ++ s ++ r) = s := by
  unfold TrimSpace
  cases s with
  | nil =>
    have : ∀ c ∈ l ++ [] ++ r, isSpace c = true := by
      intro c hc
      simp at hc
      rcases hc with hc | hc
      · exact hl c hc
      · exact hr c hc
    rw [dropWhile_all _ _ this]
    rfl
  | cons c s =>
    rw [List.append_assoc, dropWhile_pad isSpace l _ hl (by simpa using h1),
      List.reverse_append,
      dropWhile_pad isSpace r.reverse _ (fun d hd => hr d (by simpa using hd))
        (by rw [List.head?_reverse]; exact h2),
      List.reverse_reverse]

/-! ## Decimal texts -/

theorem toNat_digitChar (d : Nat) (h : d < 10) : (Char.ofNat (48 + d)).toNat = 48 + d := by
  interval_cases d <;> rfl

theorem digit_of_range {c : Char} (h : 48 ≤ c.toNat ∧ c.toNat ≤ 57) :
    digit c = some (c.toNat - 48) := by
  unfold digit
  rw [if_pos h]

theorem digitChar_facts {c : Char} (h : 48 ≤ c.toNat ∧ c.toNat ≤ 57) :
    isSpace c = false ∧ c ≠ '-' ∧ c ≠ '+' ∧ c ≠ ',' ∧ c ≠ '=' := by
  refine ⟨?_, ?_, ?_, ?_, ?_⟩
  · unfold isSpace
    simp
    omega
  · rintro rfl; revert h; decide
  · rintro rfl; revert h; decide
  · rintro rfl; revert h; decide
  · rintro rfl; revert h; decide

theorem space_facts {c : Char} (h : isSpace c = true) : c ≠ ',' ∧ c ≠ '=' := by
  constructor
  · rintro rfl; revert h; decide
  · rintro rfl; revert h; decide

theorem natDigits_chars (fuel : Nat) :
    ∀ n : Nat, ∀ c ∈ natDigits fuel n, 48 ≤ c.toNat ∧ c.toNat ≤ 57 := by
  induction fuel with
  | zero => intro n c hc; simp [natDigits] at hc
  | succ fuel ih =>
    intro n c hc
    unfold natDigits at hc
    split at hc
    · next hn =>
      simp at hc
      subst hc
      rw [toNat_digitChar n hn]
      omega
    · simp at hc
      rcases hc with hc | hc
      · exact ih _ c hc
      · subst hc
        rw [toNat_digitChar _ (Nat.mod_lt _ (by omega))]
        omega

theorem natDigits_ne_nil (fuel n : Nat) (h : n < fuel) : natDigits fuel n ≠ [] := by
  cases fuel with
  | zero => omega
  | succ fuel =>
    unfold natDigits
    split <;> simp

theorem digits_append (a b : List Char) :
    ∀ acc : Nat, digits (a ++ b) acc = (digits a acc).bind fun v => digits b v := by
  induction a with
  | nil => intro acc; rfl
  | cons c a ih =>
    intro acc
    simp only [List.cons_append, digits]
    cases digit c with
    | none => rfl
    | some d => exact ih _

/-- Reading the decimal digits of `n` gives `n`. -/
theorem digits_natDigits (fuel : Nat) :
    ∀ n : Nat, n < fuel → digits (natDigits fuel n) 0 = some n := by
  induction fuel with
  | zero => intro n h; omega
  | succ fuel ih =>
    intro n h
    unfold natDigits
    split
    · next hn =>
      have hr : 48 ≤ (Char.ofNat (48 + n)).toNat ∧ (Char.ofNat (48 + n)).toNat ≤ 57 := by
        rw [toNat_digitChar n hn]; omega
      simp only [digits, digit_of_range hr, toNat_digitChar n hn]
      simp
    · next hn =>
      have hm : n % 10 < 10 := Nat.mod_lt _ (by omega)
      have hr : 48 ≤ (Char.ofNat (48 + n % 10)).toNat ∧
          (Char.ofNat (48 + n % 10)).toNat ≤ 57 := by
        rw [toNat_digitChar _ hm]; omega
      rw [digits_append, ih (n / 10) (by omega)]
      simp only [Option.some_bind, digits, digit_of_range hr, toNat_digitChar _ hm]
      congr 1
      omega

theorem decimal_chars (v : Int) :
    ∀ c ∈ decimal v, c = '-' ∨ (48 ≤ c.toNat ∧ c.toNat ≤ 57) := by
  intro c hc
  unfold decimal at hc
  split at hc
  · simp at hc
    rcases hc with hc | hc
    · left; exact hc
    · right; exact natDigits_chars _ _ c hc
  · right; exact natDigits_chars _ _ c hc

theorem decimal_ne_nil (v : Int) : decimal v ≠ [] := by
  unfold decimal
  split
  · simp
  · exact natDigits_ne_nil _ _ (by omega)

/-- The function `strconv.Atoi` reads the decimal text of an `int` back. -/
theorem Atoi_decimal (v : Int) (h : inInt v) : Atoi (decimal v) = some v := by
  obtain ⟨h1, h2⟩ := h
  have hd := digits_natDigits (v.natAbs + 1) v.natAbs (by omega)
  have hne := natDigits_ne_nil (v.natAbs + 1) v.natAbs (by omega)
  by_cases hv : v < 0
  · have e : decimal v = '-' :: natDigits (v.natAbs + 1) v.natAbs := by
      unfold decimal; rw [if_pos hv]
    rw [e]
    have hle : v.natAbs ≤ 2 ^ 63 := by omega
    simp [Atoi, hne, hd, hle, abs_of_neg hv]
    omega
  · have e : decimal v = natDigits (v.natAbs + 1) v.natAbs := by
      unfold decimal; rw [if_neg hv]
    rw [e]
    obtain ⟨c, cs, hcs⟩ := List.exists_cons_of_ne_nil hne
    have hc := natDigits_chars (v.natAbs + 1) v.natAbs c (by rw [hcs]; simp)
    obtain ⟨-, hm, hp, -, -⟩ := digitChar_facts hc
    have hlt : v.natAbs < 2 ^ 63 := by omega
    rw [hcs] at hd
    rw [hcs]
    simp [Atoi, hm, hp, hd, hlt, abs_of_nonneg (not_lt.mp hv)]
    omega

/-! ## Reading the entries of a configuration -/

theorem edges_of_no_space (s : List Char) (h : ∀ c ∈ s, isSpace c = false) :
    s.head?.map isSpace ≠ some true ∧ s.getLast?.map isSpace ≠ some true := by
  constructor
  · cases hs : s.head? with
    | none => simp
    | some c =>
      have := h c (List.mem_of_mem_head? hs)
      simp [this]
  · cases hs : s.getLast? with
    | none => simp
    | some c =>
      have := h c (List.mem_of_mem_getLast? hs)
      simp [this]

theorem decimal_no_space (v : Int) : ∀ c ∈ decimal v, isSpace c = false := by
  intro c hc
  rcases decimal_chars v c hc with rfl | h
  · decide
  · exact (digitChar_facts h).1

theorem index_zero {β : Type} (x : β) (l : List β) : index (x :: l) 0 = .ok x := rfl

theorem index_one {β : Type} (x y : β) (l : List β) : index (x :: y :: l) 1 = .ok y := rfl

/-- The body of the loop of `AddFrom` reads the key and the weight of a well-formed
entry. -/
theorem parseEntry_text (e : ConfigEntry) (h : e.wellFormed) :
    parseEntry e.text = .ok (some (String.mk e.key, e.weight)) := by
  obtain ⟨-, hk2, hk3, hk4, hint, hp1, hp2, hp3, hp4⟩ := h
  have hA : '=' ∉ e.keyLeft ++ e.key ++ e.keyRight := by
    intro hc
    simp only [List.mem_append] at hc
    rcases hc with (hc | hc) | hc
    · exact (space_facts (hp1 _ hc)).2 rfl
    · exact hk2 hc
    · exact (space_facts (hp2 _ hc)).2 rfl
  have hB : '=' ∉ e.weightLeft ++ decimal e.weight ++ e.weightRight := by
    intro hc
    simp only [List.mem_append] at hc
    rcases hc with (hc | hc) | hc
    · exact (space_facts (hp3 _ hc)).2 rfl
    · rcases decimal_chars _ _ hc with h1 | h1
      · revert h1; decide
      · exact (digitChar_facts h1).2.2.2.2 rfl
    · exact (space_facts (hp4 _ hc)).2 rfl
  have hsplit : split '=' e.text =
      [e.keyLeft ++ e.key ++ e.keyRight, e.weightLeft ++ decimal e.weight ++ e.weightRight] := by
    unfold ConfigEntry.text
    rw [split_append _ _ _ hA, split_nosep _ _ hB]
  have ht1 := TrimSpace_pad e.keyLeft e.key e.keyRight hp1 hp2 hk3 hk4
  have hd := edges_of_no_space _ (decimal_no_space e.weight)
  have ht2 := TrimSpace_pad e.weightLeft (decimal e.weight) e.weightRight hp3 hp4 hd.1 hd.2
  unfold parseEntry
  simp only [hsplit, index_zero, index_one, ht1, ht2, Atoi_decimal _ hint]

theorem text_no_comma (e : ConfigEntry) (h : e.wellFormed) : ',' ∉ e.text := by
  obtain ⟨hk1, -, -, -, -, hp1, hp2, hp3, hp4⟩ := h
  intro hc
  unfold ConfigEntry.text at hc
  simp only [List.mem_append, List.mem_cons] at hc
  rcases hc with ((hc | hc) | hc) | hc | (hc | hc) | hc
  · exact (space_facts (hp1 _ hc)).1 rfl
  · exact hk1 hc
  · exact (space_facts (hp2 _ hc)).1 rfl
  · revert hc; decide
  · exact (space_facts (hp3 _ hc)).1 rfl
  · rcases decimal_chars _ _ hc with h1 | h1
    · revert h1; decide
    · exact (digitChar_facts h1).2.2.2.1 rfl
  · exact (space_facts (hp4 _ hc)).1 rfl

/-- The loop of `AddFrom` on an entry that reads as a key and a weight: `Add`, then the
rest of the entries. -/
theorem addEntries_step (box : String → α) {w w1 : RRW α} {entry : List Char}
    {p : String × Int} (rest : List (List Char)) (h : parseEntry entry = .ok (some p))
    (hadd : w.Add (box p.1) p.2 = .ok w1) :
    w.addEntries box (entry :: rest) = w1.addEntries box rest := by
  simp only [parseEntry] at h
  simp only [RRW.addEntries]
  cases h0 : index (split '=' entry) 0 with
  | ok p0 =>
    simp only [h0] at h ⊢
    cases h1 : index (split '=' entry) 1 with
    | ok p1 =>
      simp only [h1] at h ⊢
      cases hval : Atoi (TrimSpace p1) with
      | none => simp [hval] at h
      | some val =>
        simp only [hval, Exec.ok.injEq, Option.some.injEq] at h ⊢
        subst h
        simp only [hadd]
    | panic => simp [h1] at h
    | timeout => simp [h1] at h
  | panic => simp [h0] at h
  | timeout => simp [h0] at h

/-- The loop of `AddFrom` on an entry whose weight `strconv.Atoi` rejects: the error is
returned and the state stays as it is. -/
theorem addEntries_error (box : String → α) (w : RRW α) {entry : List Char}
    (rest : List (List Char)) (h : parseEntry entry = .ok none) :
    w.addEntries box (entry :: rest) = (w, .parseError) := by
  simp only [parseEntry] at h
  simp only [RRW.addEntries]
  cases h0 : index (split '=' entry) 0 with
  | ok p0 =>
    simp only [h0] at h ⊢
    cases h1 : index (split '=' entry) 1 with
    | ok p1 =>
      simp only [h1] at h ⊢
      cases hval : Atoi (TrimSpace p1) with
      | none => rfl
      | some val => simp [hval] at h
    | panic => simp [h1] at h
    | timeout => simp [h1] at h
  | panic => simp [h0] at h
  | timeout => simp [h0] at h

/-- The loop of `AddFrom` on an entry without `=`: it panics. -/
theorem addEntries_panic (box : String → α) (w : RRW α) {entry : List Char}
    (rest : List (List Char)) (h : parseEntry entry = .panic) :
    w.addEntries box (entry :: rest) = (w, .panic) := by
  simp only [parseEntry] at h
  simp only [RRW.addEntries]
  cases h0 : index (split '=' entry) 0 with
  | ok p0 =>
    simp only [h0] at h ⊢
    cases h1 : index (split '=' entry) 1 with
    | ok p1 =>
      simp only [h1] at h ⊢
      cases hval : Atoi (TrimSpace p1) with
      | none => simp [hval] at h
      | some val => simp [hval] at h
    | panic => rfl
    | timeout => rfl
  | panic => rfl
  | timeout => rfl

theorem Add_data {w w1 : RRW α} {item : α} {weight : Int}
    (h : w.Add item weight = .ok w1) : w1.data = w.data := by
  by_cases hw : 0 < weight
  · by_cases hg : w.gcd = 0
    · rw [Add_first w item hw hg] at h; cases h; rfl
    · obtain ⟨g, -, -, -, hadd⟩ := Add_more w item hw hg
      rw [hadd] at h; cases h; rfl
  · rw [Add_nonpos w item (not_lt.mp hw)] at h; cases h; rfl

/-- The loop of `AddFrom` over entries that all read as a key and a weight adds the
pairs in order and goes on with the rest. -/
theorem addEntries_good (box : String → α) (rest : List (List Char))
    {es : List (List Char)} {pairs : List (String × Int)}
    (h : List.Forall₂ (fun e p => parseEntry e = .ok (some p)) es pairs) :
    ∀ w : RRW α, ∃ w1, w.addAll (pairs.map fun p => (box p.1, p.2)) = .ok w1 ∧
      w1.data = w.data ∧ w.addEntries box (es ++ rest) = w1.addEntries box rest := by
  induction h with
  | nil => intro w; exact ⟨w, rfl, rfl, rfl⟩
  | @cons e p es pairs hp _ ih =>
    intro w
    obtain ⟨w2, hadd⟩ := Add_total w (box p.1) p.2
    obtain ⟨w1, hall, hdata, hrest⟩ := ih w2
    refine ⟨w1, ?_, ?_, ?_⟩
    · simp [RRW.addAll, hadd, hall]
    · rw [hdata, Add_data hadd]
    · rw [List.cons_append, addEntries_step box _ hp hadd, hrest]

theorem parseEntry_error {entry p1 : List Char} (h1 : index (split '=' entry) 1 = .ok p1)
    (h2 : Atoi (TrimSpace p1) = none) : parseEntry entry = .ok none := by
  simp only [parseEntry]
  cases hs : split '=' entry with
  | nil => exact absurd hs (split_ne_nil _ _)
  | cons p0 tl =>
    rw [hs] at h1
    simp only [index_zero, h1, h2]

theorem wellFormed_forall₂ (es : List ConfigEntry) (hwf : ∀ e ∈ es, e.wellFormed) :
    List.Forall₂ (fun e p => parseEntry e = .ok (some p)) (es.map ConfigEntry.text)
      (es.map fun e => (String.mk e.key, e.weight)) := by
  induction es with
  | nil => exact List.Forall₂.nil
  | cons e es ih =>
    exact List.Forall₂.cons (parseEntry_text e (hwf e (by simp)))
      (ih fun x hx => hwf x (by simp [hx]))

/-- The example of the specification: after `AddFrom("a=2,b=3")` on the zero value the
map returned by `All` sends `a` to `2`, `b` to `3` and has no other key such as `c`. -/
theorem addFrom_all_example :
    ((RRW.zero String).AddFrom id "a=2,b=3").2 = AddFromResult.nil ∧
      ∃ m, ((RRW.zero String).AddFrom id "a=2,b=3").1.All (fun _ => true) =
          .ok (((RRW.zero String).AddFrom id "a=2,b=3").1, m) ∧
        m "a" = some 2 ∧ m "b" = some 3 ∧ m "c" = none := by
  refine ⟨by decide, _, rfl, ?_⟩
  decide

/-! ## The closed form of a cycle -/

theorem hits_results (c : Int) (l : List (rrWeighted α)) :
    ∀ pre : List (rrWeighted α),
      ((hitsFrom c pre.length l).map fun p => ((pre ++ l).get? p).map fun x => x.Item) =
        (l.filter fun x => decide (c ≤ x.Weight)).map fun x => some x.Item := by
  induction l with
  | nil => intro pre; rfl
  | cons x l ih =>
    intro pre
    have hrec := ih (pre ++ [x])
    have e1 : (pre ++ [x]).length = pre.length + 1 := by simp
    have e2 : pre ++ [x] ++ l = pre ++ x :: l := by simp
    rw [e1, e2] at hrec
    by_cases hx : c ≤ x.Weight
    · simp only [hitsFrom, if_pos hx, List.map_cons, hrec, get?_mid, Option.map_some',
        List.filter_cons, decide_eq_true hx, if_true]
    · simp only [hitsFrom, if_neg hx, hrec, List.filter_cons, decide_eq_false hx]
      simp

theorem pass_results (w : RRW α) (c : Int) :
    (w.pass c).map Prod.snd =
      (w.items.filter fun x => decide (c ≤ x.Weight)).map fun x => some x.Item := by
  have := hits_results c w.items []
  simp only [List.length_nil, List.nil_append] at this
  rw [← this]
  simp only [RRW.pass, List.map_map]
  rfl

/-- The values returned in the passes at the levels `m * gcd`, ..., `gcd`: for each
level in turn, the items of the slice, in order, whose weight reaches the level. -/
theorem descend_filter (w : RRW α) (m : Nat) :
    (w.descend m).map Prod.snd =
      (levelsDown w.gcd m).flatMap fun c =>
        (w.items.filter fun x => decide (c ≤ x.Weight)).map fun x => some x.Item := by
  induction m with
  | zero => rfl
  | succ m ih =>
    simp only [RRW.descend, levelsDown, List.map_append, List.flatMap_cons, ih, pass_results]

theorem below_nonpos {g : Int} (hg : 0 < g) {v : Int} (hv : v ≤ 0) (m : Nat) :
    below g m v = 0 := by
  induction m with
  | zero => rfl
  | succ m ih =>
    have h1 : ¬ ((m : Int) + 1) * g ≤ v := by
      have : 0 < ((m : Int) + 1) * g := by positivity
      omega
    simp only [below, if_neg h1, ih]

theorem sum_below {g : Int} (hg : 0 < g) (m : Nat) (l : List (rrWeighted α))
    (h : ∀ x ∈ l, 0 < x.Weight → g ∣ x.Weight ∧ x.Weight ≤ (m : Int) * g) :
    g ∣ ((l.map fun x => x.Weight).filter fun v => 0 < v).sum ∧
      0 ≤ ((l.map fun x => x.Weight).filter fun v => 0 < v).sum ∧
      (l.map fun x => below g m x.Weight).sum =
        (((l.map fun x => x.Weight).filter fun v => 0 < v).sum / g).toNat := by
  induction l with
  | nil => simp
  | cons x l ih =>
    obtain ⟨hd, hs, he⟩ := ih (fun y hy => h y (by simp [hy]))
    by_cases hx : 0 < x.Weight
    · obtain ⟨hxd, hxm⟩ := h x (by simp) hx
      simp only [List.map_cons, List.filter_cons, decide_eq_true hx, if_true, List.sum_cons]
      refine ⟨dvd_add hxd hd, by omega, ?_⟩
      rw [Int.add_ediv_of_dvd_left hxd, Int.toNat_add (Int.ediv_nonneg (by omega) (by omega))
        (Int.ediv_nonneg hs (by omega)), he, below_eq_div hg hxd hx m hxm]
    · simp only [List.map_cons, List.filter_cons, decide_eq_false hx, List.sum_cons]
      refine ⟨hd, hs, ?_⟩
      rw [below_nonpos hg (not_lt.mp hx), he]
      simp

/-- A cycle has `sum of the positive weights / gcd` calls. -/
theorem length_cycle_pos {w : RRW α} (h : Inv w) (hg : 0 < w.gcd) :
    (w.descend (w.maxW / w.gcd).toNat).length = (w.positiveWeights.sum / w.gcd).toNat := by
  obtain ⟨K, hK, hM⟩ := h.max_eq hg
  rw [descend_length, length_slots, hK]
  have := sum_below hg (K + 1) w.items (fun x hx hpos =>
    ⟨h.gcd_dvd x hx hpos, by have := h.max_ge x hx; push_cast; rw [← hM]; exact this⟩)
  exact this.2.2

theorem endState_mem (w : RRW α) {tr : List (RRW α × Option α)} (h : tr ≠ []) :
    ∃ t ∈ tr, endState w tr = t.1 := by
  unfold endState
  cases hl : tr.getLast? with
  | none => exact absurd (List.getLast?_eq_none_iff.mp hl) h
  | some t => exact ⟨t, List.mem_of_mem_getLast? hl, rfl⟩

/-- The closed form of a cycle, from a state with the cursor at the start, at least two
items and a positive weight: the `sum of the positive weights / gcd` calls of `Next`
return the passes at the levels `maxW`, ..., `gcd`; they end with the current weight at
`gcd` and the cursor on the last slot of positive weight; and from there the same calls
come again. -/
theorem cycle_closed {w : RRW α} (h : Inv w) (h2 : 2 ≤ w.n) (hg : 0 < w.gcd)
    (hi : w.i = -1) (hcw : w.cw = 0) {fuel : Nat} (hf : 2 * w.items.length ≤ fuel) :
    ∃ tr : List (RRW α × Option α),
      w.calls fuel (w.positiveWeights.sum / w.gcd).toNat = .ok tr ∧
      tr.map Prod.snd = ((levelsDown w.gcd (w.maxW / w.gcd).toNat).flatMap fun c =>
        (w.items.filter fun x => decide (c ≤ x.Weight)).map fun x => some x.Item) ∧
      (endState w tr).cw = w.gcd ∧
      (∃ pre x post, w.items = pre ++ x :: post ∧ (endState w tr).i = (pre.length : Int) ∧
        0 < x.Weight ∧ ∀ y ∈ post, y.Weight ≤ 0) ∧
      (endState w tr).calls fuel (w.positiveWeights.sum / w.gcd).toNat = .ok tr := by
  obtain ⟨hc, p0, hp0, hend0⟩ := calls_cycle h h2 hg (Or.inl hi) (by rw [hcw]; omega) hf
  rw [← length_cycle_pos h hg]
  have hres := descend_filter w (w.maxW / w.gcd).toNat
  generalize hL : w.descend (w.maxW / w.gcd).toNat = L at hc hp0 hres
  have hLne : L ≠ [] := by
    intro hnil
    rw [hnil] at hp0
    have : w.cw = w.gcd := by
      have := congrArg RRW.cw hp0
      simpa using this
    omega
  have hinvf : Inv ({ w with i := p0, cw := w.gcd } : RRW α) := by
    rw [← hp0]; exact calls_inv _ h hc
  obtain ⟨hcf, p1, hp1, -⟩ := calls_cycle hinvf h2 hg hend0 (by simp) hf
  rw [descend_frame] at hcf hp1
  have hKf : (({ w with i := p0, cw := w.gcd } : RRW α).maxW /
      ({ w with i := p0, cw := w.gcd } : RRW α).gcd).toNat = (w.maxW / w.gcd).toNat := rfl
  rw [hKf, hL] at hcf hp1
  refine ⟨L, hc, hres, by rw [hp0], ?_, by rw [hp0]; exact hcf⟩
  -- the cursor at the end
  obtain ⟨t, ht, hte⟩ := endState_mem w hLne
  obtain ⟨y, hy, -, hypos⟩ := calls_slot _ h h2 hg hf hc t ht
  rw [← hte, hp0] at hy
  obtain ⟨hy0, hyget⟩ := index_ok hy
  simp only at hy0 hyget
  rcases hend0 with hm | ⟨pre, x, post, hit, hpre, hpost⟩
  · simp only at hm
    omega
  · simp only at hit hpre hpost
    have hxy : x = y := by
      have := get?_mid pre x post
      rw [← hit] at this
      have e : p0.toNat = pre.length := by omega
      rw [e, this] at hyget
      exact Option.some.inj hyget
    subst hxy
    refine ⟨pre, x, post, hit, by rw [hp0]; exact hpre, hypos, ?_⟩
    intro z hz
    by_contra hc2
    have hzm : z ∈ w.items := by rw [hit]; simp [hz]
    have := h.gcd_le hzm (by omega)
    have := hpost z hz
    omega

/-- The cycle of `a = 5`, `b = 0`, `c = 1`: six calls, the levels `5`, `4`, `3`, `2`
return `a` and the level `1` returns `a`, `c`. -/
theorem cycle_example :
    ((RRW.zero String).addAll [("a", 5), ("b", 0), ("c", 1)]).bind
        (fun w => w.Reset.results 6 6) =
      .ok [some "a", some "a", some "a", some "a", some "a", some "c"] := by
  decide

/-! ## The claims -/

/-- C1 (proportionality): for a selector built from the zero value by calls of `Add`
only, holding at least one item and all weights positive, with `g` the greatest
common divisor of the weights: the calls return; after `Reset` the next `sum / g`
calls of `Next` return, for a list `ps` of slots in which every slot `p` occurs exactly
`weight p / g` times, the items of the slots of `ps` in order; with two items or more
`ps` is the list of the positions of the cursor after the calls. -/
theorem C1_proportional (l : List (α × Int)) (hne : l ≠ []) (hpos : ∀ p ∈ l, 0 < p.2)
    (fuel : Nat) (hf : 2 * l.length ≤ fuel) :
    ∃ (w : RRW α) (tr : List (RRW α × Option α)) (ps : List Nat),
      (RRW.zero α).addAll l = .ok w ∧ w.items = l.map (fun p => ⟨p.1, p.2⟩) ∧
      w.gcd = gcdOf (l.map Prod.snd) ∧
      w.Reset.calls fuel ((l.map Prod.snd).sum / gcdOf (l.map Prod.snd)).toNat = .ok tr ∧
      tr.map Prod.snd = ps.map (fun p => (w.items.get? p).map fun x => x.Item) ∧
      (2 ≤ l.length → tr.map (fun s => s.1.i) = ps.map (fun (p : Nat) => (p : Int))) ∧
      ∀ p x, w.items.get? p = some x →
        ps.count p = (x.Weight / gcdOf (l.map Prod.snd)).toNat := by
  obtain ⟨w, hadd, hit, hinv, -, -⟩ := addAll_zero l hne hpos
  obtain ⟨hg, hp⟩ := gcd_of_list hinv l hit hpos
  have hlen : w.items.length = l.length := by rw [hit]; simp
  have hne2 : w.items ≠ [] := by
    intro hc
    rw [hit] at hc
    exact hne (List.map_eq_nil_iff.mp hc)
  obtain ⟨tr, ps, hc, hres, hcur, hcnt⟩ :=
    @proportional_reset _ w hinv hne2 hp fuel (by rw [hlen]; exact hf)
  rw [hit, weights_of_list, hg] at hc
  rw [hlen] at hcur
  rw [hg] at hcnt
  exact ⟨w, tr, ps, hadd, hit, hg, hc, hres, hcur, hcnt⟩

/-- Witness of C1: the items `a = 5`, `b = 1`, `c = 1`. -/
theorem C1_proportional_witness :
    [("a", (5 : Int)), ("b", 1), ("c", 1)] ≠ [] ∧
      (∀ p ∈ [("a", (5 : Int)), ("b", 1), ("c", 1)], 0 < p.2) ∧
      2 * [("a", (5 : Int)), ("b", 1), ("c", 1)].length ≤ 6 ∧
      ∃ (w : RRW String) (tr : List (RRW String × Option String)) (ps : List Nat),
        (RRW.zero String).addAll [("a", 5), ("b", 1), ("c", 1)] = .ok w ∧
        w.items = [("a", (5 : Int)), ("b", 1), ("c", 1)].map (fun p => ⟨p.1, p.2⟩) ∧
        w.gcd = gcdOf ([("a", (5 : Int)), ("b", 1), ("c", 1)].map Prod.snd) ∧
        w.Reset.calls 6
          (([("a", (5 : Int)), ("b", 1), ("c", 1)].map Prod.snd).sum /
            gcdOf ([("a", (5 : Int)), ("b", 1), ("c", 1)].map Prod.snd)).toNat = .ok tr ∧
        tr.map Prod.snd = ps.map (fun p => (w.items.get? p).map fun x => x.Item) ∧
        (2 ≤ [("a", (5 : Int)), ("b", 1), ("c", 1)].length →
          tr.map (fun s => s.1.i) = ps.map (fun (p : Nat) => (p : Int))) ∧
        ∀ p x, w.items.get? p = some x →
          ps.count p =
            (x.Weight / gcdOf ([("a", (5 : Int)), ("b", 1), ("c", 1)].map Prod.snd)).toNat :=
  ⟨by decide, by decide, by decide,
    C1_proportional [("a", 5), ("b", 1), ("c", 1)] (by decide) (by decide) 6 (by decide)⟩

/-- C2 (proportionality over any window): for a selector built from the zero value by
calls of `Add` only, holding at least two items and all weights positive, with `g` the
greatest common divisor of the weights: among the successive calls of `Next`, those
numbered `m + 1` to `m + sum / g`, for any `m`, return the items of a list `ps` of
slots, the positions of the cursor after these calls, in which every slot `p` occurs
exactly `weight p / g` times. -/
theorem C2_window (l : List (α × Int)) (h2 : 2 ≤ l.length) (hpos : ∀ p ∈ l, 0 < p.2)
    (fuel : Nat) (hf : 2 * l.length ≤ fuel) (m : Nat) :
    ∃ (w : RRW α) (tr : List (RRW α × Option α)) (ps : List Nat),
      (RRW.zero α).addAll l = .ok w ∧ w.items = l.map (fun p => ⟨p.1, p.2⟩) ∧
      w.gcd = gcdOf (l.map Prod.snd) ∧
      w.calls fuel (m + ((l.map Prod.snd).sum / gcdOf (l.map Prod.snd)).toNat) = .ok tr ∧
      (tr.drop m).map Prod.snd = ps.map (fun p => (w.items.get? p).map fun x => x.Item) ∧
      (tr.drop m).map (fun s => s.1.i) = ps.map (fun (p : Nat) => (p : Int)) ∧
      ∀ p x, w.items.get? p = some x →
        ps.count p = (x.Weight / gcdOf (l.map Prod.snd)).toNat := by
  have hne : l ≠ [] := by
    intro hc
    rw [hc] at h2
    simp at h2
  obtain ⟨w, hadd, hit, hinv, hi, hcw⟩ := addAll_zero l hne hpos
  obtain ⟨hg, hp⟩ := gcd_of_list hinv l hit hpos
  have hlen : w.items.length = l.length := by rw [hit]; simp
  have hn2 : 2 ≤ w.n := by have := hinv.len; omega
  obtain ⟨tr, ps, hc, hres, hcur, hcnt⟩ :=
    @window_spec _ w hinv hn2 hp hi hcw fuel (by rw [hlen]; exact hf) m
  rw [hit, weights_of_list, hg] at hc
  rw [hg] at hcnt
  exact ⟨w, tr, ps, hadd, hit, hg, hc, hres, hcur, hcnt⟩

/-- Witness of C2: the items `a = 5`, `b = 1`, `c = 1` and the window after three
calls. -/
theorem C2_window_witness :
    2 ≤ [("a", (5 : Int)), ("b", 1), ("c", 1)].length ∧
      (∀ p ∈ [("a", (5 : Int)), ("b", 1), ("c", 1)], 0 < p.2) ∧
      2 * [("a", (5 : Int)), ("b", 1), ("c", 1)].length ≤ 6 ∧
      ∃ (w : RRW String) (tr : List (RRW String × Option String)) (ps : List Nat),
        (RRW.zero String).addAll [("a", 5), ("b", 1), ("c", 1)] = .ok w ∧
        w.items = [("a", (5 : Int)), ("b", 1), ("c", 1)].map (fun p => ⟨p.1, p.2⟩) ∧
        w.gcd = gcdOf ([("a", (5 : Int)), ("b", 1), ("c", 1)].map Prod.snd) ∧
        w.calls 6
          (3 + (([("a", (5 : Int)), ("b", 1), ("c", 1)].map Prod.snd).sum /
            gcdOf ([("a", (5 : Int)), ("b", 1), ("c", 1)].map Prod.snd)).toNat) = .ok tr ∧
        (tr.drop 3).map Prod.snd = ps.map (fun p => (w.items.get? p).map fun x => x.Item) ∧
        (tr.drop 3).map (fun s => s.1.i) = ps.map (fun (p : Nat) => (p : Int)) ∧
        ∀ p x, w.items.get? p = some x →
          ps.count p =
            (x.Weight / gcdOf ([("a", (5 : Int)), ("b", 1), ("c", 1)].map Prod.snd)).toNat :=
  ⟨by decide, by decide, by decide,
    C2_window [("a", 5), ("b", 1), ("c", 1)] (by decide) (by decide) 6 (by decide) 3⟩

/-- C3 as stated fails: on the selector with `a = 5` and `b = 0`, where
`ceil(maxW / gcd) = 1`, three consecutive calls of `Next` return `a`. -/
theorem C3_counterexample :
    (RRW.zero String).addAll [("a", 5), ("b", 0)] =
        .ok ⟨[⟨"a", 5⟩, ⟨"b", 0⟩], 2, 5, 5, -1, 0, ""⟩ ∧
      ((5 : Int) + 5 - 1) / 5 = 1 ∧
      (⟨[⟨"a", 5⟩, ⟨"b", 0⟩], 2, 5, 5, -1, 0, ""⟩ : RRW String).results 4 3 =
        .ok [some "a", some "a", some "a"] := by
  decide

/-- C3 as amended (smoothness): in every reachable state in which at least two slots
have a positive weight, any number `L` of consecutive calls of `Next` return, and when
they all end with the cursor on the same slot, `L` is at most `ceil(maxW / gcd)`; the
same bound holds when they all return the same item, if the items in the slice are
pairwise different. -/
theorem C3_smooth {box : String → α} {w : RRW α} (h : Reachable box w)
    (hp : 2 ≤ w.positiveWeights.length) {fuel : Nat} (hf : 2 * w.items.length ≤ fuel)
    (L : Nat) :
    ∃ tr, w.calls fuel L = .ok tr ∧
      (∀ p : Int, (∀ t ∈ tr, t.1.i = p) → (L : Int) ≤ (w.maxW + w.gcd - 1) / w.gcd) ∧
      ((w.items.map fun x => x.Item).Nodup → ∀ a : α, (∀ t ∈ tr, t.2 = some a) →
        (L : Int) ≤ (w.maxW + w.gcd - 1) / w.gcd) := by
  obtain ⟨tr, htr⟩ := calls_total L h.inv hf
  exact ⟨tr, htr, fun p hall => run_bound h.inv hp hf htr hall,
    fun hnd a hall => run_bound_item h.inv hp hnd hf htr hall⟩

/-- Witness of C3: the selector with `a = 2` and `b = 1`, three calls. -/
theorem C3_smooth_witness :
    2 ≤ (⟨[⟨"a", 2⟩, ⟨"b", 1⟩], 2, 1, 2, -1, 0, ""⟩ : RRW String).positiveWeights.length ∧
      2 * (⟨[⟨"a", 2⟩, ⟨"b", 1⟩], 2, 1, 2, -1, 0, ""⟩ : RRW String).items.length ≤ 4 ∧
      ∃ tr, (⟨[⟨"a", 2⟩, ⟨"b", 1⟩], 2, 1, 2, -1, 0, ""⟩ : RRW String).calls 4 3 = .ok tr ∧
        (∀ p : Int, (∀ t ∈ tr, t.1.i = p) →
          ((3 : Nat) : Int) ≤
            ((⟨[⟨"a", 2⟩, ⟨"b", 1⟩], 2, 1, 2, -1, 0, ""⟩ : RRW String).maxW +
              (⟨[⟨"a", 2⟩, ⟨"b", 1⟩], 2, 1, 2, -1, 0, ""⟩ : RRW String).gcd - 1) /
              (⟨[⟨"a", 2⟩, ⟨"b", 1⟩], 2, 1, 2, -1, 0, ""⟩ : RRW String).gcd) ∧
        (((⟨[⟨"a", 2⟩, ⟨"b", 1⟩], 2, 1, 2, -1, 0, ""⟩ : RRW String).items.map
            fun x => x.Item).Nodup →
          ∀ a : String, (∀ t ∈ tr, t.2 = some a) →
            ((3 : Nat) : Int) ≤
              ((⟨[⟨"a", 2⟩, ⟨"b", 1⟩], 2, 1, 2, -1, 0, ""⟩ : RRW String).maxW +
                (⟨[⟨"a", 2⟩, ⟨"b", 1⟩], 2, 1, 2, -1, 0, ""⟩ : RRW String).gcd - 1) /
                (⟨[⟨"a", 2⟩, ⟨"b", 1⟩], 2, 1, 2, -1, 0, ""⟩ : RRW String).gcd) :=
  ⟨by decide, by decide,
    C3_smooth
      (@Reachable.add String id ⟨[⟨"a", 2⟩], 1, 2, 2, -1, 0, ""⟩
        ⟨[⟨"a", 2⟩, ⟨"b", 1⟩], 2, 1, 2, -1, 0, ""⟩ "b" 1
        (@Reachable.add String id (RRW.zero String) ⟨[⟨"a", 2⟩], 1, 2, 2, -1, 0, ""⟩ "a" 2
          Reachable.zero (by decide))
        (by decide))
      (by decide) (by decide) 3⟩

/-- C4 (single item): a selector whose slice holds exactly one item, of any weight,
returns that item on every call of `Next`, whatever calls of `Reset` come in between
and whatever the fuel. -/
theorem C4_single_item (item : α) (weight : Int) (w : RRW α) (hn : w.n = 1)
    (hit : w.items = [⟨item, weight⟩]) (fuel : Nat) (cs : List Call) :
    w.run fuel cs = .ok (List.replicate (cs.count Call.next) (some item)) :=
  run_single fuel ⟨item, weight⟩ cs w hn hit

/-- Witness of C4: the selector made by `Add("a", -3)` on the zero value, then
`Next`, `Reset`, `Next`. -/
theorem C4_single_item_witness :
    (RRW.zero String).Add "a" (-3) = .ok ⟨[⟨"a", -3⟩], 1, 0, 0, 0, 0, ""⟩ ∧
      (⟨[⟨"a", -3⟩], 1, 0, 0, 0, 0, ""⟩ : RRW String).run 0 [.next, .reset, .next] =
        .ok (List.replicate ([Call.next, Call.reset, Call.next].count Call.next) (some "a")) :=
  ⟨by decide, C4_single_item "a" (-3) ⟨[⟨"a", -3⟩], 1, 0, 0, 0, 0, ""⟩ rfl rfl 0
    [.next, .reset, .next]⟩

/-- C5 (all weights non-positive), at the failing input: on the selector made from the
zero value by `Add("a", 0)` and `Add("b", 0)` the first call of `Next` returns `"b"`,
not `nil`; the second returns `nil`, the third `"b"` again. -/
theorem C5_zero_weight_returned :
    ((RRW.zero String).addAll [("a", 0), ("b", 0)]).bind (fun w => w.results 4 3) =
      .ok [some "b", none, some "b"] := by
  decide

/-- C6 as stated fails: `Add` stores an item that is `nil`.  On the selector made from
the zero value by `Add(nil, 5)` and `Add("b", 1)`, which holds two items, both of
positive weight, the first call of `Next` returns the item of slot `0`, and the value
the caller gets is `nil`, the value of the empty signal. -/
theorem C6_counterexample :
    (RRW.zero (Option String)).addAll [(none, 5), (some "b", 1)] =
        .ok ⟨[⟨none, 5⟩, ⟨some "b", 1⟩], 2, 1, 5, -1, 0, ""⟩ ∧
      (⟨[⟨none, 5⟩, ⟨some "b", 1⟩], 2, 1, 5, -1, 0, ""⟩ : RRW (Option String)).Next 4 =
        .ok (⟨[⟨none, 5⟩, ⟨some "b", 1⟩], 2, 1, 5, 0, 5, ""⟩, some none) ∧
      (⟨[⟨none, 5⟩, ⟨some "b", 1⟩], 2, 1, 5, -1, 0, ""⟩ : RRW (Option String)).NextValue 4 =
        .ok (⟨[⟨none, 5⟩, ⟨some "b", 1⟩], 2, 1, 5, 0, 5, ""⟩, none) := by
  decide

/-- C6 as amended (non-positive weights are inert in a mixed set): in every reachable
state of a selector whose items are values of type `interface{}`, `nil` included, that
holds at least two items, one of them with a positive weight, a call of `Next` returns
through the return of an item, not through `return nil`; the value the caller gets is
the item held by the slot the cursor ends on, and the weight of that slot is positive.
So the value is `nil` only when that slot holds `nil`, and it is never `nil` when no
item of the slice is. -/
theorem C6_positive_slot {β : Type} {box : String → Option β} {w : RRW (Option β)}
    (h : Reachable box w) (h2 : 2 ≤ w.items.length) (hp : ∃ x ∈ w.items, 0 < x.Weight)
    {fuel : Nat} (hf : 2 * w.items.length ≤ fuel) :
    ∃ w1 y, w.Next fuel = .ok (w1, some y.Item) ∧ w.NextValue fuel = .ok (w1, y.Item) ∧
      index w.items w1.i = .ok y ∧ y ∈ w.items ∧ 0 < y.Weight ∧
      ((∀ x ∈ w.items, x.Item ≠ none) → ∃ v, w.NextValue fuel = .ok (w1, some v)) := by
  have hinv := h.inv
  have hn2 : 2 ≤ w.n := by have := hinv.len; omega
  obtain ⟨x, hx, hxpos⟩ := hp
  have hg : 0 < w.gcd := by
    rcases eq_or_lt_of_le hinv.gcd_nonneg with h0 | h0
    · have := hinv.no_pos h0.symm x hx
      omega
    · exact h0
  obtain ⟨w1, r, hnext⟩ := Next_total hinv hf
  obtain ⟨y, hy, hr, hpos⟩ := Next_slot hinv hn2 hg hf hnext
  have hnext2 : w.Next fuel = .ok (w1, some y.Item) := by rw [hnext, hr]
  have hval : w.NextValue fuel = .ok (w1, y.Item) := by
    rw [RRW.NextValue, hnext2]
    rfl
  have hmem : y ∈ w.items := List.get?_mem (index_ok hy).2
  refine ⟨w1, y, hnext2, hval, hy, hmem, hpos, fun hall => ?_⟩
  cases hv : y.Item with
  | none => exact absurd hv (hall y hmem)
  | some v => exact ⟨v, by rw [hval, hv]⟩

/-- Witness of C6: the selector made by `Add("a", 5)` and `Add("b", 0)`, which holds
no `nil`. -/
theorem C6_positive_slot_witness :
    ∃ w1 y, (⟨[⟨some "a", 5⟩, ⟨some "b", 0⟩], 2, 5, 5, -1, 0, ""⟩ :
          RRW (Option String)).Next 4 = .ok (w1, some y.Item) ∧
      (⟨[⟨some "a", 5⟩, ⟨some "b", 0⟩], 2, 5, 5, -1, 0, ""⟩ :
          RRW (Option String)).NextValue 4 = .ok (w1, y.Item) ∧
      index (⟨[⟨some "a", 5⟩, ⟨some "b", 0⟩], 2, 5, 5, -1, 0, ""⟩ :
          RRW (Option String)).items w1.i = .ok y ∧
      y ∈ (⟨[⟨some "a", 5⟩, ⟨some "b", 0⟩], 2, 5, 5, -1, 0, ""⟩ :
          RRW (Option String)).items ∧
      0 < y.Weight ∧
      ∃ v, (⟨[⟨some "a", 5⟩, ⟨some "b", 0⟩], 2, 5, 5, -1, 0, ""⟩ :
          RRW (Option String)).NextValue 4 = .ok (w1, some v) :=
  match C6_positive_slot
    (@Reachable.add (Option String) some ⟨[⟨some "a", 5⟩], 1, 5, 5, -1, 0, ""⟩
      ⟨[⟨some "a", 5⟩, ⟨some "b", 0⟩], 2, 5, 5, -1, 0, ""⟩ (some "b") 0
      (@Reachable.add (Option String) some (RRW.zero (Option String))
        ⟨[⟨some "a", 5⟩], 1, 5, 5, -1, 0, ""⟩ (some "a") 5 Reachable.zero (by decide))
      (by decide))
    (by decide) ⟨⟨some "a", 5⟩, by decide, by decide⟩ (by decide : 2 * 2 ≤ 4) with
  | ⟨w1, y, h1, h2, h3, h4, h5, h6⟩ => ⟨w1, y, h1, h2, h3, h4, h5, h6 (by decide)⟩

/-- C7 (reset replay): in any state, when `j` calls of `Next` return, `Reset` after them
gives the state that `Reset` gives before them, so the `k` results after the reset are
the same; and in a reachable state the `j` calls and the `k` calls of the replay do
return. -/
theorem C7_reset_replay (s : RRW α) (j k fuel : Nat) :
    (∀ tr, s.calls fuel j = .ok tr →
        (endState s tr).Reset = s.Reset ∧
          (endState s tr).Reset.results fuel k = s.Reset.results fuel k) ∧
      (∀ box : String → α, Reachable box s → 2 * s.items.length ≤ fuel →
        ∃ tr rs, s.calls fuel j = .ok tr ∧ s.Reset.results fuel k = .ok rs ∧
          (endState s tr).Reset.results fuel k = .ok rs) := by
  constructor
  · intro tr htr
    have := calls_reset j htr
    exact ⟨this, by rw [this]⟩
  · intro box hr hf
    obtain ⟨tr, htr⟩ := calls_total j hr.inv hf
    obtain ⟨tr2, htr2⟩ := @calls_total _ fuel k _ hr.inv.reset hf
    refine ⟨tr, tr2.map Prod.snd, htr, ?_, ?_⟩
    · simp [RRW.results, htr2]
    · rw [calls_reset j htr]
      simp [RRW.results, htr2]

/-- Witness of C7: the selector with `a = 2`, `b = 1`, after one call and after none. -/
theorem C7_reset_replay_witness :
    (endState (⟨[⟨"a", 2⟩, ⟨"b", 1⟩], 2, 1, 2, -1, 0, ""⟩ : RRW String)
        [(⟨[⟨"a", 2⟩, ⟨"b", 1⟩], 2, 1, 2, 0, 2, ""⟩, some "a")]).Reset =
      (⟨[⟨"a", 2⟩, ⟨"b", 1⟩], 2, 1, 2, -1, 0, ""⟩ : RRW String).Reset ∧
    (endState (⟨[⟨"a", 2⟩, ⟨"b", 1⟩], 2, 1, 2, -1, 0, ""⟩ : RRW String)
        [(⟨[⟨"a", 2⟩, ⟨"b", 1⟩], 2, 1, 2, 0, 2, ""⟩, some "a")]).Reset.results 4 3 =
      (⟨[⟨"a", 2⟩, ⟨"b", 1⟩], 2, 1, 2, -1, 0, ""⟩ : RRW String).Reset.results 4 3 :=
  (C7_reset_replay (⟨[⟨"a", 2⟩, ⟨"b", 1⟩], 2, 1, 2, -1, 0, ""⟩ : RRW String) 1 3 4).1
    [(⟨[⟨"a", 2⟩, ⟨"b", 1⟩], 2, 1, 2, 0, 2, ""⟩, some "a")] (by decide)

/-- C8 (`RemoveAll` against a new selector), at the failing input: after `RemoveAll`,
`Add("a", 0)` and `Add("b", 0)` the first call of `Next` returns `nil`, while on a new
selector with the same two calls of `Add` it returns `"b"`. -/
theorem C8_removeAll_differs :
    ((RRW.zero String).RemoveAll.addAll [("a", 0), ("b", 0)]).bind
        (fun w => w.results 4 1) = .ok [none] ∧
      ((RRW.zero String).addAll [("a", 0), ("b", 0)]).bind
        (fun w => w.results 4 1) = .ok [some "b"] := by
  decide

/-- C9 (the aggregates track the positive weights): in every reachable state the stored
`gcd` is the greatest common divisor of the positive weights in the slice and the
stored `maxW` is the largest of them, both `0` when there is none. -/
theorem C9_aggregates {box : String → α} {w : RRW α} (h : Reachable box w) :
    w.gcd = gcdOf w.positiveWeights ∧ w.maxW = maxOf w.positiveWeights :=
  h.inv.aggregates

/-- Witness of C9: the selector made by `Add("a", 6)` and `Add("b", 4)`. -/
theorem C9_aggregates_witness :
    (⟨[⟨"a", 6⟩, ⟨"b", 4⟩], 2, 2, 6, -1, 0, ""⟩ : RRW String).gcd =
        gcdOf (⟨[⟨"a", 6⟩, ⟨"b", 4⟩], 2, 2, 6, -1, 0, ""⟩ : RRW String).positiveWeights ∧
      (⟨[⟨"a", 6⟩, ⟨"b", 4⟩], 2, 2, 6, -1, 0, ""⟩ : RRW String).maxW =
        maxOf (⟨[⟨"a", 6⟩, ⟨"b", 4⟩], 2, 2, 6, -1, 0, ""⟩ : RRW String).positiveWeights :=
  C9_aggregates
    (@Reachable.add String id ⟨[⟨"a", 6⟩], 1, 6, 6, -1, 0, ""⟩
      ⟨[⟨"a", 6⟩, ⟨"b", 4⟩], 2, 2, 6, -1, 0, ""⟩ "b" 4
      (@Reachable.add String id (RRW.zero String) ⟨[⟨"a", 6⟩], 1, 6, 6, -1, 0, ""⟩ "a" 6
        Reachable.zero (by decide))
      (by decide))

/-- C10 as stated fails: after `Add("a", 1)`, `Add("b", 1)` and one call of `Next` the
cursor is `0` and the current weight `1`, and `Add("c", 1)` leaves them so. -/
theorem C10_counterexample :
    ((RRW.zero String).addAll [("a", 1), ("b", 1)]).bind
        (fun w => (w.Next 4).bind fun r => r.1.Add "c" 1) =
      .ok ⟨[⟨"a", 1⟩, ⟨"b", 1⟩, ⟨"c", 1⟩], 3, 1, 1, 0, 1, ""⟩ ∧
    ¬ ((⟨[⟨"a", 1⟩, ⟨"b", 1⟩, ⟨"c", 1⟩], 3, 1, 1, 0, 1, ""⟩ : RRW String).i = -1 ∧
      (⟨[⟨"a", 1⟩, ⟨"b", 1⟩, ⟨"c", 1⟩], 3, 1, 1, 0, 1, ""⟩ : RRW String).cw = 0) := by
  decide

/-- C10 as amended: `Add` returns in every state; it sets the cursor to `-1` and the
current weight to `0` when the weight added is positive and the stored `gcd` is `0`,
and leaves both unchanged otherwise; `RemoveAll` always sets them to `-1` and `0`. -/
theorem C10_cursor_after_add (w : RRW α) (item : α) (weight : Int) :
    (∃ w1, w.Add item weight = .ok w1 ∧
        (0 < weight ∧ w.gcd = 0 → w1.i = -1 ∧ w1.cw = 0) ∧
        (¬ (0 < weight ∧ w.gcd = 0) → w1.i = w.i ∧ w1.cw = w.cw)) ∧
      w.RemoveAll.i = -1 ∧ w.RemoveAll.cw = 0 := by
  refine ⟨?_, rfl, rfl⟩
  by_cases hw : 0 < weight
  · by_cases hg : w.gcd = 0
    · exact ⟨_, Add_first w item hw hg, fun _ => ⟨rfl, rfl⟩, fun hc => absurd ⟨hw, hg⟩ hc⟩
    · obtain ⟨g, -, -, -, hadd⟩ := Add_more w item hw hg
      exact ⟨_, hadd, fun hc => absurd hc.2 hg, fun _ => ⟨rfl, rfl⟩⟩
  · exact ⟨_, Add_nonpos w item (not_lt.mp hw), fun hc => absurd hc.1 hw,
      fun _ => ⟨rfl, rfl⟩⟩

/-- C11 (`AddFrom` on a well-formed configuration): for a non-empty list of well-formed
entries, on the source made of their texts joined with `,`, `AddFrom` returns `nil`, and
the state after it is the state after `Add(key, weight)` for the entries in order, with
the source stored as the raw configuration. -/
theorem C11_addFrom_wellFormed (box : String → α) (w : RRW α) (es : List ConfigEntry)
    (hne : es ≠ []) (hwf : ∀ e ∈ es, e.wellFormed) :
    ∃ w1, w.addAll (es.map fun e => (box (String.mk e.key), e.weight)) = .ok w1 ∧
      w.AddFrom box (String.mk (joinWith ',' (es.map ConfigEntry.text))) =
        ({ w1 with data := String.mk (joinWith ',' (es.map ConfigEntry.text)) },
          AddFromResult.nil) := by
  have hsplit : split ',' (joinWith ',' (es.map ConfigEntry.text)) =
      es.map ConfigEntry.text := by
    apply split_joinWith
    · simpa using hne
    · intro p hp
      obtain ⟨e, he, rfl⟩ := List.mem_map.mp hp
      exact text_no_comma e (hwf e he)
  obtain ⟨w1, hall, -, hrest⟩ := addEntries_good box [] (wellFormed_forall₂ es hwf) w
  rw [List.map_map] at hall
  refine ⟨w1, hall, ?_⟩
  rw [List.append_nil] at hrest
  unfold RRW.AddFrom
  show (match RRW.addEntries box w (split ',' (joinWith ',' (es.map ConfigEntry.text))) with
    | (w1, AddFromResult.nil) => _
    | r => r) = _
  rw [hsplit, hrest]
  rfl

/-- Witness of C11: the source `"a=5, b=1,c = 3"`. -/
theorem C11_addFrom_wellFormed_witness :
    ([⟨['a'], 5, [], [], [], []⟩, ⟨['b'], 1, [' '], [], [], []⟩,
        ⟨['c'], 3, [], [' '], [' '], []⟩] : List ConfigEntry) ≠ [] ∧
      (∀ e ∈ ([⟨['a'], 5, [], [], [], []⟩, ⟨['b'], 1, [' '], [], [], []⟩,
        ⟨['c'], 3, [], [' '], [' '], []⟩] : List ConfigEntry), e.wellFormed) ∧
      String.mk (joinWith ','
        (([⟨['a'], 5, [], [], [], []⟩, ⟨['b'], 1, [' '], [], [], []⟩,
          ⟨['c'], 3, [], [' '], [' '], []⟩] : List ConfigEntry).map ConfigEntry.text)) =
        "a=5, b=1,c = 3" ∧
      ∃ w1, (RRW.zero String).addAll
          (([⟨['a'], 5, [], [], [], []⟩, ⟨['b'], 1, [' '], [], [], []⟩,
            ⟨['c'], 3, [], [' '], [' '], []⟩] : List ConfigEntry).map
              fun e => (id (String.mk e.key), e.weight)) = .ok w1 ∧
        (RRW.zero String).AddFrom id (String.mk (joinWith ','
          (([⟨['a'], 5, [], [], [], []⟩, ⟨['b'], 1, [' '], [], [], []⟩,
            ⟨['c'], 3, [], [' '], [' '], []⟩] : List ConfigEntry).map ConfigEntry.text))) =
          ({ w1 with data := String.mk (joinWith ','
              (([⟨['a'], 5, [], [], [], []⟩, ⟨['b'], 1, [' '], [], [], []⟩,
                ⟨['c'], 3, [], [' '], [' '], []⟩] : List ConfigEntry).map
                  ConfigEntry.text)) },
            AddFromResult.nil) :=
  ⟨by decide, by decide, by decide,
    C11_addFrom_wellFormed id (RRW.zero String)
      [⟨['a'], 5, [], [], [], []⟩, ⟨['b'], 1, [' '], [], [], []⟩,
        ⟨['c'], 3, [], [' '], [' '], []⟩] (by decide) (by decide)⟩

/-- C12 (malformed configuration), at the failing inputs: for `"a=2,b"` the call of
`AddFrom` panics on `parts[1]` after it has added `a`, and for `""` it panics at once;
it does not return an error.  For `"a=2,b=notanumber"` it returns the error. -/
theorem C12_missing_equals_panics :
    (RRW.zero String).AddFrom id "a=2,b" =
        (⟨[⟨"a", 2⟩], 1, 2, 2, -1, 0, ""⟩, AddFromResult.panic) ∧
      (RRW.zero String).AddFrom id "" = (RRW.zero String, AddFromResult.panic) ∧
      (RRW.zero String).AddFrom id "a=2,b=notanumber" =
        (⟨[⟨"a", 2⟩], 1, 2, 2, -1, 0, ""⟩, AddFromResult.parseError) := by
  decide

/-- C13 (`AddFrom` is fail-fast and not transactional): when the first entries of the
source read as a key and an integer, and the next entry has a piece after its first `=`
that `strconv.Atoi` rejects, `AddFrom` returns the error, and the state after it is the
state after `Add` of the pairs read before, in order: nothing later is added and the
raw configuration stays as it was. -/
theorem C13_fail_fast (box : String → α) (w : RRW α) (source : String)
    (good : List (List Char)) (pairs : List (String × Int)) (bad : List Char)
    (rest : List (List Char)) (hsplit : split ',' source.toList = good ++ bad :: rest)
    (hgood : List.Forall₂ (fun e p => parseEntry e = .ok (some p)) good pairs)
    (hbad : ∃ p1, index (split '=' bad) 1 = .ok p1 ∧ Atoi (TrimSpace p1) = none) :
    ∃ w1, w.addAll (pairs.map fun p => (box p.1, p.2)) = .ok w1 ∧
      w.AddFrom box source = (w1, AddFromResult.parseError) ∧ w1.data = w.data := by
  obtain ⟨p1, h1, h2⟩ := hbad
  obtain ⟨w1, hall, hdata, hrest⟩ := addEntries_good box (bad :: rest) hgood w
  rw [addEntries_error box w1 rest (parseEntry_error h1 h2)] at hrest
  refine ⟨w1, hall, ?_, hdata⟩
  unfold RRW.AddFrom
  rw [hsplit, hrest]

/-- Witness of C13: the source `"a=2,b=notanumber"` on the zero value. -/
theorem C13_fail_fast_witness :
    split ',' "a=2,b=notanumber".toList = ["a=2".toList] ++ "b=notanumber".toList :: [] ∧
      List.Forall₂ (fun e p => parseEntry e = .ok (some p)) ["a=2".toList] [("a", 2)] ∧
      (∃ p1, index (split '=' "b=notanumber".toList) 1 = .ok p1 ∧
        Atoi (TrimSpace p1) = none) ∧
      ∃ w1, (RRW.zero String).addAll ([("a", (2 : Int))].map fun p => (id p.1, p.2)) = .ok w1 ∧
        (RRW.zero String).AddFrom id "a=2,b=notanumber" = (w1, AddFromResult.parseError) ∧
        w1.data = (RRW.zero String).data :=
  ⟨by decide, List.Forall₂.cons (by decide) List.Forall₂.nil,
    ⟨"notanumber".toList, by decide, by decide⟩,
    C13_fail_fast id (RRW.zero String) "a=2,b=notanumber" ["a=2".toList] [("a", 2)]
      "b=notanumber".toList [] (by decide) (List.Forall₂.cons (by decide) List.Forall₂.nil)
      ⟨"notanumber".toList, by decide, by decide⟩⟩

/-- C14 as stated fails: `Add` and `Next` take any item, `All` uses the item as the key
of a map.  With items that are a string or a slice of integers, the slices not being
hashable, the selector made from the zero value by `Add([]int{1}, 1)` returns its item
from `Next`, and `All` panics on it. -/
theorem C14_counterexample :
    (RRW.zero (String ⊕ List Int)).addAll [(.inr [1], 1)] =
        .ok ⟨[⟨.inr [1], 1⟩], 1, 1, 1, -1, 0, ""⟩ ∧
      (⟨[⟨.inr [1], 1⟩], 1, 1, 1, -1, 0, ""⟩ : RRW (String ⊕ List Int)).Next 0 =
        .ok (⟨[⟨.inr [1], 1⟩], 1, 1, 1, -1, 0, ""⟩, some (.inr [1])) ∧
      (⟨[⟨.inr [1], 1⟩], 1, 1, 1, -1, 0, ""⟩ : RRW (String ⊕ List Int)).All Sum.isLeft =
        .panic :=
  ⟨by decide, by decide, rfl⟩

/-- C14 as amended (`All` is a last-wins snapshot of hashable items): for every
selector whose items are all hashable, `All` returns, the call leaves the state as it
was, the keys of the map returned are the items that occur in the slice, and the map
sends such an item to the weight of its last occurrence; for every selector that holds
an item that is not hashable, `All` panics. -/
theorem C14_all_snapshot [DecidableEq α] (hashable : α → Bool) (w : RRW α) :
    ((∀ x ∈ w.items, hashable x.Item = true) →
      ∃ m, w.All hashable = .ok (w, m) ∧
        (∀ a, (m a).isSome ↔ a ∈ w.items.map fun x => x.Item) ∧
        ∀ a, m a = (w.items.reverse.find? fun x => x.Item = a).map fun x => x.Weight) ∧
      ((∃ x ∈ w.items, hashable x.Item = false) → w.All hashable = .panic) := by
  refine ⟨fun h => ?_, fun h => ?_⟩
  · obtain ⟨m, hm, hlook⟩ := All_lookup hashable w h
    refine ⟨m, hm, fun a => ?_, hlook⟩
    rw [hlook]
    simp only [Option.isSome_map', List.find?_isSome, List.mem_reverse, List.mem_map,
      decide_eq_true_eq]
  · rw [RRW.All, allLoop_panic hashable w.items _ h]
    rfl

/-- Witness of C14: the selector made by `Add("a", 2)`, `Add("b", 3)` and
`Add("a", 4)`, its items being strings, which are hashable. -/
theorem C14_all_snapshot_witness :
    (∀ x ∈ (⟨[⟨.inl "a", 2⟩, ⟨.inl "b", 3⟩, ⟨.inl "a", 4⟩], 3, 1, 4, -1, 0, ""⟩ :
        RRW (String ⊕ List Int)).items, Sum.isLeft x.Item = true) ∧
      ∃ m, (⟨[⟨.inl "a", 2⟩, ⟨.inl "b", 3⟩, ⟨.inl "a", 4⟩], 3, 1, 4, -1, 0, ""⟩ :
          RRW (String ⊕ List Int)).All Sum.isLeft =
          .ok (⟨[⟨.inl "a", 2⟩, ⟨.inl "b", 3⟩, ⟨.inl "a", 4⟩], 3, 1, 4, -1, 0, ""⟩, m) ∧
        (∀ a, (m a).isSome ↔
          a ∈ (⟨[⟨.inl "a", 2⟩, ⟨.inl "b", 3⟩, ⟨.inl "a", 4⟩], 3, 1, 4, -1, 0, ""⟩ :
            RRW (String ⊕ List Int)).items.map fun x => x.Item) ∧
        ∀ a, m a =
          ((⟨[⟨.inl "a", 2⟩, ⟨.inl "b", 3⟩, ⟨.inl "a", 4⟩], 3, 1, 4, -1, 0, ""⟩ :
            RRW (String ⊕ List Int)).items.reverse.find? fun x => x.Item = a).map
            fun x => x.Weight :=
  ⟨by decide,
    (C14_all_snapshot Sum.isLeft
      (⟨[⟨.inl "a", 2⟩, ⟨.inl "b", 3⟩, ⟨.inl "a", 4⟩], 3, 1, 4, -1, 0, ""⟩ :
        RRW (String ⊕ List Int))).1 (by decide)⟩

/-- C15 (registry): after `Set(x, a)`, `Get(x)` returns `(a, true)`; a following
`Set(y, b)` with `y` different from `x` leaves that so; on a registry from
`NewScheduler` every `Get` returns `(nil, false)`; and `Get` leaves the registry as it
was. -/
theorem C15_registry {P : Type} (s : SchedulerRRW P) (x y : String) (hxy : x ≠ y)
    (a b : Option P) :
    ((s.Set x a).Get x).2 = (a, true) ∧ (((s.Set x a).Set y b).Get x).2 = (a, true) ∧
      (∀ k, ((NewScheduler P).Get k).2 = (none, false)) ∧ ∀ k, (s.Get k).1 = s := by
  refine ⟨?_, ?_, ?_, ?_⟩
  · simp [SchedulerRRW.Get, SchedulerRRW.Set]
  · simp [SchedulerRRW.Get, SchedulerRRW.Set, hxy]
  · intro k; rfl
  · intro k
    unfold SchedulerRRW.Get
    split <;> rfl

/-- Witness of C15: the keys `"x"` and `"y"` on a new registry of pointers `0`, `1`. -/
theorem C15_registry_witness :
    "x" ≠ "y" ∧
      ((((NewScheduler Nat).Set "x" (some 0)).Get "x").2 = (some 0, true) ∧
        ((((NewScheduler Nat).Set "x" (some 0)).Set "y" (some 1)).Get "x").2 = (some 0, true) ∧
        (∀ k, ((NewScheduler Nat).Get k).2 = (none, false)) ∧
        ∀ k, ((NewScheduler Nat).Get k).1 = NewScheduler Nat) :=
  ⟨by decide, C15_registry (NewScheduler Nat) "x" "y" (by decide) (some 0) (some 1)⟩

/-- C16 (empty selector): with the counter `n` at `0` a call of `Next` returns `nil`
and leaves the state as it was; so it does on the zero value and right after
`RemoveAll`, whatever the state before. -/
theorem C16_empty (w : RRW α) (fuel : Nat) :
    (w.n = 0 → w.Next fuel = .ok (w, none)) ∧
      (RRW.zero α).Next fuel = .ok (RRW.zero α, none) ∧
      w.RemoveAll.Next fuel = .ok (w.RemoveAll, none) ∧
      (RRW.zero α).items = [] ∧ w.RemoveAll.items = [] := by
  refine ⟨fun h => by simp [RRW.Next, h], by simp [RRW.Next, RRW.zero],
    by simp [RRW.Next, RRW.RemoveAll], rfl, rfl⟩

/-- Witness of C16: a state whose counter is `0`. -/
theorem C16_empty_witness :
    (⟨[], 0, 0, 0, -1, 0, "x=1"⟩ : RRW String).Next 0 =
      .ok (⟨[], 0, 0, 0, -1, 0, "x=1"⟩, none) :=
  (C16_empty (⟨[], 0, 0, 0, -1, 0, "x=1"⟩ : RRW String) 0).1 rfl

/-- C17 (the loop of `Next` is bounded): in every reachable state the counter `n` is
the number of items and a call of `Next` returns when its loop is given `2 * n`
iterations; with two items or more, where the loop is entered, the loop itself returns
within `2 * n` iterations. -/
theorem C17_bound {box : String → α} {w : RRW α} (h : Reachable box w) :
    w.n = w.items.length ∧
      ∃ w1 r, w.Next (2 * w.items.length) = .ok (w1, r) ∧
        (2 ≤ w.items.length → w.nextLoop (2 * w.items.length) = .ok (w1, r)) := by
  refine ⟨h.inv.len, ?_⟩
  obtain ⟨w1, r, hn⟩ := @Next_total _ w h.inv (2 * w.items.length) (le_refl _)
  refine ⟨w1, r, hn, fun h2 => ?_⟩
  have h0 : w.n ≠ 0 := by have := h.inv.len; omega
  have h1 : w.n ≠ 1 := by have := h.inv.len; omega
  unfold RRW.Next at hn
  rwa [if_neg h0, if_neg h1] at hn

/-- Witness of C17: the selector made by `Add("a", 5)` and `Add("b", 0)`. -/
theorem C17_bound_witness :
    (⟨[⟨"a", 5⟩, ⟨"b", 0⟩], 2, 5, 5, -1, 0, ""⟩ : RRW String).n =
        (⟨[⟨"a", 5⟩, ⟨"b", 0⟩], 2, 5, 5, -1, 0, ""⟩ : RRW String).items.length ∧
      ∃ w1 r, (⟨[⟨"a", 5⟩, ⟨"b", 0⟩], 2, 5, 5, -1, 0, ""⟩ : RRW String).Next
            (2 * (⟨[⟨"a", 5⟩, ⟨"b", 0⟩], 2, 5, 5, -1, 0, ""⟩ : RRW String).items.length) =
          .ok (w1, r) ∧
        (2 ≤ (⟨[⟨"a", 5⟩, ⟨"b", 0⟩], 2, 5, 5, -1, 0, ""⟩ : RRW String).items.length →
          (⟨[⟨"a", 5⟩, ⟨"b", 0⟩], 2, 5, 5, -1, 0, ""⟩ : RRW String).nextLoop
              (2 * (⟨[⟨"a", 5⟩, ⟨"b", 0⟩], 2, 5, 5, -1, 0, ""⟩ : RRW String).items.length) =
            .ok (w1, r)) :=
  C17_bound
    (@Reachable.add String id ⟨[⟨"a", 5⟩], 1, 5, 5, -1, 0, ""⟩
      ⟨[⟨"a", 5⟩, ⟨"b", 0⟩], 2, 5, 5, -1, 0, ""⟩ "b" 0
      (@Reachable.add String id (RRW.zero String) ⟨[⟨"a", 5⟩], 1, 5, 5, -1, 0, ""⟩ "a" 5
        Reachable.zero (by decide))
      (by decide))

/-- C18 as stated fails: on the selector with `a = 5` and `b = 0` the cycle is one call,
which returns `a` and leaves the cursor on slot `0`, not on slot `n - 1 = 1`. -/
theorem C18_counterexample :
    (RRW.zero String).addAll [("a", 5), ("b", 0)] =
        .ok ⟨[⟨"a", 5⟩, ⟨"b", 0⟩], 2, 5, 5, -1, 0, ""⟩ ∧
      ((⟨[⟨"a", 5⟩, ⟨"b", 0⟩], 2, 5, 5, -1, 0, ""⟩ : RRW String).positiveWeights.sum /
        (⟨[⟨"a", 5⟩, ⟨"b", 0⟩], 2, 5, 5, -1, 0, ""⟩ : RRW String).gcd).toNat = 1 ∧
      (⟨[⟨"a", 5⟩, ⟨"b", 0⟩], 2, 5, 5, -1, 0, ""⟩ : RRW String).Reset.calls 4 1 =
        .ok [(⟨[⟨"a", 5⟩, ⟨"b", 0⟩], 2, 5, 5, 0, 5, ""⟩, some "a")] ∧
      ¬ ((⟨[⟨"a", 5⟩, ⟨"b", 0⟩], 2, 5, 5, 0, 5, ""⟩ : RRW String).i =
        (⟨[⟨"a", 5⟩, ⟨"b", 0⟩], 2, 5, 5, 0, 5, ""⟩ : RRW String).n - 1) := by
  decide

/-- C18 as amended (closed form of one cycle): for a selector built from the zero value
by calls of `Add` only, holding at least two items, one of them of positive weight,
with `g` and `M` the stored `gcd` and `maxW`, which are the greatest common divisor
and the maximum of the positive weights: after `Reset` the first
`sum of the positive weights / g` calls of `Next` return, for the levels `M`, `M - g`,
..., `g` in turn, the items in the order of the slice whose weight reaches the level;
after these calls the current weight is `g` and the cursor is on the last slot of
positive weight, which is slot `n - 1` when the last item has a positive weight; and
the calls that follow are these same calls again. -/
theorem C18_cycle (l : List (α × Int)) (h2 : 2 ≤ l.length) (hp : ∃ p ∈ l, 0 < p.2)
    (fuel : Nat) (hf : 2 * l.length ≤ fuel) :
    ∃ (w : RRW α) (tr : List (RRW α × Option α)),
      (RRW.zero α).addAll l = .ok w ∧ w.items = l.map (fun p => ⟨p.1, p.2⟩) ∧
      w.gcd = gcdOf w.positiveWeights ∧ w.maxW = maxOf w.positiveWeights ∧
      w.Reset.calls fuel (w.positiveWeights.sum / w.gcd).toNat = .ok tr ∧
      tr.map Prod.snd = ((levelsDown w.gcd (w.maxW / w.gcd).toNat).flatMap fun c =>
        (w.items.filter fun x => decide (c ≤ x.Weight)).map fun x => some x.Item) ∧
      (endState w.Reset tr).cw = w.gcd ∧
      (∃ pre x post, w.items = pre ++ x :: post ∧
        (endState w.Reset tr).i = (pre.length : Int) ∧ 0 < x.Weight ∧
        ∀ y ∈ post, y.Weight ≤ 0) ∧
      (∀ y, w.items.getLast? = some y → 0 < y.Weight → (endState w.Reset tr).i = w.n - 1) ∧
      (endState w.Reset tr).calls fuel (w.positiveWeights.sum / w.gcd).toNat = .ok tr := by
  obtain ⟨w, hadd, hit, hinv, -⟩ := addAll_spec l (RRW.zero α)
  have hit2 : w.items = l.map (fun p => ⟨p.1, p.2⟩) := by simpa [RRW.zero] using hit
  have hinv2 : Inv w := hinv Inv.zero
  have hlen : w.items.length = l.length := by rw [hit2]; simp
  have hn2 : 2 ≤ w.n := by have := hinv2.len; omega
  have hg : 0 < w.gcd := by
    obtain ⟨p, hpl, hppos⟩ := hp
    have hx : (⟨p.1, p.2⟩ : rrWeighted α) ∈ w.items := by
      rw [hit2]; exact List.mem_map.mpr ⟨p, hpl, rfl⟩
    rcases eq_or_lt_of_le hinv2.gcd_nonneg with h0 | h0
    · have := hinv2.no_pos h0.symm _ hx
      simp only at this
      omega
    · exact h0
  obtain ⟨tr, hc, hres, hcw, hcur, hagain⟩ :=
    @cycle_closed _ w.Reset hinv2.reset hn2 hg rfl rfl fuel (by rw [← hlen] at hf; exact hf)
  obtain ⟨pre, x, post, hpit, hpi, hxpos, hpost⟩ := hcur
  refine ⟨w, tr, hadd, hit2, hinv2.aggregates.1, hinv2.aggregates.2, hc, hres, hcw,
    ⟨pre, x, post, hpit, hpi, hxpos, hpost⟩, ?_, hagain⟩
  intro y hy hypos
  have hpit2 : w.items = pre ++ x :: post := hpit
  cases post with
  | nil =>
    rw [hpi, hinv2.len, hpit2]
    simp
  | cons z post =>
    exfalso
    rw [hpit2] at hy
    have hmem : y ∈ z :: post := by
      have h3 : (pre ++ x :: z :: post).getLast? = (z :: post).getLast? := by
        rw [show pre ++ x :: z :: post = (pre ++ [x]) ++ (z :: post) by simp,
          List.getLast?_append_of_ne_nil _ (by simp)]
      rw [h3] at hy
      exact List.mem_of_mem_getLast? hy
    have := hpost y hmem
    omega

/-- Witness of C18: the items `a = 5`, `b = 0`, `c = 1`. -/
theorem C18_cycle_witness :
    2 ≤ [("a", (5 : Int)), ("b", 0), ("c", 1)].length ∧
      (∃ p ∈ [("a", (5 : Int)), ("b", 0), ("c", 1)], 0 < p.2) ∧
      2 * [("a", (5 : Int)), ("b", 0), ("c", 1)].length ≤ 6 ∧
      ∃ (w : RRW String) (tr : List (RRW String × Option String)),
        (RRW.zero String).addAll [("a", 5), ("b", 0), ("c", 1)] = .ok w ∧
        w.items = [("a", (5 : Int)), ("b", 0), ("c", 1)].map (fun p => ⟨p.1, p.2⟩) ∧
        w.gcd = gcdOf w.positiveWeights ∧ w.maxW = maxOf w.positiveWeights ∧
        w.Reset.calls 6 (w.positiveWeights.sum / w.gcd).toNat = .ok tr ∧
        tr.map Prod.snd = ((levelsDown w.gcd (w.maxW / w.gcd).toNat).flatMap fun c =>
          (w.items.filter fun x => decide (c ≤ x.Weight)).map fun x => some x.Item) ∧
        (endState w.Reset tr).cw = w.gcd ∧
        (∃ pre x post, w.items = pre ++ x :: post ∧
          (endState w.Reset tr).i = (pre.length : Int) ∧ 0 < x.Weight ∧
          ∀ y ∈ post, y.Weight ≤ 0) ∧
        (∀ y, w.items.getLast? = some y → 0 < y.Weight →
          (endState w.Reset tr).i = w.n - 1) ∧
        (endState w.Reset tr).calls 6 (w.positiveWeights.sum / w.gcd).toNat = .ok tr :=
  ⟨by decide, ⟨("a", 5), by decide, by decide⟩, by decide,
    C18_cycle [("a", 5), ("b", 0), ("c", 1)] (by decide) ⟨("a", 5), by decide, by decide⟩ 6
      (by decide)⟩

/-- C19 (no division by zero in `gcd`): in every reachable state, for every item and
every weight, zero and negative included, the call `Add(item, weight)` returns; it
calls `gcd` when `weight > 0` and `w.gcd != 0`, on `(w.gcd, weight)`, and at no other
time; and for every call `gcd(x, y)` that it makes, `x` and `y` are positive, the call
returns (it neither divides by zero nor runs for ever), and what it returns is
positive: the greatest common divisor of the two, which `Add` stores. -/
theorem C19_gcd_args {box : String → α} {w : RRW α} (h : Reachable box w) (item : α)
    (weight : Int) :
    (w.AddTraced item weight).1 = w.Add item weight ∧
      (w.AddTraced item weight).2 =
        (if 0 < weight ∧ w.gcd ≠ 0 then [(w.gcd, weight)] else []) ∧
      ∃ w1, w.Add item weight = .ok w1 ∧
        ∀ c ∈ (w.AddTraced item weight).2, 0 < c.1 ∧ 0 < c.2 ∧
          ∃ g, Server.gcd c.1 c.2 = .ok g ∧ 0 < g ∧ g = (Int.gcd c.1 c.2 : Int) ∧
            w1.gcd = g := by
  have hnn := h.inv.gcd_nonneg
  refine ⟨?_, ?_, ?_⟩
  · by_cases hw : 0 < weight
    · by_cases hg : w.gcd = 0
      · simp [RRW.AddTraced, RRW.Add, hw, hg]
      · simp [RRW.AddTraced, RRW.Add, hw, hg]
    · simp [RRW.AddTraced, RRW.Add, hw]
  · by_cases hw : 0 < weight
    · by_cases hg : w.gcd = 0
      · simp [RRW.AddTraced, hw, hg]
      · simp [RRW.AddTraced, hw, hg]
    · simp [RRW.AddTraced, hw]
  · by_cases hw : 0 < weight
    · by_cases hg : w.gcd = 0
      · exact ⟨_, Add_first w item hw hg, by simp [RRW.AddTraced, hw, hg]⟩
      · have hpos : 0 < w.gcd := lt_of_le_of_ne hnn (Ne.symm hg)
        obtain ⟨g, hgcd, hgpos, hval, hadd⟩ := Add_more w item hw hg
        refine ⟨_, hadd, ?_⟩
        intro c hc
        have hc2 : c = (w.gcd, weight) := by simpa [RRW.AddTraced, hw, hg] using hc
        subst hc2
        exact ⟨hpos, hw, g, hgcd, hgpos, hval hpos, rfl⟩
    · exact ⟨_, Add_nonpos w item (not_lt.mp hw), by simp [RRW.AddTraced, hw]⟩

/-- Witness of C19: the selector made by `Add("a", 6)`, and the call `Add("b", 4)`. -/
theorem C19_gcd_args_witness :
    ((⟨[⟨"a", 6⟩], 1, 6, 6, -1, 0, ""⟩ : RRW String).AddTraced "b" 4).1 =
        (⟨[⟨"a", 6⟩], 1, 6, 6, -1, 0, ""⟩ : RRW String).Add "b" 4 ∧
      ((⟨[⟨"a", 6⟩], 1, 6, 6, -1, 0, ""⟩ : RRW String).AddTraced "b" 4).2 =
        (if (0 : Int) < 4 ∧ (⟨[⟨"a", 6⟩], 1, 6, 6, -1, 0, ""⟩ : RRW String).gcd ≠ 0 then
          [((⟨[⟨"a", 6⟩], 1, 6, 6, -1, 0, ""⟩ : RRW String).gcd, 4)] else []) ∧
      ∃ w1, (⟨[⟨"a", 6⟩], 1, 6, 6, -1, 0, ""⟩ : RRW String).Add "b" 4 = .ok w1 ∧
        ∀ c ∈ ((⟨[⟨"a", 6⟩], 1, 6, 6, -1, 0, ""⟩ : RRW String).AddTraced "b" 4).2,
          0 < c.1 ∧ 0 < c.2 ∧
            ∃ g, Server.gcd c.1 c.2 = .ok g ∧ 0 < g ∧ g = (Int.gcd c.1 c.2 : Int) ∧
              w1.gcd = g :=
  C19_gcd_args
    (@Reachable.add String id (RRW.zero String) ⟨[⟨"a", 6⟩], 1, 6, 6, -1, 0, ""⟩ "a" 6
      Reachable.zero (by decide))
    "b" 4

/-- C20 (no index out of range in `Next`): in every reachable state the counter `n` is
the length of the slice and the cursor is at least `-1`; a call of `Next` does not
panic, whatever the fuel; on the path for a single item `w.items[0]` is in range; and
a run of the loop body leaves the cursor between `0` and `n - 1`. -/
theorem C20_index {box : String → α} {w : RRW α} (h : Reachable box w) :
    w.n = w.items.length ∧ -1 ≤ w.i ∧ (∀ fuel, w.Next fuel ≠ .panic) ∧
      (w.n = 1 → ∃ x, index w.items 0 = .ok x) ∧
      (2 ≤ w.n → ∀ s, w.nextBody = .ok s → 0 ≤ s.state.i ∧ s.state.i ≤ w.n - 1) := by
  refine ⟨h.inv.len, h.inv.i_lo, Next_ne_panic h.inv, ?_, ?_⟩
  · intro h1
    have hlen : w.items.length = 1 := by have := h.inv.len; omega
    obtain ⟨x, hx⟩ := List.length_eq_one.mp hlen
    exact ⟨x, by rw [hx]; rfl⟩
  · intro h2 s hs
    obtain ⟨-, -, h3, h4, -⟩ := nextBody_inv h.inv h2 hs
    exact ⟨h3, by omega⟩

/-- Witness of C20: the selector made by `Add("a", 5)` and `Add("b", 0)`. -/
theorem C20_index_witness :
    (⟨[⟨"a", 5⟩, ⟨"b", 0⟩], 2, 5, 5, -1, 0, ""⟩ : RRW String).n =
        (⟨[⟨"a", 5⟩, ⟨"b", 0⟩], 2, 5, 5, -1, 0, ""⟩ : RRW String).items.length ∧
      -1 ≤ (⟨[⟨"a", 5⟩, ⟨"b", 0⟩], 2, 5, 5, -1, 0, ""⟩ : RRW String).i ∧
      (∀ fuel, (⟨[⟨"a", 5⟩, ⟨"b", 0⟩], 2, 5, 5, -1, 0, ""⟩ : RRW String).Next fuel ≠ .panic) ∧
      ((⟨[⟨"a", 5⟩, ⟨"b", 0⟩], 2, 5, 5, -1, 0, ""⟩ : RRW String).n = 1 →
        ∃ x, index (⟨[⟨"a", 5⟩, ⟨"b", 0⟩], 2, 5, 5, -1, 0, ""⟩ : RRW String).items 0 = .ok x) ∧
      (2 ≤ (⟨[⟨"a", 5⟩, ⟨"b", 0⟩], 2, 5, 5, -1, 0, ""⟩ : RRW String).n →
        ∀ s, (⟨[⟨"a", 5⟩, ⟨"b", 0⟩], 2, 5, 5, -1, 0, ""⟩ : RRW String).nextBody = .ok s →
          0 ≤ s.state.i ∧
            s.state.i ≤ (⟨[⟨"a", 5⟩, ⟨"b", 0⟩], 2, 5, 5, -1, 0, ""⟩ : RRW String).n - 1) :=
  C20_index
    (@Reachable.add String id ⟨[⟨"a", 5⟩], 1, 5, 5, -1, 0, ""⟩
      ⟨[⟨"a", 5⟩, ⟨"b", 0⟩], 2, 5, 5, -1, 0, ""⟩ "b" 0
      (@Reachable.add String id (RRW.zero String) ⟨[⟨"a", 5⟩], 1, 5, 5, -1, 0, ""⟩ "a" 5
        Reachable.zero (by decide))
      (by decide))

end Server
